import Mathlib

/-!
# Region decomposition of the ZPIC particle-in-cell code

A shallow embedding of `src/parallel/region.c` (construction of the ring of
regions, linking of neighbours, the per-timestep driver) and of
`src/parallel/openacc_ompss2/kernel_current.c` (the guard-cell kernels of the
electric current), followed by theorems about them.

Conventions of the embedding.

* A pointer to a region is an address `Nat`; `Option Nat` is a pointer that may
  be `NULL`.  The heap maps an address to the region stored there and `malloc`
  hands out the next unused address.
* C `int` values are `Int`; the counter `iter`, which the code increments, wraps
  as a 32-bit `int` does.
* The `float` arithmetic of lines 18-19 of `region_new` comes twice: taken
  exactly, in `ℚ` (`region_new`), and rounded to binary32 as the compiled code
  does (`region_new_binary32`); the two agree while `n_regions * |nx[1]|` is
  below `2^24` (`region_new_binary32_eq`).
* A kernel whose accesses to memory matter is also given with every read and
  write of a cell logged (`current_reduction_y_logged`,
  `current_gc_update_y_logged`).
* A C array reached through a pointer is a function from the offset (an `Int`,
  offsets may be negative) to the element.
* A `while` loop or a recursive function whose termination depends on the shape
  of the heap takes a `fuel : Nat`; every loop test and every activation of a
  recursive function uses one unit, and running out gives `none`.
* An operation of another translation unit (`spec_advance`, `emf_advance`, ...)
  is recorded in a trace, in program order.
-/

set_option autoImplicit false

namespace Zpic

/-! ## Data model -/

/-- Smoothing kinds of a current (`enum smooth_type`); only `NONE` is named in `region.c`. -/
inductive smooth_type where
  | NONE
  | BINOMIAL
  | COMPENSATED
deriving DecidableEq, Repr

/-- Mode argument of `region_current_smooth`; `OTHER` is any value that reaches `default:`. -/
inductive CURRENT_SMOOTH_MODE where
  | SMOOTH_X
  | CURRENT_UPDATE_GC
  | OTHER
deriving DecidableEq, Repr

/-- Mode argument of `region_emf_advance`; `OTHER` is any value that reaches `default:`. -/
inductive EMF_UPDATE where
  | EMF_ADVANCE
  | EMF_UPDATE_GC
  | OTHER
deriving DecidableEq, Repr

/-- A particle: its cell (`ix`, `iy`) and the remaining fields, which the region code only copies. -/
structure t_part where
  ix : Int
  iy : Int
  rest : Nat
deriving DecidableEq, Repr

/-- A particle buffer: `data` holds the `size` particles in use, `size_max` is the capacity. -/
structure t_particle_vector where
  data : List t_part
  size_max : Int
deriving DecidableEq, Repr

/-- Number of particles in use (`size`). -/
def t_particle_vector.size (v : t_particle_vector) : Int := (v.data.length : Int)

/-- Reference to a temp buffer: `&R->species[s].temp_buffer[slot]` for the region at address `region`. -/
structure t_buffer_ref where
  region : Nat
  species : Nat
  slot : Nat
deriving DecidableEq, Repr

/-- A species of one region: the particles it owns, the two buffers that receive particles
from the neighbours, and the two buffers of the neighbours it sends to. -/
structure t_species where
  name : String
  main_vector : t_particle_vector
  temp_buffer : t_particle_vector × t_particle_vector
  outgoing_part : Option t_buffer_ref × Option t_buffer_ref
  moving_window : Bool
deriving DecidableEq, Repr

/-- A cell of a vector field. -/
structure t_vfld (F : Type) where
  x : F
  y : F
  z : F
deriving DecidableEq, Repr

/-- The electric current of a region.  `J` and `J_upper` are the cell arrays seen from the two
pointers of the same names; `upper_of` is the current whose buffer `J_upper` points into. -/
structure t_current (F : Type) where
  nx : Int × Int
  nrow : Int
  gc : (Int × Int) × (Int × Int)
  iter : Int
  J : Int → t_vfld F
  J_upper : Int → t_vfld F
  smooth_xtype : smooth_type
  moving_window : Bool
  overlap_zone : Int
  upper_of : Option Nat

/-- The electromagnetic field of a region, as far as `region.c` reads or writes it. -/
structure t_emf where
  nx : Int × Int
  moving_window : Bool
  upper_of : Option Nat
deriving DecidableEq, Repr

/-- A region: a band of rows of the grid with its particles, current and field. -/
structure t_region (F : Type) where
  id : Int
  prev : Option Nat
  next : Option Nat
  limits_y : Int × Int
  nx : Int × Int
  n_species : Nat
  species : List t_species
  local_current : t_current F
  local_emf : t_emf

/-- The store of regions: the region at each address, and the next address `malloc` returns. -/
structure Heap (F : Type) where
  cell : Nat → Option (t_region F)
  brk : Nat

/-- Store a region at an address. -/
def Heap.write {F : Type} (h : Heap F) (a : Nat) (r : t_region F) : Heap F :=
  { h with cell := fun x => if x = a then some r else h.cell x }

/-- Allocate room for a region (`malloc(sizeof(t_region))`): a fresh address. -/
def Heap.malloc {F : Type} (h : Heap F) : Nat × Heap F :=
  (h.brk, { h with brk := h.brk + 1 })

/-- The constructors of the other translation units that `region_new` calls. -/
structure Externals (F : Type) where
  spec_new : t_species → t_species
  current_new : Int × Int → ℚ × ℚ → ℚ → t_current F
  emf_new : Int × Int → ℚ × ℚ → ℚ → t_emf

/-! ## `region_new` -/

/-- Lines 44-50 of `region_new`: grow the buffer by 1024 when it is full, then append. -/
def push_particle (particles : t_particle_vector) (part : t_part) : t_particle_vector :=
  let size_max := if particles.size + 1 > particles.size_max
    then particles.size_max + 1024 else particles.size_max
  { data := particles.data ++ [part], size_max := size_max }

/-- Lines 37-52 of `region_new`: copy the particles of the template whose row is in `limits_y`. -/
def copy_particles (limits_y : Int × Int) (src : t_particle_vector)
    (particles : t_particle_vector) : t_particle_vector :=
  src.data.foldl
    (fun v part => if part.iy < limits_y.2 ∧ part.iy ≥ limits_y.1 then push_particle v part else v)
    particles

/-- Lines 30-53 of `region_new`: species `n` of the region. -/
def new_species {F : Type} (ext : Externals F) (limits_y : Int × Int) (spec : Nat → t_species)
    (n : Nat) : t_species :=
  let s := ext.spec_new (spec n)
  { s with main_vector := copy_particles limits_y (spec n).main_vector s.main_vector }

/-- Lines 15-62 of `region_new`, the arithmetic of lines 18-19 taken exactly: every field of the
region but `next`. -/
def region_init {F : Type} (ext : Externals F) (n_regions : Int) (nx : Int × Int) (id : Int)
    (n_spec : Nat) (spec : Nat → t_species) (box : ℚ × ℚ) (dt : ℚ)
    (prev_region : Option Nat) : t_region F :=
  let limits_y : Int × Int :=
    (Int.floor ((id : ℚ) * (nx.2 : ℚ) / (n_regions : ℚ)),
     Int.floor (((id + 1 : Int) : ℚ) * (nx.2 : ℚ) / (n_regions : ℚ)))
  let rnx : Int × Int := (nx.1, limits_y.2 - limits_y.1)
  let region_box : ℚ × ℚ := (box.1, box.2 / (nx.2 : ℚ) * ((limits_y.2 - limits_y.1 : Int) : ℚ))
  { id := id
    prev := prev_region
    next := none
    limits_y := limits_y
    nx := rnx
    n_species := n_spec
    species := (List.range n_spec).map (new_species ext limits_y spec)
    local_current := ext.current_new rnx region_box dt
    local_emf := ext.emf_new rnx region_box dt }

/-- Line 76 of `region_new`: `while (p->id != 0) p = p->prev;`. -/
def first_by_prev {F : Type} (h : Heap F) : Nat → Nat → Option Nat
  | 0, _ => none
  | fuel + 1, p =>
    match h.cell p with
    | none => none
    | some r =>
      if r.id ≠ 0 then
        match r.prev with
        | none => none
        | some q => first_by_prev h fuel q
      else some p

/-- Lines 73-80 of `region_new`: bridge the last region with the first. -/
def close_ring {F : Type} (fuel : Nat) (h : Heap F) (region : Nat) : Option (Heap F) :=
  match first_by_prev h fuel region with
  | none => none
  | some p =>
    match h.cell p with
    | none => none
    | some rp =>
      let h1 := h.write p { rp with prev := some region }
      match h1.cell region with
      | none => none
      | some rr => some (h1.write region { rr with next := some p })

/-- The function `region_new`, the arithmetic of lines 18-19 taken exactly: initialise the
region at `region` and, recursively, the ones after it. -/
def region_new {F : Type} (ext : Externals F) (n_regions : Int) (nx : Int × Int) (n_spec : Nat)
    (spec : Nat → t_species) (box : ℚ × ℚ) (dt : ℚ) :
    Nat → Heap F → Nat → Int → Option Nat → Option (Heap F)
  | 0, _, _, _, _ => none
  | fuel + 1, h, region, id, prev_region =>
    let r := region_init ext n_regions nx id n_spec spec box dt prev_region
    let h1 := h.write region r
    if id + 1 < n_regions then
      let (p, h2) := h1.malloc
      let h3 := h2.write region { r with next := some p }
      region_new ext n_regions nx n_spec spec box dt fuel h3 p (id + 1) (some region)
    else
      close_ring fuel h1 region

/-! ## `region_new` in binary32 -/

/-- The quotient `num / den` (for `den > 0`) rounded to the nearest integer, a tie going to the
even one: the rounding of IEEE 754 arithmetic. -/
def round_half_even (num den : Nat) : Nat :=
  let q := num / den
  let r := num % den
  if 2 * r < den then q
  else if den < 2 * r then q + 1
  else if q % 2 = 0 then q else q + 1

/-- Halving `n` until it is below 2, at most `fuel` times: the number of halvings. -/
def floor_log2_aux : Nat → Nat → Nat
  | 0, _ => 0
  | fuel + 1, n => if n < 2 then 0 else floor_log2_aux fuel (n / 2) + 1

/-- The exponent `e` with `2^e ≤ n < 2^(e+1)`, for `n ≥ 1`. -/
def floor_log2 (n : Nat) : Nat := floor_log2_aux n n

/-- The binary32 value nearest to the natural number `n`: `n` itself below `2^24`, and above it
`n` rounded to a multiple of `2^(e-23)`, where `2^e ≤ n < 2^(e+1)` (24 significant bits; no
overflow, the magnitudes that arise from C `int`s are below `2^62`). -/
def binary32_of_nat (n : Nat) : Nat :=
  if n < 16777216 then n
  else
    let ulp := 2 ^ (floor_log2 n - 23)
    round_half_even n ulp * ulp

/-- The binary32 value nearest to the integer `z`: the conversion `(float) z`, and the rounding
of an integer result. -/
def binary32_of_int (z : Int) : Int :=
  if z < 0 then -((binary32_of_nat z.natAbs : Nat) : Int)
  else ((binary32_of_nat z.natAbs : Nat) : Int)

/-- The value `floor(a / b)` for two binary32 values `a` and `b` that are integers, the division
done in binary32: with `2^e ≤ |a / b| < 2^(e+1)` the quotient is rounded to a multiple of
`2^(e-23)`, then `floor` is taken.  (Division by zero, which gives no number, is given 0.) -/
def binary32_div_floor (a b : Int) : Int :=
  let n := a.natAbs
  let d := b.natAbs
  if d = 0 ∨ n = 0 then 0
  else
    let e : Int :=
      if d ≤ n then ((floor_log2 (n / d) : Nat) : Int)
      else -(((floor_log2 ((d - 1) / n) : Nat) : Int) + 1)
    if 23 ≤ e then
      let ulp := 2 ^ (e - 23).toNat
      let m := round_half_even n (d * ulp) * ulp
      if (a < 0 ↔ b < 0) then (m : Int) else -(m : Int)
    else
      let k := (23 - e).toNat
      let m := round_half_even (n * 2 ^ k) d
      if (a < 0 ↔ b < 0) then ((m / 2 ^ k : Nat) : Int)
      else -(((m + 2 ^ k - 1) / 2 ^ k : Nat) : Int)

/-- Lines 18-19 of `region_new` as the compiled code evaluates them:
`floor((float) id * nx[1] / n_regions)` with `nx[1]` and `n_regions` converted to `float` and
the product and the quotient each rounded to binary32 (`float` operations are not carried out
in a wider format). -/
def limit_binary32 (id nx1 n_regions : Int) : Int :=
  binary32_div_floor (binary32_of_int (binary32_of_int id * binary32_of_int nx1))
    (binary32_of_int n_regions)

/-- Lines 15-62 of `region_new` with the limits of lines 18-19 in binary32, as compiled: every
field of the region but `next`. -/
def region_init_binary32 {F : Type} (ext : Externals F) (n_regions : Int) (nx : Int × Int)
    (id : Int) (n_spec : Nat) (spec : Nat → t_species) (box : ℚ × ℚ) (dt : ℚ)
    (prev_region : Option Nat) : t_region F :=
  let limits_y : Int × Int :=
    (limit_binary32 id nx.2 n_regions, limit_binary32 (id + 1) nx.2 n_regions)
  let rnx : Int × Int := (nx.1, limits_y.2 - limits_y.1)
  let region_box : ℚ × ℚ := (box.1, box.2 / (nx.2 : ℚ) * ((limits_y.2 - limits_y.1 : Int) : ℚ))
  { id := id
    prev := prev_region
    next := none
    limits_y := limits_y
    nx := rnx
    n_species := n_spec
    species := (List.range n_spec).map (new_species ext limits_y spec)
    local_current := ext.current_new rnx region_box dt
    local_emf := ext.emf_new rnx region_box dt }

/-- The function `region_new` with the limits of lines 18-19 in binary32, as compiled. -/
def region_new_binary32 {F : Type} (ext : Externals F) (n_regions : Int) (nx : Int × Int)
    (n_spec : Nat) (spec : Nat → t_species) (box : ℚ × ℚ) (dt : ℚ) :
    Nat → Heap F → Nat → Int → Option Nat → Option (Heap F)
  | 0, _, _, _, _ => none
  | fuel + 1, h, region, id, prev_region =>
    let r := region_init_binary32 ext n_regions nx id n_spec spec box dt prev_region
    let h1 := h.write region r
    if id + 1 < n_regions then
      let (p, h2) := h1.malloc
      let h3 := h2.write region { r with next := some p }
      region_new_binary32 ext n_regions nx n_spec spec box dt fuel h3 p (id + 1) (some region)
    else
      close_ring fuel h1 region

/-! ## `region_link_adj_regions` -/

/-- Modelled from the spec: `spec_adjacent_vectors` is not in the sources read here; it wires
the species to the temp buffers of the two neighbours by storing the two references passed. -/
def spec_adjacent_vectors (spec : t_species) (next_spec prev_spec : t_buffer_ref) : t_species :=
  { spec with outgoing_part := (some next_spec, some prev_spec) }

/-- Modelled from the spec: `current_overlap_zone` is not in the sources read here; it records
the current of the neighbour passed as the one the upper buffer is shared with. -/
def current_overlap_zone {F : Type} (current : t_current F) (upper_current : Nat) : t_current F :=
  { current with upper_of := some upper_current }

/-- Modelled from the spec: `emf_overlap_zone` is not in the sources read here; it records the
field of the neighbour passed as the one the upper buffers are shared with. -/
def emf_overlap_zone (emf : t_emf) (upper_emf : Nat) : t_emf :=
  { emf with upper_of := some upper_emf }

/-- Lines 90-92 of `region_link_adj_regions`: the loop over the species of the region. -/
def link_species (n_species : Nat) (next prev : Nat) (species : List t_species) : List t_species :=
  (List.range n_species).foldl
    (fun sp i => sp.modify (fun s => spec_adjacent_vectors s ⟨next, i, 0⟩ ⟨prev, i, 1⟩) i)
    species

/-- The function `region_link_adj_regions`.  It reads `region->prev` and `region->next` and the
`species` pointers of both neighbours, so all three regions must be initialised. -/
def region_link_adj_regions {F : Type} (h : Heap F) (region : Nat) : Option (Heap F) :=
  match h.cell region with
  | none => none
  | some r =>
    match r.prev, r.next with
    | some prev, some next =>
      match h.cell prev, h.cell next with
      | some _, some _ =>
        some (h.write region
          { r with
            local_current := current_overlap_zone r.local_current prev
            local_emf := emf_overlap_zone r.local_emf prev
            species := link_species r.n_species next prev r.species })
      | _, _ => none
    | _, _ => none

/-! ## The driver of a timestep -/

/-- A call into another translation unit, with the region (by address) whose data it is given. -/
inductive Op where
  | current_zero (region : Nat)
  | spec_advance (region : Nat) (species : Nat)
  | current_reduction_x (region : Nat)
  | spec_update_main_vector (region : Nat) (species : Nat)
  | current_reduction_y (region : Nat)
  | current_smooth_x (region : Nat)
  | current_gc_update_y (region : Nat)
  | emf_advance (region : Nat)
  | emf_update_gc_y (region : Nat)
  | emf_update_gc_x (region : Nat)
  | emf_add_laser (region : Nat) (offset_y : Int)
  | div_corr_x (region : Nat)
deriving DecidableEq, Repr

/-- Body of the task `Spec Advance` for the region at `region` (lines 165-170). -/
def spec_advance_task (region : Nat) (n_species : Nat) : List Op :=
  [Op.current_zero region] ++ (List.range n_species).map (Op.spec_advance region)
    ++ [Op.current_reduction_x region]

/-- Body of the task `Spec Update` for the region at `region` (lines 181-182). -/
def spec_update_task (region : Nat) (n_species : Nat) : List Op :=
  (List.range n_species).map (Op.spec_update_main_vector region)

/-- Body of `switch (mode)` in `region_current_smooth` (lines 202-217). -/
def current_smooth_task (region : Nat) : CURRENT_SMOOTH_MODE → List Op
  | .SMOOTH_X => [Op.current_smooth_x region]
  | .CURRENT_UPDATE_GC => [Op.current_gc_update_y region]
  | .OTHER => []

/-- Body of `switch (mode)` in `region_emf_advance` (lines 226-245). -/
def emf_advance_task (region : Nat) : EMF_UPDATE → List Op
  | .EMF_ADVANCE => [Op.emf_advance region]
  | .EMF_UPDATE_GC => [Op.emf_update_gc_y region]
  | .OTHER => []

/-- The function `region_spec_advance`. -/
def region_spec_advance {F : Type} (h : Heap F) : Nat → Nat → Option (List Op)
  | 0, _ => none
  | fuel + 1, region =>
    match h.cell region with
    | none => none
    | some r =>
      match r.next with
      | none => none
      | some next =>
        match h.cell next with
        | none => none
        | some rn =>
          if rn.id ≠ 0 then
            (region_spec_advance h fuel next).map (spec_advance_task region r.n_species ++ ·)
          else some (spec_advance_task region r.n_species)

/-- The function `region_spec_update`. -/
def region_spec_update {F : Type} (h : Heap F) : Nat → Nat → Option (List Op)
  | 0, _ => none
  | fuel + 1, region =>
    match h.cell region with
    | none => none
    | some r =>
      match r.next with
      | none => none
      | some next =>
        match h.cell next with
        | none => none
        | some rn =>
          if rn.id ≠ 0 then
            (region_spec_update h fuel next).map (spec_update_task region r.n_species ++ ·)
          else some (spec_update_task region r.n_species)

/-- The function `region_current_reduction_y`. -/
def region_current_reduction_y {F : Type} (h : Heap F) : Nat → Nat → Option (List Op)
  | 0, _ => none
  | fuel + 1, region =>
    match h.cell region with
    | none => none
    | some r =>
      match r.next with
      | none => none
      | some next =>
        match h.cell next with
        | none => none
        | some rn =>
          if rn.id ≠ 0 then
            (region_current_reduction_y h fuel next).map ([Op.current_reduction_y region] ++ ·)
          else some [Op.current_reduction_y region]

/-- The function `region_current_smooth`. -/
def region_current_smooth {F : Type} (h : Heap F) (mode : CURRENT_SMOOTH_MODE) :
    Nat → Nat → Option (List Op)
  | 0, _ => none
  | fuel + 1, region =>
    match h.cell region with
    | none => none
    | some r =>
      match r.next with
      | none => none
      | some next =>
        match h.cell next with
        | none => none
        | some rn =>
          if rn.id ≠ 0 then
            (region_current_smooth h mode fuel next).map (current_smooth_task region mode ++ ·)
          else some (current_smooth_task region mode)

/-- The function `region_emf_advance`. -/
def region_emf_advance {F : Type} (h : Heap F) (mode : EMF_UPDATE) :
    Nat → Nat → Option (List Op)
  | 0, _ => none
  | fuel + 1, region =>
    match h.cell region with
    | none => none
    | some r =>
      match r.next with
      | none => none
      | some next =>
        match h.cell next with
        | none => none
        | some rn =>
          if rn.id ≠ 0 then
            (region_emf_advance h mode fuel next).map (emf_advance_task region mode ++ ·)
          else some (emf_advance_task region mode)

/-- Lines 108 and 253: `while(region->id != 0) region = region->next;`. -/
def first_by_next {F : Type} (h : Heap F) : Nat → Nat → Option Nat
  | 0, _ => none
  | fuel + 1, p =>
    match h.cell p with
    | none => none
    | some r =>
      if r.id ≠ 0 then
        match r.next with
        | none => none
        | some q => first_by_next h fuel q
      else some p

/-- The function `region_advance`: the operations it issues, in program order. -/
def region_advance {F : Type} (h : Heap F) (fuel : Nat) (region : Nat) : Option (List Op) := do
  let region ← first_by_next h fuel region
  let t1 ← region_spec_advance h fuel region
  let t2 ← region_spec_update h fuel region
  let t3 ← region_current_reduction_y h fuel region
  let r ← h.cell region
  let t4 ←
    if r.local_current.smooth_xtype ≠ smooth_type.NONE then do
      let a ← region_current_smooth h .SMOOTH_X fuel region
      let b ← region_current_smooth h .CURRENT_UPDATE_GC fuel region
      pure (a ++ b)
    else pure []
  let t5 ← region_emf_advance h .EMF_ADVANCE fuel region
  let t6 ← region_emf_advance h .EMF_UPDATE_GC fuel region
  pure (t1 ++ t2 ++ t3 ++ t4 ++ t5 ++ t6)

/-! ## `region_add_laser` -/

/-- A loop `do { body; p = p->next; } while(p->id != 0);` of `region_add_laser`, started at `p`;
`body p r` are the calls the body makes for the region `r` stored at `p`. -/
def laser_pass {F : Type} (h : Heap F) (body : Nat → t_region F → List Op) :
    Nat → Nat → Option (List Op)
  | 0, _ => none
  | fuel + 1, p =>
    match h.cell p with
    | none => none
    | some r =>
      match r.next with
      | none => none
      | some next =>
        match h.cell next with
        | none => none
        | some rn =>
          if rn.id ≠ 0 then (laser_pass h body fuel next).map (body p r ++ ·)
          else some (body p r)

/-- The function `region_add_laser`: the calls it makes, in program order.  The laser itself is
passed unchanged to every `emf_add_laser`. -/
def region_add_laser {F : Type} (h : Heap F) (fuel : Nat) (region : Nat) :
    Option (List Op) := do
  let region ← first_by_next h fuel region
  let t1 ← laser_pass h (fun p r => [Op.emf_add_laser p r.limits_y.1]) fuel region
  let t2 ← laser_pass h (fun p r => if r.id ≠ 0 then [Op.emf_update_gc_y p] else []) fuel region
  let t3 ← laser_pass h (fun p _ => [Op.div_corr_x p]) fuel region
  let t4 ← laser_pass h (fun p _ => [Op.emf_update_gc_y p, Op.emf_update_gc_x p]) fuel region
  pure (t1 ++ t2 ++ t3 ++ t4)

/-! ## The guard-cell kernels of the current -/

/-- The values of the loop variable of `for (int i = lo; i < hi; i++)`. -/
def intRange (lo hi : Int) : List Int :=
  (List.range (hi - lo).toNat).map (fun (k : Nat) => lo + (k : Int))

/-- A `for` loop whose bounds the body leaves alone: `for (int i = lo; i < hi; i++) body`. -/
def forLoop {σ : Type} (lo hi : Int) (body : Int → σ → σ) (s : σ) : σ :=
  (intRange lo hi).foldl (fun s i => body i s) s

/-- The assignment `A[p] = v`. -/
def set_cell {V : Type} (A : Int → V) (p : Int) (v : V) : Int → V :=
  fun q => if q = p then v else A q

/-- Lines 14-18 of `current_reduction_y_openacc`: the body of the loops at column `i`, row `j`. -/
def reduction_y_cell {F : Type} [Add F] (nrow gc10 : Int) (j i : Int) (c : t_current F) :
    t_current F :=
  let a := i + j * nrow
  let b := i + (j + gc10) * nrow
  let J1 := set_cell c.J a { c.J a with x := (c.J a).x + (c.J_upper b).x }
  let J2 := set_cell J1 a { J1 a with y := (J1 a).y + (c.J_upper b).y }
  let J3 := set_cell J2 a { J2 a with z := (J2 a).z + (c.J_upper b).z }
  { c with J := J3, J_upper := set_cell c.J_upper b (J3 a) }

/-- The function `current_reduction_y_openacc`, with `J` and `J_upper` two separate arrays. -/
def current_reduction_y_openacc {F : Type} [Add F] (current : t_current F) : t_current F :=
  let nrow := current.nrow
  forLoop (-current.gc.2.1) current.gc.2.2
    (fun j c =>
      forLoop (-current.gc.1.1) (current.nx.1 + current.gc.1.2)
        (fun i c => reduction_y_cell nrow current.gc.2.1 j i c) c)
    current

/-- Lines 34-38 of `current_reduction_x_openacc`: the body of the loops at row `j`, column `i`;
`J_overlap` is `&J[nx[0]]`, the same array seen `nx[0]` cells further. -/
def reduction_x_cell {F : Type} [Add F] (nrow nx0 : Int) (j i : Int) (c : t_current F) :
    t_current F :=
  let a := i + j * nrow
  let b := nx0 + (i + j * nrow)
  let J1 := set_cell c.J a { c.J a with x := (c.J a).x + (c.J b).x }
  let J2 := set_cell J1 a { J1 a with y := (J1 a).y + (J1 b).y }
  let J3 := set_cell J2 a { J2 a with z := (J2 a).z + (J2 b).z }
  { c with J := set_cell J3 b (J3 a) }

/-- The value a 32-bit C `int` holds after an arithmetic result `z`: `z` itself inside
`[-2^31, 2^31)`, and wrapped modulo `2^32` into that interval outside it (two's complement, what
the compiled code does where the C standard leaves signed overflow undefined). -/
def int_wrap (z : Int) : Int := (z + 2147483648) % 4294967296 - 2147483648

/-- The function `current_reduction_x_openacc`; `iter` is a C `int`, so `current->iter++` of
line 42 wraps at `INT_MAX`. -/
def current_reduction_x_openacc {F : Type} [Add F] (current : t_current F) : t_current F :=
  let nrow := current.nrow
  let c1 := forLoop (-current.gc.2.1) (current.nx.2 + current.gc.2.2)
    (fun j c =>
      forLoop (-current.gc.1.1) current.gc.1.2
        (fun i c => reduction_x_cell nrow current.nx.1 j i c) c)
    current
  { c1 with iter := int_wrap (c1.iter + 1) }

/-- Lines 56-62 of `current_gc_update_y_openacc`: the body of the loops at column `i`, row `j`. -/
def gc_update_y_cell {F : Type} (nrow gc10 : Int) (i j : Int) (c : t_current F) : t_current F :=
  let a := i + j * nrow
  let b := i + (j + gc10) * nrow
  if j < 0 then { c with J := set_cell c.J a (c.J_upper b) }
  else { c with J_upper := set_cell c.J_upper b (c.J a) }

/-- The function `current_gc_update_y_openacc`, with `J` and `J_upper` two separate arrays. -/
def current_gc_update_y_openacc {F : Type} (current : t_current F) : t_current F :=
  let nrow := current.nrow
  forLoop (-current.gc.1.1) (current.nx.1 + current.gc.1.2)
    (fun i c =>
      forLoop (-current.gc.2.1) current.gc.2.2
        (fun j c => gc_update_y_cell nrow current.gc.2.1 i j c) c)
    current

/-! ## The cells the kernels access and the footprints declared for them -/

/-- The two arrays of a current that the row kernels work on. -/
inductive t_array where
  | J
  | J_upper
deriving DecidableEq, Repr

/-- A current under a kernel that is being watched: the current itself and the cells read or
written so far, each as the array and the offset from its pointer. -/
structure t_logged (F : Type) where
  current : t_current F
  log : List (t_array × Int)

/-- The read of the cell `arr[p]`: its value, and the cell entered in the log. -/
def load {F : Type} (s : t_logged F) (arr : t_array) (p : Int) : t_vfld F × t_logged F :=
  (match arr with
    | .J => s.current.J p
    | .J_upper => s.current.J_upper p,
   { s with log := s.log ++ [(arr, p)] })

/-- The write `arr[p] = v`, with the cell entered in the log. -/
def store {F : Type} (s : t_logged F) (arr : t_array) (p : Int) (v : t_vfld F) : t_logged F :=
  { current :=
      match arr with
      | .J => { s.current with J := set_cell s.current.J p v }
      | .J_upper => { s.current with J_upper := set_cell s.current.J_upper p v }
    log := s.log ++ [(arr, p)] }

/-- Lines 14-18 of `current_reduction_y_openacc` written with the reads and writes of cells they
consist of: three times `J[a].c += J_overlap[b].c`, then `J_overlap[b] = J[a]`. -/
def reduction_y_cell_logged {F : Type} [Add F] (nrow gc10 : Int) (j i : Int) (s : t_logged F) :
    t_logged F :=
  let a := i + j * nrow
  let b := i + (j + gc10) * nrow
  let r1 := load s .J a
  let r2 := load r1.2 .J_upper b
  let s1 := store r2.2 .J a { r1.1 with x := r1.1.x + r2.1.x }
  let r3 := load s1 .J a
  let r4 := load r3.2 .J_upper b
  let s2 := store r4.2 .J a { r3.1 with y := r3.1.y + r4.1.y }
  let r5 := load s2 .J a
  let r6 := load r5.2 .J_upper b
  let s3 := store r6.2 .J a { r5.1 with z := r5.1.z + r6.1.z }
  let r7 := load s3 .J a
  store r7.2 .J_upper b r7.1

/-- The function `current_reduction_y_openacc` with its accesses logged. -/
def current_reduction_y_logged {F : Type} [Add F] (current : t_current F) : t_logged F :=
  let nrow := current.nrow
  forLoop (-current.gc.2.1) current.gc.2.2
    (fun j s =>
      forLoop (-current.gc.1.1) (current.nx.1 + current.gc.1.2)
        (fun i s => reduction_y_cell_logged nrow current.gc.2.1 j i s) s)
    ⟨current, []⟩

/-- Lines 56-62 of `current_gc_update_y_openacc` written with the reads and writes of cells
they consist of. -/
def gc_update_y_cell_logged {F : Type} (nrow gc10 : Int) (i j : Int) (s : t_logged F) :
    t_logged F :=
  let a := i + j * nrow
  let b := i + (j + gc10) * nrow
  if j < 0 then
    let r := load s .J_upper b
    store r.2 .J a r.1
  else
    let r := load s .J a
    store r.2 .J_upper b r.1

/-- The function `current_gc_update_y_openacc` with its accesses logged. -/
def current_gc_update_y_logged {F : Type} (current : t_current F) : t_logged F :=
  let nrow := current.nrow
  forLoop (-current.gc.1.1) (current.nx.1 + current.gc.1.2)
    (fun i s =>
      forLoop (-current.gc.2.1) current.gc.2.2
        (fun j s => gc_update_y_cell_logged nrow current.gc.2.1 i j s) s)
    ⟨current, []⟩

/-- Modelled from the spec: `current_new` is not in the sources read here; it lets `J` point at
`J_buf + gc[0][0] + gc[1][0]*nrow`, so the cell `J[a]` is the cell of `J_buf` at this offset. -/
def J_buf_offset {F : Type} (current : t_current F) (a : Int) : Int :=
  a + (current.gc.1.1 + current.gc.2.1 * current.nrow)

/-- The section `J_buf[0; overlap_zone]` in the `inout` clauses of the tasks Current Reduction Y
and Current Update GC (lines 190 and 210 of `region.c`): first offset and length. -/
def declared_J_buf {F : Type} (current : t_current F) : Int × Int :=
  (0, current.overlap_zone)

/-- The section `J_upper[-gc[0][0]; overlap_zone]` in the `inout` clauses of the tasks Current
Reduction Y and Current Update GC (lines 191 and 211 of `region.c`): first offset and length. -/
def declared_J_upper {F : Type} (current : t_current F) : Int × Int :=
  (-current.gc.1.1, current.overlap_zone)

/-- An offset lies in the section `[start; length]`. -/
def in_section (s : Int × Int) (o : Int) : Prop := s.1 ≤ o ∧ o < s.1 + s.2

/-- The cell of the log entry `x` lies in the section declared for its array. -/
def declared {F : Type} (current : t_current F) (x : t_array × Int) : Prop :=
  match x.1 with
  | .J => in_section (declared_J_buf current) (J_buf_offset current x.2)
  | .J_upper => in_section (declared_J_upper current) x.2

/-! ## Auxiliary definitions for the statements -/

/-- Address of the region with id `i` when `region_new` starts at `a0` with `malloc` at `b`. -/
def ring_addr (a0 b : Nat) (i : Nat) : Nat := if i = 0 then a0 else b + (i - 1)

/-- The region with id `i` as `region_new` leaves it, given its two links. -/
def region_built {F : Type} (ext : Externals F) (n_regions : Int) (nx : Int × Int)
    (n_spec : Nat) (spec : Nat → t_species) (box : ℚ × ℚ) (dt : ℚ) (id : Int)
    (prev next : Option Nat) : t_region F :=
  { region_init ext n_regions nx id n_spec spec box dt prev with next := next }

/-- The region with id `i` as `region_new` in binary32 leaves it, given its two links. -/
def region_built_binary32 {F : Type} (ext : Externals F) (n_regions : Int) (nx : Int × Int)
    (n_spec : Nat) (spec : Nat → t_species) (box : ℚ × ℚ) (dt : ℚ) (id : Int)
    (prev next : Option Nat) : t_region F :=
  { region_init_binary32 ext n_regions nx id n_spec spec box dt prev with next := next }

/-- The region reached from `a` by following `next` exactly `k` times. -/
def follow_next {F : Type} (h : Heap F) : Nat → Nat → Option Nat
  | 0, a => some a
  | k + 1, a =>
    match h.cell a with
    | none => none
    | some r =>
      match r.next with
      | none => none
      | some q => follow_next h k q

/-- The pointer `a->next`. -/
def next_of {F : Type} (h : Heap F) (a : Nat) : Option Nat := (h.cell a).bind (fun r => r.next)

/-- The pointer `a->prev`. -/
def prev_of {F : Type} (h : Heap F) (a : Nat) : Option Nat := (h.cell a).bind (fun r => r.prev)

/-- A well-formed ring: the regions at the addresses `ring` carry the ids `0, 1, ...` in this
order, `next` leads to the following one and `prev` to the preceding one, cyclically. -/
def well_formed_ring {F : Type} (h : Heap F) (ring : List Nat) : Prop :=
  ring ≠ [] ∧ ∀ i, i < ring.length →
    ∃ r, h.cell (ring.getD i 0) = some r ∧ r.id = (i : Int) ∧
      r.next = some (ring.getD ((i + 1) % ring.length) 0) ∧
      r.prev = some (ring.getD ((i + ring.length - 1) % ring.length) 0)

/-- The particles of the main vector of species `n` of the region at `a`. -/
def main_vector_of {F : Type} (h : Heap F) (a n : Nat) : List t_part :=
  match h.cell a with
  | none => []
  | some r =>
    match r.species[n]? with
    | none => []
    | some s => s.main_vector.data

/-- The field `n_species` of the region at `a` (0 when there is no region there). -/
def n_species_of {F : Type} (h : Heap F) (a : Nat) : Nat :=
  match h.cell a with
  | none => 0
  | some r => r.n_species

/-- The two directions in which a species sends particles: to the region after it
(`region->next`) and to the region before it (`region->prev`). -/
inductive link_dir where
  | to_next
  | to_prev
deriving DecidableEq, Repr

/-- The temp buffer that species `species` of the region at `region` sends to in direction
`d`, as wired by `region_link_adj_regions`. -/
def outgoing_ref {F : Type} (h : Heap F) (region species : Nat) (d : link_dir) :
    Option t_buffer_ref :=
  match h.cell region with
  | none => none
  | some r =>
    match r.species[species]? with
    | none => none
    | some s =>
      match d with
      | .to_next => s.outgoing_part.1
      | .to_prev => s.outgoing_part.2

/-- The function `region_link_adj_regions` applied to the regions of `order`, one after another. -/
def link_all {F : Type} (h : Heap F) : List Nat → Option (Heap F)
  | [] => some h
  | a :: rest =>
    match region_link_adj_regions h a with
    | none => none
    | some h1 => link_all h1 rest

/-- The temp buffers in the `out` clauses of the task `Spec Advance` of `region_spec_advance`
(lines 160-161): `region->next->species[n].temp_buffer[0]` and
`region->prev->species[n].temp_buffer[1]` for `n` from 0 to `region->n_species`. -/
def spec_advance_out {F : Type} (h : Heap F) (region : Nat) : Option (List t_buffer_ref) :=
  match h.cell region with
  | none => none
  | some r =>
    match r.next, r.prev with
    | some next, some prev =>
      some ((List.range r.n_species).map (fun n => (⟨next, n, 0⟩ : t_buffer_ref))
        ++ (List.range r.n_species).map (fun n => (⟨prev, n, 1⟩ : t_buffer_ref)))
    | _, _ => none

/-- Every region of the ring has `n` species. -/
def uniform_species {F : Type} (h : Heap F) (ring : List Nat) (n : Nat) : Prop :=
  ∀ a, a ∈ ring → ∃ r, h.cell a = some r ∧ r.n_species = n ∧ r.species.length = n

/-- The species of the region at `a` are wired to the temp buffers of its two neighbours. -/
def linked {F : Type} (h : Heap F) (n : Nat) (a : Nat) : Prop :=
  ∃ r next prev, h.cell a = some r ∧ r.next = some next ∧ r.prev = some prev ∧
    ∀ s, s < n → ∃ sp, r.species[s]? = some sp ∧
      sp.outgoing_part = (some ⟨next, s, 0⟩, some ⟨prev, s, 1⟩)

/-- The field `limits_y[0]` of the region at `a` (0 when there is no region there). -/
def limits_y0_of {F : Type} (h : Heap F) (a : Nat) : Int :=
  match h.cell a with
  | none => 0
  | some r => r.limits_y.1

/-- The offset `p` from `J` is that of a cell of the band the row kernels work on:
`p = i + j*nrow` with `-gc[0][0] ≤ i < nx[0] + gc[0][1]` and `-gc[1][0] ≤ j < gc[1][1]`. -/
def in_band {F : Type} (current : t_current F) (p : Int) : Prop :=
  ∃ i j : Int, (-current.gc.1.1 ≤ i ∧ i < current.nx.1 + current.gc.1.2) ∧
    (-current.gc.2.1 ≤ j ∧ j < current.gc.2.2) ∧ p = i + j * current.nrow

/-- The limits `limits_y` of the region at `a`. -/
def limits_y_of {F : Type} (h : Heap F) (a : Nat) : Option (Int × Int) :=
  (h.cell a).map (fun r => r.limits_y)

/-! ## Concrete data for the examples -/

/-- An empty particle buffer. -/
def empty_vector : t_particle_vector := ⟨[], 0⟩

/-- Constructors that yield empty species, a zero current with one guard cell on each side,
and a field. -/
def ext0 : Externals Int where
  spec_new := fun s =>
    { s with main_vector := empty_vector, temp_buffer := (empty_vector, empty_vector),
             outgoing_part := (none, none) }
  current_new := fun nx _ _ =>
    { nx := nx, nrow := nx.1 + 2, gc := ((1, 1), (1, 1)), iter := 0,
      J := fun _ => ⟨0, 0, 0⟩, J_upper := fun _ => ⟨0, 0, 0⟩,
      smooth_xtype := smooth_type.NONE, moving_window := false,
      overlap_zone := 2 * (nx.1 + 2), upper_of := none }
  emf_new := fun nx _ _ => { nx := nx, moving_window := false, upper_of := none }

/-- A species template with particles in the rows 24, 25 and 80. -/
def spec0 : Nat → t_species := fun _ =>
  { name := "electrons",
    main_vector := ⟨[⟨3, 24, 0⟩, ⟨3, 25, 1⟩, ⟨7, 80, 2⟩], 1024⟩,
    temp_buffer := (empty_vector, empty_vector),
    outgoing_part := (none, none),
    moving_window := false }

/-- A store in which only address 0 has been allocated, for the first region. -/
def heap0 : Heap Int := ⟨fun _ => none, 1⟩

/-- A species template with a particle in row 0 and a particle in row 5592406. -/
def spec_top : Nat → t_species := fun _ =>
  { name := "electrons",
    main_vector := ⟨[⟨1, 0, 0⟩, ⟨2, 5592406, 1⟩], 1024⟩,
    temp_buffer := (empty_vector, empty_vector),
    outgoing_part := (none, none),
    moving_window := false }

/-- A ring of three regions with one species each, at the addresses 5, 2 and 7. -/
def heap3 : Heap Int :=
  ⟨fun a =>
    if a = 5 then some (region_built ext0 3 (4, 9) 1 spec0 (1, 1) 1 0 (some 7) (some 2))
    else if a = 2 then some (region_built ext0 3 (4, 9) 1 spec0 (1, 1) 1 1 (some 5) (some 7))
    else if a = 7 then some (region_built ext0 3 (4, 9) 1 spec0 (1, 1) 1 2 (some 2) (some 5))
    else none, 8⟩

/-- The addresses of the regions of `heap3`, by id. -/
def ring3 : List Nat := [5, 2, 7]

/-- A current on a grid of 2 by 2 cells with one guard cell on each side. -/
def cur0 : t_current Int :=
  { nx := (2, 2), nrow := 4, gc := ((1, 1), (1, 1)), iter := 0,
    J := fun p => ⟨p, 2 * p, 3 * p⟩, J_upper := fun q => ⟨10 + q, 20, 30 - q⟩,
    smooth_xtype := smooth_type.NONE, moving_window := false,
    overlap_zone := 8, upper_of := none }

/-- The current `cur0` after `INT_MAX` calls of the column reduction. -/
def cur_max : t_current Int := { cur0 with iter := 2147483647 }

/-! ## Theorems: the heap and `region_new` -/

section
variable {F : Type}

@[simp] theorem Heap.write_cell (h : Heap F) (a : Nat) (r : t_region F) (x : Nat) :
    (h.write a r).cell x = if x = a then some r else h.cell x := rfl

@[simp] theorem Heap.write_brk (h : Heap F) (a : Nat) (r : t_region F) :
    (h.write a r).brk = h.brk := rfl

theorem ring_addr_inj {a0 b i j : Nat} (h : a0 < b) (e : ring_addr a0 b i = ring_addr a0 b j) :
    i = j := by
  unfold ring_addr at e
  split_ifs at e <;> omega

theorem ring_addr_succ (a0 b k : Nat) : ring_addr a0 b (k + 1) = b + k := by
  simp [ring_addr]


theorem first_by_prev_chain (h : Heap F) (addr : Nat → Nat) (k : Nat)
    (hc : ∀ i, i ≤ k → ∃ r, h.cell (addr i) = some r ∧ r.id = (i : Int) ∧
      (i ≠ 0 → r.prev = some (addr (i - 1)))) :
    ∀ j, j ≤ k → ∀ fuel, j + 1 ≤ fuel → first_by_prev h fuel (addr j) = some (addr 0) := by
  intro j
  induction j with
  | zero =>
    intro _ fuel hf
    obtain ⟨r, hr, hid, _⟩ := hc 0 (Nat.zero_le _)
    obtain ⟨f, rfl⟩ : ∃ f, fuel = f + 1 := ⟨fuel - 1, by omega⟩
    simp [first_by_prev, hr, hid]
  | succ j ih =>
    intro hj fuel hf
    obtain ⟨r, hr, hid, hp⟩ := hc (j + 1) hj
    obtain ⟨f, rfl⟩ : ∃ f, fuel = f + 1 := ⟨fuel - 1, by omega⟩
    have hne : r.id ≠ 0 := by rw [hid]; omega
    have hp' := hp (by omega)
    simp only [first_by_prev, hr, hp', hne, ne_eq, not_false_eq_true, if_true]
    simpa using ih (by omega) f (by omega)


theorem region_new_step (ext : Externals F) (n_regions : Int) (nx : Int × Int) (n_spec : Nat)
    (spec : Nat → t_species) (box : ℚ × ℚ) (dt : ℚ) (fuel : Nat) (h : Heap F) (region : Nat)
    (id : Int) (prev_region : Option Nat) (hlt : id + 1 < n_regions) :
    region_new ext n_regions nx n_spec spec box dt (fuel + 1) h region id prev_region =
      region_new ext n_regions nx n_spec spec box dt fuel
        ⟨fun x => if x = region then
            some (region_built ext n_regions nx n_spec spec box dt id prev_region (some h.brk))
          else h.cell x, h.brk + 1⟩
        h.brk (id + 1) (some region) := by
  simp only [region_new, hlt, if_true, Heap.malloc, Heap.write, region_built]
  congr 1
  congr 1
  funext x
  split_ifs <;> rfl

theorem region_new_last (ext : Externals F) (n_regions : Int) (nx : Int × Int) (n_spec : Nat)
    (spec : Nat → t_species) (box : ℚ × ℚ) (dt : ℚ) (fuel : Nat) (h : Heap F) (region : Nat)
    (id : Int) (prev_region : Option Nat) (hlt : ¬ id + 1 < n_regions) :
    region_new ext n_regions nx n_spec spec box dt (fuel + 1) h region id prev_region =
      close_ring fuel
        (h.write region (region_built ext n_regions nx n_spec spec box dt id prev_region none))
        region := by
  simp only [region_new, hlt, if_false, region_built]
  rfl

theorem region_new_gen (ext : Externals F) (N : Nat) (nx : Int × Int) (n_spec : Nat)
    (spec : Nat → t_species) (box : ℚ × ℚ) (dt : ℚ) (a0 b : Nat) (hab : a0 < b)
    (prev0 : Option Nat) :
    ∀ d k (h : Heap F) fuel, k + d + 1 = N → d + 1 + N ≤ fuel →
      h.brk = b + k →
      (∀ i, i < k → h.cell (ring_addr a0 b i) =
        some (region_built ext N nx n_spec spec box dt i
          (if i = 0 then prev0 else some (ring_addr a0 b (i - 1)))
          (some (ring_addr a0 b (i + 1))))) →
      ∃ h', region_new ext N nx n_spec spec box dt fuel h (ring_addr a0 b k) (k : Int)
            (if k = 0 then prev0 else some (ring_addr a0 b (k - 1))) = some h' ∧
        h'.brk = b + (N - 1) ∧
        (∀ i, i < N → h'.cell (ring_addr a0 b i) =
          some (region_built ext N nx n_spec spec box dt i
            (some (ring_addr a0 b ((i + N - 1) % N)))
            (some (ring_addr a0 b ((i + 1) % N))))) ∧
        (∀ a, (∀ i, i < N → a ≠ ring_addr a0 b i) → h'.cell a = h.cell a) := by
  intro d
  induction d with
  | zero =>
    intro k h fuel hk hfuel hbrk hinv
    obtain ⟨f, rfl⟩ : ∃ f, fuel = f + 1 := ⟨fuel - 1, by omega⟩
    have hlast : ¬ ((k : Int) + 1 < (N : Int)) := by omega
    rw [region_new_last _ _ _ _ _ _ _ _ _ _ _ _ hlast]
    have hkN : k = N - 1 := by omega
    have hne : ∀ i, i < k → ring_addr a0 b i ≠ ring_addr a0 b k := fun i hi e => by
      have := ring_addr_inj hab e; omega
    have hwalk := first_by_prev_chain
      (h.write (ring_addr a0 b k) (region_built ext N nx n_spec spec box dt k
        (if k = 0 then prev0 else some (ring_addr a0 b (k - 1))) none))
      (ring_addr a0 b) k
      (by
        intro i hi
        rcases Nat.lt_or_eq_of_le hi with hi' | rfl
        · refine ⟨region_built ext N nx n_spec spec box dt i
              (if i = 0 then prev0 else some (ring_addr a0 b (i - 1)))
              (some (ring_addr a0 b (i + 1))), ?_, rfl, ?_⟩
          · simp only [Heap.write_cell, hne i hi', if_false, hinv i hi']
          · intro h0; simp only [region_built, region_init, h0, if_false]
        · refine ⟨region_built ext N nx n_spec spec box dt i
              (if i = 0 then prev0 else some (ring_addr a0 b (i - 1))) none, ?_, rfl, ?_⟩
          · simp only [Heap.write_cell, if_true]
          · intro h0; simp only [region_built, region_init, h0, if_false])
      k le_rfl f (by omega)
    simp only [close_ring, hwalk]
    rcases Nat.eq_zero_or_pos k with hk0 | hkpos
    · subst hk0
      have hN1 : N = 1 := by omega
      subst hN1
      simp only [Heap.write_cell, if_true]
      refine ⟨_, rfl, by simp [hbrk], ?_, ?_⟩
      · intro i hi
        have : i = 0 := by omega
        subst this
        simp [region_built, region_init]
      · intro a ha
        have := ha 0 (by omega)
        simp [this]
    · have h0k : ring_addr a0 b 0 ≠ ring_addr a0 b k := hne 0 hkpos
      simp only [Heap.write_cell, h0k, if_false, hinv 0 hkpos, if_true, Ne.symm h0k]
      refine ⟨_, rfl, by simp [hbrk, hkN], ?_, ?_⟩
      · intro i hi
        simp only [Heap.write_cell]
        by_cases hik : i = k
        · subst hik
          have e1 : (i + N - 1) % N = i - 1 := by
            rw [show i + N - 1 = (i - 1) + N by omega, Nat.add_mod_right]
            exact Nat.mod_eq_of_lt (by omega)
          have e2 : (i + 1) % N = 0 := by
            rw [show i + 1 = N by omega, Nat.mod_self]
          simp [region_built, region_init, e1, e2, Nat.pos_iff_ne_zero.mp hkpos]
        · have hi' : i < k := by omega
          simp only [hne i hi', if_false]
          by_cases hi0 : i = 0
          · subst hi0
            have e1 : (0 + N - 1) % N = k := by
              rw [show 0 + N - 1 = k by omega]; exact Nat.mod_eq_of_lt (by omega)
            have e2 : (0 + 1) % N = 0 + 1 := Nat.mod_eq_of_lt (by omega)
            have e3 : k % N = k := Nat.mod_eq_of_lt (by omega)
            simp [region_built, region_init, e2, ← hkN, e3]
          · have e1 : (i + N - 1) % N = i - 1 := by
              rw [show i + N - 1 = (i - 1) + N by omega, Nat.add_mod_right]
              exact Nat.mod_eq_of_lt (by omega)
            have e2 : (i + 1) % N = i + 1 := Nat.mod_eq_of_lt (by omega)
            have hne0 : ring_addr a0 b i ≠ ring_addr a0 b 0 := fun e => by
              have := ring_addr_inj hab e; omega
            simp only [hne0, if_false, hinv i hi', hi0, e1, e2]
      · intro a ha
        have h1 := ha 0 (by omega)
        have h2 := ha k (by omega)
        simp [h1, h2]
  | succ d ih =>
    intro k h fuel hk hfuel hbrk hinv
    obtain ⟨f, rfl⟩ : ∃ f, fuel = f + 1 := ⟨fuel - 1, by omega⟩
    have hlt : ((k : Int) + 1 < (N : Int)) := by omega
    rw [region_new_step _ _ _ _ _ _ _ _ _ _ _ _ hlt]
    have key := ih (k + 1)
      ⟨fun x => if x = ring_addr a0 b k then
            some (region_built ext N nx n_spec spec box dt k
              (if k = 0 then prev0 else some (ring_addr a0 b (k - 1))) (some h.brk))
          else h.cell x, h.brk + 1⟩
      f (by omega) (by omega) (by simp only [hbrk]; omega)
      (by
        intro i hi
        rcases Nat.lt_succ_iff_lt_or_eq.mp hi with hi' | rfl
        · have hne : ring_addr a0 b i ≠ ring_addr a0 b k := fun e => by
            have := ring_addr_inj hab e; omega
          simp only [hne, if_false, hinv i hi']
        · simp only [if_true, hbrk, ring_addr_succ])
    simp only [Nat.add_sub_cancel, Nat.succ_ne_zero, if_false, ring_addr_succ, Nat.cast_add,
      Nat.cast_one, ← hbrk] at key
    obtain ⟨h', e, hb, hc, hfr⟩ := key
    refine ⟨h', e, hb, hc, ?_⟩
    intro a ha
    rw [hfr a ha]
    have := ha k (by omega)
    simp only [this, if_false]

theorem region_new_built (ext : Externals F) (N : Nat) (hN : 1 ≤ N) (nx : Int × Int)
    (n_spec : Nat) (spec : Nat → t_species) (box : ℚ × ℚ) (dt : ℚ) (h : Heap F) (a0 : Nat)
    (ha : a0 < h.brk) (prev0 : Option Nat) (fuel : Nat) (hf : 2 * N ≤ fuel) :
    ∃ h', region_new ext N nx n_spec spec box dt fuel h a0 0 prev0 = some h' ∧
      h'.brk = h.brk + (N - 1) ∧
      (∀ i, i < N → h'.cell (ring_addr a0 h.brk i) =
        some (region_built ext N nx n_spec spec box dt i
          (some (ring_addr a0 h.brk ((i + N - 1) % N)))
          (some (ring_addr a0 h.brk ((i + 1) % N))))) ∧
      (∀ a, (∀ i, i < N → a ≠ ring_addr a0 h.brk i) → h'.cell a = h.cell a) := by
  have key := region_new_gen ext N nx n_spec spec box dt a0 h.brk ha prev0 (N - 1) 0 h fuel
    (by omega) (by omega) (by omega) (fun i hi => absurd hi (Nat.not_lt_zero i))
  simpa [ring_addr] using key

/-! ## Theorems: well-formed rings -/

theorem ring_length_pos {h : Heap F} {ring : List Nat} (hw : well_formed_ring h ring) :
    0 < ring.length := List.length_pos.mpr hw.1

theorem ring_getD_inj {h : Heap F} {ring : List Nat} (hw : well_formed_ring h ring) {i j : Nat}
    (hi : i < ring.length) (hj : j < ring.length) (e : ring.getD i 0 = ring.getD j 0) : i = j := by
  obtain ⟨r, hr, hid, _⟩ := hw.2 i hi
  obtain ⟨r', hr', hid', _⟩ := hw.2 j hj
  rw [e, hr'] at hr
  cases hr
  omega

theorem ring_mem_iff {ring : List Nat} {a : Nat} :
    a ∈ ring ↔ ∃ i, i < ring.length ∧ ring.getD i 0 = a := by
  constructor
  · intro ha
    obtain ⟨i, hi, e⟩ := List.getElem_of_mem ha
    exact ⟨i, hi, by rw [List.getD_eq_getElem _ _ hi, e]⟩
  · rintro ⟨i, hi, rfl⟩
    rw [List.getD_eq_getElem _ _ hi]
    exact List.getElem_mem _

theorem follow_next_ring {h : Heap F} {ring : List Nat} (hw : well_formed_ring h ring) :
    ∀ k i, i < ring.length →
      follow_next h k (ring.getD i 0) = some (ring.getD ((i + k) % ring.length) 0) := by
  intro k
  induction k with
  | zero => intro i hi; simp [follow_next, Nat.mod_eq_of_lt hi]
  | succ k ih =>
    intro i hi
    obtain ⟨r, hr, _, hn, _⟩ := hw.2 i hi
    simp only [follow_next, hr, hn]
    rw [ih _ (Nat.mod_lt _ (by omega))]
    congr 2
    rw [Nat.mod_add_mod, Nat.add_assoc, Nat.add_comm 1 k]

theorem next_of_ring {h : Heap F} {ring : List Nat} (hw : well_formed_ring h ring) {i : Nat}
    (hi : i < ring.length) :
    next_of h (ring.getD i 0) = some (ring.getD ((i + 1) % ring.length) 0) := by
  obtain ⟨r, hr, _, hn, _⟩ := hw.2 i hi
  unfold next_of
  rw [hr]
  exact hn

theorem prev_of_ring {h : Heap F} {ring : List Nat} (hw : well_formed_ring h ring) {i : Nat}
    (hi : i < ring.length) :
    prev_of h (ring.getD i 0) = some (ring.getD ((i + ring.length - 1) % ring.length) 0) := by
  obtain ⟨r, hr, _, _, hp⟩ := hw.2 i hi
  unfold prev_of
  rw [hr]
  exact hp

theorem succ_pred_mod {N i : Nat} (hi : i < N) : ((i + 1) % N + N - 1) % N = i := by
  rcases Nat.lt_or_ge (i + 1) N with h | h
  · rw [Nat.mod_eq_of_lt h, show i + 1 + N - 1 = i + N by omega, Nat.add_mod_right,
      Nat.mod_eq_of_lt hi]
  · have : i + 1 = N := by omega
    rw [this, Nat.mod_self, show 0 + N - 1 = i by omega, Nat.mod_eq_of_lt hi]

theorem pred_succ_mod {N i : Nat} (hi : i < N) : ((i + N - 1) % N + 1) % N = i := by
  rcases Nat.eq_zero_or_pos i with h | h
  · subst h
    have e1 : (0 + N - 1) % N = N - 1 := by
      rw [show 0 + N - 1 = N - 1 by omega]; exact Nat.mod_eq_of_lt (by omega)
    rw [e1, show N - 1 + 1 = N by omega, Nat.mod_self]
  · have e1 : (i + N - 1) % N = i - 1 := by
      rw [show i + N - 1 = (i - 1) + N by omega, Nat.add_mod_right]
      exact Nat.mod_eq_of_lt (by omega)
    rw [e1, show i - 1 + 1 = i by omega, Nat.mod_eq_of_lt hi]

theorem range_map_getD (f : Nat → Nat) {N j : Nat} (hj : j < N) :
    ((List.range N).map f).getD j 0 = f j := by
  rw [List.getD_eq_getElem _ _ (by simpa using hj)]
  simp

/-- The ring that `region_new` builds is well formed. -/
theorem region_new_well_formed (ext : Externals F) (N : Nat) (hN : 1 ≤ N) (nx : Int × Int)
    (n_spec : Nat) (spec : Nat → t_species) (box : ℚ × ℚ) (dt : ℚ) (h : Heap F) (a0 : Nat)
    (ha : a0 < h.brk) (prev0 : Option Nat) (fuel : Nat) (hf : 2 * N ≤ fuel) :
    ∃ h', region_new ext N nx n_spec spec box dt fuel h a0 0 prev0 = some h' ∧
      well_formed_ring h' ((List.range N).map (ring_addr a0 h.brk)) := by
  obtain ⟨h', e, _, hc, _⟩ :=
    region_new_built ext N hN nx n_spec spec box dt h a0 ha prev0 fuel hf
  refine ⟨h', e, ?_, ?_⟩
  · intro hnil
    have := congrArg List.length hnil
    simp at this
    omega
  · intro i hi
    simp only [List.length_map, List.length_range] at hi ⊢
    have g : ∀ j, j < N → ((List.range N).map (ring_addr a0 h.brk)).getD j 0 =
        ring_addr a0 h.brk j := fun j hj => range_map_getD _ hj
    rw [g i hi, g _ (Nat.mod_lt _ (by omega)), g _ (Nat.mod_lt _ (by omega))]
    exact ⟨_, hc i hi, rfl, rfl, rfl⟩

/-- C2.  For every `N ≥ 1` and whatever `prev_region` is passed, `region_new` started at id 0
returns a heap in which the region with id `i` has `next` = the region with id `(i+1) mod N`
and `prev` = the region with id `(i-1) mod N`; following `next` exactly `N` times from a region
leads back to it, fewer (but at least one) steps do not, and `r.next.prev == r` and
`r.prev.next == r` for every region `r`. -/
theorem region_new_closed_ring (ext : Externals F) (N : Nat) (hN : 1 ≤ N) (nx : Int × Int)
    (n_spec : Nat) (spec : Nat → t_species) (box : ℚ × ℚ) (dt : ℚ) (h : Heap F) (a0 : Nat)
    (ha : a0 < h.brk) (prev_region : Option Nat) (fuel : Nat) (hf : 2 * N ≤ fuel) :
    ∃ h', region_new ext N nx n_spec spec box dt fuel h a0 0 prev_region = some h' ∧
      ∀ i, i < N →
        (∃ r, h'.cell (ring_addr a0 h.brk i) = some r ∧ r.id = (i : Int) ∧
          r.next = some (ring_addr a0 h.brk ((i + 1) % N)) ∧
          r.prev = some (ring_addr a0 h.brk ((i + N - 1) % N))) ∧
        follow_next h' N (ring_addr a0 h.brk i) = some (ring_addr a0 h.brk i) ∧
        (∀ k, 0 < k → k < N →
          follow_next h' k (ring_addr a0 h.brk i) ≠ some (ring_addr a0 h.brk i)) ∧
        (next_of h' (ring_addr a0 h.brk i)).bind (prev_of h') = some (ring_addr a0 h.brk i) ∧
        (prev_of h' (ring_addr a0 h.brk i)).bind (next_of h') = some (ring_addr a0 h.brk i) := by
  obtain ⟨h', e, hw⟩ :=
    region_new_well_formed ext N hN nx n_spec spec box dt h a0 ha prev_region fuel hf
  have hlen : ((List.range N).map (ring_addr a0 h.brk)).length = N := by simp
  have g : ∀ j, j < N → ((List.range N).map (ring_addr a0 h.brk)).getD j 0 =
      ring_addr a0 h.brk j := fun j hj => range_map_getD _ hj
  have hmod : ∀ j, j % N < N := fun j => Nat.mod_lt _ (by omega)
  refine ⟨h', e, ?_⟩
  intro i hi
  have hi' : i < ((List.range N).map (ring_addr a0 h.brk)).length := by rw [hlen]; exact hi
  refine ⟨?_, ?_, ?_, ?_, ?_⟩
  · have := hw.2 i hi'
    rw [hlen, g i hi, g _ (hmod _), g _ (hmod _)] at this
    exact this
  · have := follow_next_ring hw N i hi'
    rw [hlen, g i hi, Nat.add_mod_right, Nat.mod_eq_of_lt hi, g i hi] at this
    exact this
  · intro k hk0 hkN hback
    have := follow_next_ring hw k i hi'
    rw [hlen, g i hi, g _ (hmod _), hback] at this
    have e2 := ring_addr_inj ha (Option.some.inj this)
    rcases Nat.lt_or_ge (i + k) N with hlt | hge
    · rw [Nat.mod_eq_of_lt hlt] at e2; omega
    · have : (i + k) % N = i + k - N := by
        rw [Nat.mod_eq_sub_mod hge]; exact Nat.mod_eq_of_lt (by omega)
      omega
  · have h1 := next_of_ring hw hi'
    have h2 := @prev_of_ring F h' _ hw ((i + 1) % N) (by rw [hlen]; exact hmod _)
    rw [hlen, g i hi, g _ (hmod _)] at h1
    rw [hlen, g _ (hmod _), g _ (hmod _), succ_pred_mod hi] at h2
    rw [h1]
    exact h2
  · have h1 := prev_of_ring hw hi'
    have h2 := @next_of_ring F h' _ hw ((i + N - 1) % N) (by rw [hlen]; exact hmod _)
    rw [hlen, g i hi, g _ (hmod _)] at h1
    rw [hlen, g _ (hmod _), g _ (hmod _), pred_succ_mod hi] at h2
    rw [h1]
    exact h2

/-- Exact value of the row limit computed by `region_new`. -/
theorem floor_limit (i : Int) (R : Int) (N : Nat) :
    Int.floor ((i : ℚ) * (R : ℚ) / ((N : Int) : ℚ)) = i * R / (N : Int) := by
  have := Rat.floor_intCast_div_natCast (i * R) N
  push_cast at this ⊢
  exact this

theorem limit_mono (R : Int) (hR : 0 ≤ R) (N : Nat) (hN : 1 ≤ N) {i j : Int} (hij : i ≤ j) :
    i * R / (N : Int) ≤ j * R / (N : Int) :=
  Int.ediv_le_ediv (by omega) (Int.mul_le_mul_of_nonneg_right hij hR)

theorem limit_last (R : Int) (N : Nat) (hN : 1 ≤ N) : (N : Int) * R / (N : Int) = R :=
  Int.mul_ediv_cancel_left R (by omega)

/-- A value between the first and the last term of a monotone sequence lies in one of its steps. -/
theorem exists_step (f : Nat → Int) (y : Int) :
    ∀ N, f 0 ≤ y → y < f N → ∃ i, i < N ∧ f i ≤ y ∧ y < f (i + 1) := by
  intro N
  induction N with
  | zero => intro h0 h1; omega
  | succ n ih =>
    intro h0 h1
    by_cases hy : y < f n
    · obtain ⟨i, hi, h⟩ := ih h0 hy
      exact ⟨i, by omega, h⟩
    · exact ⟨n, by omega, by omega, h1⟩

/-- Each row of the grid lies in the band of exactly one region. -/
theorem row_in_one_band (R : Int) (N : Nat) (hN : 1 ≤ N) (y : Int) (h0 : 0 ≤ y) (h1 : y < R) :
    ∃! i : Nat, i < N ∧ (i : Int) * R / (N : Int) ≤ y ∧ y < ((i : Int) + 1) * R / (N : Int) := by
  have hR : 0 ≤ R := by omega
  obtain ⟨i, hi, ha, hb⟩ := exists_step (fun i => (i : Int) * R / (N : Int)) y N
    (by simpa using h0) (by simpa [limit_last R N hN] using h1)
  refine ⟨i, ⟨hi, ha, by simpa using hb⟩, ?_⟩
  rintro j ⟨_, hja, hjb⟩
  simp only [Nat.cast_add, Nat.cast_one] at hb
  rcases Nat.lt_trichotomy j i with hlt | heq | hgt
  · have := limit_mono R hR N hN (show (j : Int) + 1 ≤ (i : Int) by omega)
    omega
  · exact heq
  · have := limit_mono R hR N hN (show (i : Int) + 1 ≤ (j : Int) by omega)
    omega

theorem region_built_limits (ext : Externals F) (N : Nat) (nx : Int × Int)
    (n_spec : Nat) (spec : Nat → t_species) (box : ℚ × ℚ) (dt : ℚ) (id : Int)
    (p q : Option Nat) :
    (region_built ext N nx n_spec spec box dt id p q).limits_y =
      (id * nx.2 / (N : Int), (id + 1) * nx.2 / (N : Int)) := by
  simp only [region_built, region_init, floor_limit]

/-- C1.  For every number of regions `N ≥ 1` and grid height `R` (`R ≥ 0` included, the
arithmetic taken exactly), `region_new` started at
id 0 returns, and in the heap it returns the region with id `i` (for every `i < N`) owns the rows
`[⌊i·R/N⌋, ⌊(i+1)·R/N⌋)`, its `nx[1]` is the length of that range, region 0 starts at row 0,
region `N-1` ends at row `R`, the range of region `i` ends where that of region `i+1` starts,
and every row of `[0, R)` lies in the range of exactly one region. -/
theorem region_new_partitions_rows (ext : Externals F) (N : Nat) (R : Int) (hN : 1 ≤ N)
    (nx0 : Int) (n_spec : Nat) (spec : Nat → t_species) (box : ℚ × ℚ) (dt : ℚ)
    (h : Heap F) (a0 : Nat) (ha : a0 < h.brk) (prev_region : Option Nat) (fuel : Nat)
    (hf : 2 * N ≤ fuel) :
    ∃ h', region_new ext N (nx0, R) n_spec spec box dt fuel h a0 0 prev_region = some h' ∧
      (∀ i, i < N → ∃ r, h'.cell (ring_addr a0 h.brk i) = some r ∧ r.id = (i : Int) ∧
        r.limits_y = (Int.floor (((i : Int) : ℚ) * (R : ℚ) / (N : ℚ)),
                      Int.floor ((((i : Int) + 1 : Int) : ℚ) * (R : ℚ) / (N : ℚ))) ∧
        r.limits_y = ((i : Int) * R / (N : Int), ((i : Int) + 1) * R / (N : Int)) ∧
        r.nx.2 = r.limits_y.2 - r.limits_y.1 ∧
        (i = 0 → r.limits_y.1 = 0) ∧
        (i = N - 1 → r.limits_y.2 = R) ∧
        (i + 1 < N → ∃ r', h'.cell (ring_addr a0 h.brk (i + 1)) = some r' ∧
          r.limits_y.2 = r'.limits_y.1)) ∧
      (∀ y : Int, 0 ≤ y → y < R →
        ∃! i : Nat, i < N ∧ ∃ r, h'.cell (ring_addr a0 h.brk i) = some r ∧
          r.limits_y.1 ≤ y ∧ y < r.limits_y.2) := by
  obtain ⟨h', e, _, hc, _⟩ :=
    region_new_built ext N hN (nx0, R) n_spec spec box dt h a0 ha prev_region fuel hf
  refine ⟨h', e, ?_, ?_⟩
  · intro i hi
    refine ⟨_, hc i hi, rfl, ?_, region_built_limits _ _ _ _ _ _ _ _ _ _, rfl, ?_, ?_, ?_⟩
    · simp [region_built, region_init]
    · intro h0; subst h0; simp [region_built_limits]
    · intro hl
      have : ((i : Int) + 1) = (N : Int) := by omega
      simp [region_built_limits, this, limit_last R N hN]
    · intro hi1
      refine ⟨_, hc (i + 1) hi1, ?_⟩
      simp [region_built_limits]
  · intro y h0 h1
    obtain ⟨i, ⟨hi, ha, hb⟩, huniq⟩ := row_in_one_band R N hN y h0 h1
    refine ⟨i, ⟨hi, _, hc i hi, ?_, ?_⟩, ?_⟩
    · simpa [region_built_limits] using ha
    · simpa [region_built_limits] using hb
    · rintro j ⟨hj, r, hr, hja, hjb⟩
      rw [hc j hj] at hr
      cases hr
      apply huniq
      refine ⟨hj, ?_, ?_⟩
      · simpa [region_built_limits] using hja
      · simpa [region_built_limits] using hjb

/-! ## Theorems: the particles of a new region -/

theorem copy_particles_data (limits_y : Int × Int) (src : t_particle_vector) :
    ∀ particles : t_particle_vector,
      (copy_particles limits_y src particles).data = particles.data ++
        src.data.filter (fun p => decide (limits_y.1 ≤ p.iy ∧ p.iy < limits_y.2)) := by
  unfold copy_particles
  induction src.data with
  | nil => intro v; simp
  | cons p ps ih =>
    intro v
    rw [List.foldl_cons, ih]
    by_cases hp : p.iy < limits_y.2 ∧ p.iy ≥ limits_y.1
    · have hp' : limits_y.1 ≤ p.iy ∧ p.iy < limits_y.2 := ⟨hp.2, hp.1⟩
      simp [hp, hp', push_particle, List.filter_cons]
    · have hp' : ¬ (limits_y.1 ≤ p.iy ∧ p.iy < limits_y.2) := fun h => hp ⟨h.2, h.1⟩
      simp [hp, hp', List.filter_cons]

theorem main_vector_of_built (ext : Externals F)
    (hspec : ∀ s, (ext.spec_new s).main_vector.data = []) (n_regions : Int) (nx : Int × Int)
    (n_spec : Nat) (spec : Nat → t_species) (box : ℚ × ℚ) (dt : ℚ) (id : Int)
    (p q : Option Nat) (h : Heap F) (a : Nat)
    (hc : h.cell a = some (region_built ext n_regions nx n_spec spec box dt id p q))
    (n : Nat) (hn : n < n_spec) :
    main_vector_of h a n = (spec n).main_vector.data.filter (fun part =>
      decide ((region_built ext n_regions nx n_spec spec box dt id p q).limits_y.1 ≤ part.iy ∧
        part.iy < (region_built ext n_regions nx n_spec spec box dt id p q).limits_y.2)) := by
  unfold main_vector_of
  rw [hc]
  simp only [region_built, region_init]
  rw [List.getElem?_map, List.getElem?_range hn]
  simp only [Option.map_some', new_species, copy_particles_data, hspec, List.nil_append]

/-- Over the regions, the bands that contain a given row of the grid number exactly one. -/
theorem sum_band_indicator (R : Int) (N : Nat) (hN : 1 ≤ N) (y : Int) (h0 : 0 ≤ y) (h1 : y < R) :
    Finset.sum (Finset.range N)
      (fun i => if (i : Int) * R / (N : Int) ≤ y ∧ y < ((i : Int) + 1) * R / (N : Int)
        then 1 else 0) = 1 := by
  have hR : 0 ≤ R := by omega
  have key : ∀ k : Nat, Finset.sum (Finset.range k)
      (fun i => if (i : Int) * R / (N : Int) ≤ y ∧ y < ((i : Int) + 1) * R / (N : Int)
        then 1 else 0) = if y < (k : Int) * R / (N : Int) then 1 else 0 := by
    intro k
    induction k with
    | zero => simp only [Finset.range_zero, Finset.sum_empty, Nat.cast_zero, zero_mul, Int.zero_ediv]; rw [if_neg (by omega)]
    | succ k ih =>
      rw [Finset.sum_range_succ, ih]
      have hm := limit_mono R hR N hN (show (k : Int) ≤ (k : Int) + 1 by omega)
      push_cast
      split_ifs <;> omega
  rw [key N, limit_last R N hN, if_pos h1]

theorem sum_filter_bands (R : Int) (N : Nat) (hN : 1 ≤ N) :
    ∀ ps : List t_part, (∀ p, p ∈ ps → 0 ≤ p.iy ∧ p.iy < R) →
      Finset.sum (Finset.range N) (fun i => (ps.filter (fun p =>
        decide ((i : Int) * R / (N : Int) ≤ p.iy ∧ p.iy < ((i : Int) + 1) * R / (N : Int)))).length)
      = ps.length := by
  intro ps
  induction ps with
  | nil => intro _; simp
  | cons p ps ih =>
    intro hp
    have hp0 := hp p (List.mem_cons_self _ _)
    have e : ∀ i : Nat, ((p :: ps).filter (fun p =>
        decide ((i : Int) * R / (N : Int) ≤ p.iy ∧ p.iy < ((i : Int) + 1) * R / (N : Int)))).length
        = (ps.filter (fun p =>
        decide ((i : Int) * R / (N : Int) ≤ p.iy ∧ p.iy < ((i : Int) + 1) * R / (N : Int)))).length
          + (if (i : Int) * R / (N : Int) ≤ p.iy ∧ p.iy < ((i : Int) + 1) * R / (N : Int)
              then 1 else 0) := by
      intro i
      rw [List.filter_cons]
      split_ifs with h1 h2 h2
      · simp
      · simp at h1; exact absurd ⟨h1.1, h1.2⟩ h2
      · simp at h1; exact absurd (h1 h2.1) (by omega)
      · simp
    simp only [e]
    rw [Finset.sum_add_distrib, ih (fun q hq => hp q (List.mem_cons_of_mem _ hq)),
      sum_band_indicator R N hN p.iy hp0.1 hp0.2, List.length_cons]

/-- The buckets of `region_new` when the arithmetic of lines 18-19 is taken exactly.  Assume
`spec_new` yields a species whose main vector is empty.  For every `N ≥ 1`, grid height `R` and
species `n`, after `region_new` the main vector of species `n` of the region with id `i` holds
exactly the particles of the template with `limits_y[0] ≤ iy < limits_y[1]`, in the order of the
template; each particle of the template with `0 ≤ iy < R` is in the main vector of exactly one
region; and when all particles of the template have `0 ≤ iy < R` the sizes of the main vectors
of the `N` regions add up to the size of the template. -/
theorem region_new_buckets_particles (ext : Externals F)
    (hspec : ∀ s, (ext.spec_new s).main_vector.data = []) (N : Nat) (hN : 1 ≤ N) (R : Int)
    (nx0 : Int) (n_spec : Nat) (spec : Nat → t_species) (box : ℚ × ℚ) (dt : ℚ)
    (h : Heap F) (a0 : Nat) (ha : a0 < h.brk) (prev_region : Option Nat) (fuel : Nat)
    (hf : 2 * N ≤ fuel) :
    ∃ h', region_new ext N (nx0, R) n_spec spec box dt fuel h a0 0 prev_region = some h' ∧
      (∀ i, i < N → ∀ n, n < n_spec →
        ∃ r, h'.cell (ring_addr a0 h.brk i) = some r ∧
          r.limits_y = ((i : Int) * R / (N : Int), ((i : Int) + 1) * R / (N : Int)) ∧
          main_vector_of h' (ring_addr a0 h.brk i) n =
            (spec n).main_vector.data.filter
              (fun p => decide (r.limits_y.1 ≤ p.iy ∧ p.iy < r.limits_y.2))) ∧
      (∀ n, n < n_spec → ∀ p, p ∈ (spec n).main_vector.data → 0 ≤ p.iy → p.iy < R →
        ∃! i : Nat, i < N ∧ p ∈ main_vector_of h' (ring_addr a0 h.brk i) n) ∧
      (∀ n, n < n_spec → (∀ p, p ∈ (spec n).main_vector.data → 0 ≤ p.iy ∧ p.iy < R) →
        Finset.sum (Finset.range N)
            (fun i => (main_vector_of h' (ring_addr a0 h.brk i) n).length) =
          (spec n).main_vector.data.length) := by
  obtain ⟨h', e, _, hc, _⟩ :=
    region_new_built ext N hN (nx0, R) n_spec spec box dt h a0 ha prev_region fuel hf
  have hmv : ∀ i, i < N → ∀ n, n < n_spec →
      main_vector_of h' (ring_addr a0 h.brk i) n = (spec n).main_vector.data.filter (fun p =>
        decide ((i : Int) * R / (N : Int) ≤ p.iy ∧ p.iy < ((i : Int) + 1) * R / (N : Int))) := by
    intro i hi n hn
    rw [main_vector_of_built ext hspec _ _ _ _ _ _ _ _ _ h' _ (hc i hi) n hn]
    simp only [region_built_limits]
  refine ⟨h', e, ?_, ?_, ?_⟩
  · intro i hi n hn
    refine ⟨_, hc i hi, region_built_limits _ _ _ _ _ _ _ _ _ _, ?_⟩
    rw [hmv i hi n hn]
    simp only [region_built_limits]
  · intro n hn p hp h0 h1
    obtain ⟨i, ⟨hi, hia, hib⟩, huniq⟩ := row_in_one_band R N hN p.iy h0 h1
    refine ⟨i, ⟨hi, ?_⟩, ?_⟩
    · rw [hmv i hi n hn, List.mem_filter]
      exact ⟨hp, by simpa using ⟨hia, hib⟩⟩
    · rintro j ⟨hj, hmem⟩
      rw [hmv j hj n hn, List.mem_filter] at hmem
      have := hmem.2
      simp only [decide_eq_true_eq] at this
      exact huniq j ⟨hj, this.1, this.2⟩
  · intro n hn hall
    rw [← sum_filter_bands R N hN _ hall]
    apply Finset.sum_congr rfl
    intro i hi
    rw [hmv i (Finset.mem_range.mp hi) n hn]

/-! ## Theorems: the traversals of the driver -/

theorem ring_getD_drop {ring : List Nat} {i : Nat} (hi : i < ring.length) :
    ring.drop i = ring.getD i 0 :: ring.drop (i + 1) := by
  rw [List.getD_eq_getElem _ _ hi]
  exact List.drop_eq_getElem_cons hi

theorem stage_walk_ring {h : Heap F} {ring : List Nat} (hw : well_formed_ring h ring)
    (task : Nat → List Op) (walk : Nat → Nat → Option (List Op))
    (hzero : ∀ a, walk 0 a = none)
    (hstep : ∀ fuel a r next rn, h.cell a = some r → r.next = some next →
      h.cell next = some rn →
      walk (fuel + 1) a =
        if rn.id ≠ 0 then (walk fuel next).map (task a ++ ·) else some (task a)) :
    ∀ d i, i + d + 1 = ring.length → ∀ fuel,
      walk fuel (ring.getD i 0) =
        if d + 1 ≤ fuel then some ((ring.drop i).flatMap task) else none := by
  intro d
  induction d with
  | zero =>
    intro i hi fuel
    have hi' : i < ring.length := by omega
    obtain ⟨r, hr, _, hn, _⟩ := hw.2 i hi'
    have hz : (i + 1) % ring.length = 0 := by rw [show i + 1 = ring.length by omega, Nat.mod_self]
    obtain ⟨r0, hr0, hid0, _⟩ := hw.2 0 (by omega)
    rw [hz] at hn
    cases fuel with
    | zero => simp [hzero]
    | succ f =>
      rw [hstep f _ r _ r0 hr hn hr0]
      have : ring.drop (i + 1) = [] := List.drop_eq_nil_of_le (by omega)
      simp [hid0, ring_getD_drop hi', this]
  | succ d ih =>
    intro i hi fuel
    have hi' : i < ring.length := by omega
    obtain ⟨r, hr, _, hn, _⟩ := hw.2 i hi'
    have hz : (i + 1) % ring.length = i + 1 := Nat.mod_eq_of_lt (by omega)
    obtain ⟨r1, hr1, hid1, _⟩ := hw.2 (i + 1) (by omega)
    rw [hz] at hn
    cases fuel with
    | zero => simp [hzero]
    | succ f =>
      rw [hstep f _ r _ r1 hr hn hr1, ih (i + 1) (by omega) f]
      have hne : r1.id ≠ 0 := by rw [hid1]; omega
      rw [if_pos hne, ring_getD_drop hi']
      by_cases hf : d + 1 ≤ f
      · simp [hf]
      · simp [hf]

theorem ring_walk_from_first {h : Heap F} {ring : List Nat} (hw : well_formed_ring h ring)
    (task : Nat → List Op) (walk : Nat → Nat → Option (List Op))
    (hzero : ∀ a, walk 0 a = none)
    (hstep : ∀ fuel a r next rn, h.cell a = some r → r.next = some next →
      h.cell next = some rn →
      walk (fuel + 1) a =
        if rn.id ≠ 0 then (walk fuel next).map (task a ++ ·) else some (task a))
    (fuel : Nat) :
    walk fuel (ring.getD 0 0) =
      if ring.length ≤ fuel then some (ring.flatMap task) else none := by
  have hpos := ring_length_pos hw
  have := stage_walk_ring hw task walk hzero hstep (ring.length - 1) 0 (by omega) fuel
  rw [this, List.drop_zero, show ring.length - 1 + 1 = ring.length by omega]

theorem flatMap_single {α β : Type} (f : α → β) (l : List α) :
    l.flatMap (fun a => [f a]) = l.map f := by
  induction l with
  | nil => rfl
  | cons a l ih => simp [List.flatMap_cons, ih]

theorem flatMap_empty {α β : Type} (l : List α) :
    l.flatMap (fun _ => ([] : List β)) = [] := by
  induction l with
  | nil => rfl
  | cons a l ih => simp [List.flatMap_cons, ih]

theorem n_species_of_eq {h : Heap F} {a : Nat} {r : t_region F} (hr : h.cell a = some r) :
    n_species_of h a = r.n_species := by
  simp [n_species_of, hr]

/-- What `region_spec_advance` returns on a well-formed ring, for every amount of fuel. -/
theorem walk_spec_advance {h : Heap F} {ring : List Nat} (hw : well_formed_ring h ring)
    (fuel : Nat) :
    region_spec_advance h fuel (ring.getD 0 0) =
      if ring.length ≤ fuel then
        some (ring.flatMap (fun a => spec_advance_task a (n_species_of h a)))
      else none :=
  ring_walk_from_first hw _ (region_spec_advance h) (fun _ => rfl)
    (fun f a r next rn hr hn hrn => by
      simp only [region_spec_advance, hr, hn, hrn, n_species_of_eq hr]) fuel

/-- What `region_spec_update` returns on a well-formed ring, for every amount of fuel. -/
theorem walk_spec_update {h : Heap F} {ring : List Nat} (hw : well_formed_ring h ring)
    (fuel : Nat) :
    region_spec_update h fuel (ring.getD 0 0) =
      if ring.length ≤ fuel then
        some (ring.flatMap (fun a => spec_update_task a (n_species_of h a)))
      else none :=
  ring_walk_from_first hw _ (region_spec_update h) (fun _ => rfl)
    (fun f a r next rn hr hn hrn => by
      simp only [region_spec_update, hr, hn, hrn, n_species_of_eq hr]) fuel

/-- What `region_current_reduction_y` returns on a well-formed ring, for every amount of fuel. -/
theorem walk_current_reduction_y {h : Heap F} {ring : List Nat} (hw : well_formed_ring h ring)
    (fuel : Nat) :
    region_current_reduction_y h fuel (ring.getD 0 0) =
      if ring.length ≤ fuel then some (ring.map Op.current_reduction_y) else none := by
  have := ring_walk_from_first hw (fun a => [Op.current_reduction_y a])
    (region_current_reduction_y h) (fun _ => rfl)
    (fun f a r next rn hr hn hrn => by
      simp only [region_current_reduction_y, hr, hn, hrn]) fuel
  simpa only [flatMap_single] using this

/-- What `region_current_smooth` returns on a well-formed ring, for every amount of fuel. -/
theorem walk_current_smooth {h : Heap F} {ring : List Nat} (hw : well_formed_ring h ring)
    (mode : CURRENT_SMOOTH_MODE) (fuel : Nat) :
    region_current_smooth h mode fuel (ring.getD 0 0) =
      if ring.length ≤ fuel then some (ring.flatMap (fun a => current_smooth_task a mode))
      else none :=
  ring_walk_from_first hw _ (region_current_smooth h mode) (fun _ => rfl)
    (fun f a r next rn hr hn hrn => by
      simp only [region_current_smooth, hr, hn, hrn]) fuel

/-- What `region_emf_advance` returns on a well-formed ring, for every amount of fuel. -/
theorem walk_emf_advance {h : Heap F} {ring : List Nat} (hw : well_formed_ring h ring)
    (mode : EMF_UPDATE) (fuel : Nat) :
    region_emf_advance h mode fuel (ring.getD 0 0) =
      if ring.length ≤ fuel then some (ring.flatMap (fun a => emf_advance_task a mode))
      else none :=
  ring_walk_from_first hw _ (region_emf_advance h mode) (fun _ => rfl)
    (fun f a r next rn hr hn hrn => by
      simp only [region_emf_advance, hr, hn, hrn]) fuel

theorem first_by_next_ring {h : Heap F} {ring : List Nat} (hw : well_formed_ring h ring) :
    ∀ d i, 1 ≤ i → i + d = ring.length → ∀ fuel, d + 1 ≤ fuel →
      first_by_next h fuel (ring.getD (i % ring.length) 0) = some (ring.getD 0 0) := by
  have hpos := ring_length_pos hw
  intro d
  induction d with
  | zero =>
    intro i _ hi fuel hf
    obtain ⟨f, rfl⟩ : ∃ f, fuel = f + 1 := ⟨fuel - 1, by omega⟩
    obtain ⟨r0, hr0, hid0, _⟩ := hw.2 0 hpos
    have : i % ring.length = 0 := by rw [show i = ring.length by omega, Nat.mod_self]
    rw [this]
    simp only [first_by_next, hr0, hid0]
    simp
  | succ d ih =>
    intro i h1 hi fuel hf
    obtain ⟨f, rfl⟩ : ∃ f, fuel = f + 1 := ⟨fuel - 1, by omega⟩
    have hi' : i < ring.length := by omega
    obtain ⟨r, hr, hid, hn, _⟩ := hw.2 i hi'
    have hne : r.id ≠ 0 := by rw [hid]; omega
    rw [Nat.mod_eq_of_lt hi']
    simp only [first_by_next, hr, hne, ne_eq, not_false_eq_true, if_true, hn]
    exact ih (i + 1) (by omega) (by omega) f (by omega)

theorem first_by_next_of_mem {h : Heap F} {ring : List Nat} (hw : well_formed_ring h ring)
    {region : Nat} (hr : region ∈ ring) {fuel : Nat} (hf : ring.length ≤ fuel) :
    first_by_next h fuel region = some (ring.getD 0 0) := by
  have hpos := ring_length_pos hw
  obtain ⟨i, hi, rfl⟩ := ring_mem_iff.mp hr
  rcases Nat.eq_zero_or_pos i with h0 | h0
  · subst h0
    have := first_by_next_ring hw 0 ring.length hpos rfl fuel (by omega)
    rwa [Nat.mod_self] at this
  · have := first_by_next_ring hw (ring.length - i) i h0 (by omega) fuel (by omega)
    rwa [Nat.mod_eq_of_lt hi] at this

/-- C4.  On a well-formed ring of `N ≥ 1` regions, `region_advance` called on any region of the
ring issues: the operations of Spec Advance (`current_zero`, `spec_advance` for each species,
`current_reduction_x`) for the regions `0..N-1`; then `spec_update_main_vector` for each species
of the regions `0..N-1`; then `current_reduction_y` for the regions `0..N-1`; then, exactly when
`local_current.smooth.xtype` of region 0 is not `NONE`, `current_smooth_x` for the regions
`0..N-1` followed by `current_gc_update_y` for the regions `0..N-1`; then `emf_advance` for the
regions `0..N-1`; then `emf_update_gc_y` for the regions `0..N-1`.  The trace is the same for
every region of the ring it is called on. -/
theorem region_advance_stage_order (h : Heap F) (ring : List Nat)
    (hw : well_formed_ring h ring) (region : Nat) (hr : region ∈ ring) (fuel : Nat)
    (hf : ring.length ≤ fuel) :
    ∃ r0, h.cell (ring.getD 0 0) = some r0 ∧
      region_advance h fuel region = some (
        ring.flatMap (fun a => [Op.current_zero a]
          ++ (List.range (n_species_of h a)).map (Op.spec_advance a)
          ++ [Op.current_reduction_x a])
        ++ ring.flatMap (fun a =>
            (List.range (n_species_of h a)).map (Op.spec_update_main_vector a))
        ++ ring.map Op.current_reduction_y
        ++ (if r0.local_current.smooth_xtype ≠ smooth_type.NONE
            then ring.map Op.current_smooth_x ++ ring.map Op.current_gc_update_y else [])
        ++ ring.map Op.emf_advance
        ++ ring.map Op.emf_update_gc_y) := by
  obtain ⟨r0, hr0, _⟩ := hw.2 0 (ring_length_pos hw)
  have e1 := walk_spec_advance hw fuel
  have e2 := walk_spec_update hw fuel
  have e3 := walk_current_reduction_y hw fuel
  have e4 := walk_current_smooth hw .SMOOTH_X fuel
  have e5 := walk_current_smooth hw .CURRENT_UPDATE_GC fuel
  have e7 := walk_emf_advance hw .EMF_ADVANCE fuel
  have e8 := walk_emf_advance hw .EMF_UPDATE_GC fuel
  simp only [if_pos hf, current_smooth_task, emf_advance_task, flatMap_single,
    spec_advance_task, spec_update_task] at e1 e2 e3 e4 e5 e7 e8
  refine ⟨r0, hr0, ?_⟩
  unfold region_advance
  rw [first_by_next_of_mem hw hr hf]
  simp only [Option.bind_eq_bind, Option.some_bind, e1, e2, e3, hr0, e7, e8, e4, e5]
  by_cases hx : r0.local_current.smooth_xtype ≠ smooth_type.NONE
  · simp only [if_pos hx, e4, e5, Option.some_bind, Option.pure_def, Option.bind_eq_bind]
  · simp only [if_neg hx, Option.some_bind, Option.pure_def, Option.bind_eq_bind]

/-- C5.  On a well-formed ring of `N ≥ 1` regions each of the five recursive stage functions,
called on the region with id 0, returns exactly when it is allowed at least `N` activations
(one unit of fuel each), and then it has applied its operation to the regions with the ids
`0, 1, ..., N-1`, once each and in this order. -/
theorem stage_functions_visit_ring_once (h : Heap F) (ring : List Nat)
    (hw : well_formed_ring h ring) (fuel : Nat) :
    region_spec_advance h fuel (ring.getD 0 0) =
      (if ring.length ≤ fuel then
        some (ring.flatMap (fun a => [Op.current_zero a]
          ++ (List.range (n_species_of h a)).map (Op.spec_advance a)
          ++ [Op.current_reduction_x a]))
      else none) ∧
    region_spec_update h fuel (ring.getD 0 0) =
      (if ring.length ≤ fuel then
        some (ring.flatMap (fun a =>
          (List.range (n_species_of h a)).map (Op.spec_update_main_vector a)))
      else none) ∧
    region_current_reduction_y h fuel (ring.getD 0 0) =
      (if ring.length ≤ fuel then some (ring.map Op.current_reduction_y) else none) ∧
    region_current_smooth h .SMOOTH_X fuel (ring.getD 0 0) =
      (if ring.length ≤ fuel then some (ring.map Op.current_smooth_x) else none) ∧
    region_current_smooth h .CURRENT_UPDATE_GC fuel (ring.getD 0 0) =
      (if ring.length ≤ fuel then some (ring.map Op.current_gc_update_y) else none) ∧
    region_current_smooth h .OTHER fuel (ring.getD 0 0) =
      (if ring.length ≤ fuel then some [] else none) ∧
    region_emf_advance h .EMF_ADVANCE fuel (ring.getD 0 0) =
      (if ring.length ≤ fuel then some (ring.map Op.emf_advance) else none) ∧
    region_emf_advance h .EMF_UPDATE_GC fuel (ring.getD 0 0) =
      (if ring.length ≤ fuel then some (ring.map Op.emf_update_gc_y) else none) ∧
    region_emf_advance h .OTHER fuel (ring.getD 0 0) =
      (if ring.length ≤ fuel then some [] else none) := by
  refine ⟨?_, ?_, walk_current_reduction_y hw fuel, ?_, ?_, ?_, ?_, ?_, ?_⟩
  · simpa only [spec_advance_task] using walk_spec_advance hw fuel
  · simpa only [spec_update_task] using walk_spec_update hw fuel
  · simpa only [current_smooth_task, flatMap_single] using
      walk_current_smooth hw .SMOOTH_X fuel
  · simpa only [current_smooth_task, flatMap_single] using
      walk_current_smooth hw .CURRENT_UPDATE_GC fuel
  · simpa only [current_smooth_task, flatMap_empty] using walk_current_smooth hw .OTHER fuel
  · simpa only [emf_advance_task, flatMap_single] using walk_emf_advance hw .EMF_ADVANCE fuel
  · simpa only [emf_advance_task, flatMap_single] using
      walk_emf_advance hw .EMF_UPDATE_GC fuel
  · simpa only [emf_advance_task, flatMap_empty] using walk_emf_advance hw .OTHER fuel

/-! ## Theorems: linking the regions -/

theorem link_species_getElem? (next prev : Nat) (species : List t_species) :
    ∀ n s, (link_species n next prev species)[s]? =
      if s < n then species[s]?.map
        (fun x => spec_adjacent_vectors x ⟨next, s, 0⟩ ⟨prev, s, 1⟩)
      else species[s]? := by
  intro n
  induction n with
  | zero => intro s; simp [link_species]
  | succ n ih =>
    intro s
    have e : link_species (n + 1) next prev species =
        (link_species n next prev species).modify
          (fun x => spec_adjacent_vectors x ⟨next, n, 0⟩ ⟨prev, n, 1⟩) n := by
      simp [link_species, List.range_succ, List.foldl_append]
    rw [e, List.getElem?_modify, ih]
    by_cases hs : n = s
    · subst hs
      simp
    · have : (s < n + 1) = (s < n) := by
        apply propext; constructor <;> intro h <;> omega
      simp only [hs, if_false, this]
      split_ifs <;> simp

theorem link_species_length (next prev : Nat) (species : List t_species) :
    ∀ n, (link_species n next prev species).length = species.length := by
  intro n
  induction n with
  | zero => simp [link_species]
  | succ n ih =>
    have e : link_species (n + 1) next prev species =
        (link_species n next prev species).modify
          (fun x => spec_adjacent_vectors x ⟨next, n, 0⟩ ⟨prev, n, 1⟩) n := by
      simp [link_species, List.range_succ, List.foldl_append]
    rw [e, List.length_modify, ih]

theorem link_step {h : Heap F} {ring : List Nat} {n : Nat} (hw : well_formed_ring h ring)
    (hu : uniform_species h ring n) {a : Nat} (ha : a ∈ ring) :
    ∃ h1, region_link_adj_regions h a = some h1 ∧ well_formed_ring h1 ring ∧
      uniform_species h1 ring n ∧ linked h1 n a ∧ ∀ b, linked h n b → linked h1 n b := by
  have hpos := ring_length_pos hw
  obtain ⟨i, hi, rfl⟩ := ring_mem_iff.mp ha
  obtain ⟨r, hr, hid, hnx, hpv⟩ := hw.2 i hi
  obtain ⟨rn, hrn, _⟩ := hw.2 ((i + 1) % ring.length) (Nat.mod_lt _ hpos)
  obtain ⟨rp, hrp, _⟩ := hw.2 ((i + ring.length - 1) % ring.length) (Nat.mod_lt _ hpos)
  obtain ⟨r', hr', hns, hlen⟩ := hu _ ha
  rw [hr] at hr'
  cases hr'
  generalize ring.getD ((i + 1) % ring.length) 0 = nx at hnx hrn
  generalize ring.getD ((i + ring.length - 1) % ring.length) 0 = pv at hpv hrp
  let r1 : t_region F :=
    { r with
      local_current := current_overlap_zone r.local_current pv
      local_emf := emf_overlap_zone r.local_emf pv
      species := link_species r.n_species nx pv r.species }
  have e : region_link_adj_regions h (ring.getD i 0) = some (h.write (ring.getD i 0) r1) := by
    simp only [region_link_adj_regions, hr, hnx, hpv, hrn, hrp, r1]
  have hc1 : (h.write (ring.getD i 0) r1).cell (ring.getD i 0) = some r1 := by
    rw [Heap.write_cell, if_pos rfl]
  have hlinked : linked (h.write (ring.getD i 0) r1) n (ring.getD i 0) := by
    refine ⟨r1, nx, pv, hc1, hnx, hpv, ?_⟩
    intro s hs
    have hs' : s < r.species.length := by omega
    refine ⟨spec_adjacent_vectors r.species[s] ⟨nx, s, 0⟩ ⟨pv, s, 1⟩, ?_, rfl⟩
    show (link_species r.n_species nx pv r.species)[s]? = _
    rw [link_species_getElem?, if_pos (by omega), List.getElem?_eq_getElem hs']
    rfl
  refine ⟨_, e, ?_, ?_, hlinked, ?_⟩
  · refine ⟨hw.1, ?_⟩
    intro j hj
    obtain ⟨rj, hrj, hjid, hjn, hjp⟩ := hw.2 j hj
    by_cases hji : ring.getD j 0 = ring.getD i 0
    · have := ring_getD_inj hw hj hi hji
      subst this
      rw [hr] at hrj
      cases hrj
      exact ⟨r1, hc1, hid, hjn, hjp⟩
    · exact ⟨rj, by rw [Heap.write_cell, if_neg hji, hrj], hjid, hjn, hjp⟩
  · intro b hb
    by_cases hbi : b = ring.getD i 0
    · subst hbi
      exact ⟨r1, hc1, hns, by
        show (link_species r.n_species nx pv r.species).length = n
        rw [link_species_length, hlen]⟩
    · obtain ⟨rb, hrb, h1, h2⟩ := hu b hb
      exact ⟨rb, by rw [Heap.write_cell, if_neg hbi, hrb], h1, h2⟩
  · intro b hb
    by_cases hbi : b = ring.getD i 0
    · subst hbi
      exact hlinked
    · obtain ⟨rb, nb, pb, hrb, h1, h2, h3⟩ := hb
      exact ⟨rb, nb, pb, by rw [Heap.write_cell, if_neg hbi, hrb], h1, h2, h3⟩

theorem link_all_spec {ring : List Nat} {n : Nat} :
    ∀ (order : List Nat) (h : Heap F), well_formed_ring h ring → uniform_species h ring n →
      (∀ a, a ∈ order → a ∈ ring) →
      ∃ h', link_all h order = some h' ∧ well_formed_ring h' ring ∧
        uniform_species h' ring n ∧ (∀ b, linked h n b → linked h' n b) ∧
        ∀ a, a ∈ order → linked h' n a := by
  intro order
  induction order with
  | nil =>
    intro h hw hu _
    exact ⟨h, rfl, hw, hu, fun _ hb => hb, fun a ha => absurd ha (List.not_mem_nil a)⟩
  | cons a rest ih =>
    intro h hw hu ho
    obtain ⟨h1, e1, hw1, hu1, hl1, hk1⟩ := link_step hw hu (ho a (List.mem_cons_self _ _))
    obtain ⟨h', e', hw', hu', hk', hl'⟩ :=
      ih h1 hw1 hu1 (fun b hb => ho b (List.mem_cons_of_mem _ hb))
    refine ⟨h', by simp only [link_all, e1, e'], hw', hu', fun b hb => hk' b (hk1 b hb), ?_⟩
    intro b hb
    rcases List.mem_cons.mp hb with rfl | hb'
    · exact hk' _ hl1
    · exact hl' b hb'

theorem outgoing_ref_linked {h : Heap F} {ring : List Nat} {n : Nat}
    (hw : well_formed_ring h ring) {i : Nat} (hi : i < ring.length)
    (hl : linked h n (ring.getD i 0)) {s : Nat} (hs : s < n) :
    outgoing_ref h (ring.getD i 0) s .to_next =
        some ⟨ring.getD ((i + 1) % ring.length) 0, s, 0⟩ ∧
      outgoing_ref h (ring.getD i 0) s .to_prev =
        some ⟨ring.getD ((i + ring.length - 1) % ring.length) 0, s, 1⟩ := by
  obtain ⟨r, hr, _, hnx, hpv⟩ := hw.2 i hi
  obtain ⟨r', nx, pv, hr', hnx', hpv', hsp⟩ := hl
  rw [hr] at hr'
  cases hr'
  rw [hnx] at hnx'
  rw [hpv] at hpv'
  cases hnx'
  cases hpv'
  obtain ⟨sp, hsp1, hsp2⟩ := hsp s hs
  constructor
  · simp only [outgoing_ref, hr, hsp1, hsp2]
  · simp only [outgoing_ref, hr, hsp1, hsp2]

/-- C10.  On a well-formed ring of `N ≥ 1` regions that all have `n` species, after
`region_link_adj_regions` has been applied to every region (in any order, possibly more than
once), every temp buffer has exactly one sender: `temp_buffer[0]` of species `s` of the region
with id `k` is the destination of the link of (region, species, direction) exactly for the
region with id `(k-1) mod N`, species `s`, direction `next`; `temp_buffer[1]` exactly for the
region with id `(k+1) mod N`, species `s`, direction `prev`; and the buffers a region sends to
are exactly the ones in the `out` clauses of its Spec Advance task. -/
theorem temp_buffer_has_one_sender (h : Heap F) (ring : List Nat) (n : Nat)
    (hw : well_formed_ring h ring) (hu : uniform_species h ring n) (order : List Nat)
    (ho1 : ∀ a, a ∈ order → a ∈ ring) (ho2 : ∀ a, a ∈ ring → a ∈ order) :
    ∃ h', link_all h order = some h' ∧ well_formed_ring h' ring ∧
      (∀ i k, i < ring.length → k < ring.length → ∀ s' s, s' < n → s < n → ∀ d,
        (outgoing_ref h' (ring.getD i 0) s' d = some ⟨ring.getD k 0, s, 0⟩ ↔
          i = (k + ring.length - 1) % ring.length ∧ s' = s ∧ d = link_dir.to_next) ∧
        (outgoing_ref h' (ring.getD i 0) s' d = some ⟨ring.getD k 0, s, 1⟩ ↔
          i = (k + 1) % ring.length ∧ s' = s ∧ d = link_dir.to_prev)) ∧
      (∀ i, i < ring.length → ∃ outs, spec_advance_out h' (ring.getD i 0) = some outs ∧
        ∀ ref, ref ∈ outs ↔ ∃ s, s < n ∧ ∃ d, outgoing_ref h' (ring.getD i 0) s d = some ref) := by
  obtain ⟨h', e, hw', hu', _, hl⟩ := link_all_spec order h hw hu ho1
  have hpos := ring_length_pos hw
  have hmem : ∀ i, i < ring.length → ring.getD i 0 ∈ ring := fun i hi =>
    ring_mem_iff.mpr ⟨i, hi, rfl⟩
  have hmod : ∀ j, j % ring.length < ring.length := fun j => Nat.mod_lt _ hpos
  refine ⟨h', e, hw', ?_, ?_⟩
  · intro i k hi hk s' s hs' hs d
    obtain ⟨e1, e2⟩ := outgoing_ref_linked hw' hi (hl _ (ho2 _ (hmem i hi))) hs'
    cases d with
    | to_next =>
      rw [e1]
      constructor
      · constructor
        · intro hh
          have hh' := Option.some.inj hh
          have h1 : ring.getD ((i + 1) % ring.length) 0 = ring.getD k 0 :=
            congrArg t_buffer_ref.region hh'
          have h2 : s' = s := congrArg t_buffer_ref.species hh'
          have := ring_getD_inj hw' (hmod _) hk h1
          refine ⟨?_, h2, rfl⟩
          rw [← this, succ_pred_mod hi]
        · rintro ⟨rfl, rfl, _⟩
          rw [pred_succ_mod hk]
      · constructor
        · intro hh
          have := congrArg t_buffer_ref.slot (Option.some.inj hh)
          simp at this
        · rintro ⟨_, _, hd⟩
          cases hd
    | to_prev =>
      rw [e2]
      constructor
      · constructor
        · intro hh
          have := congrArg t_buffer_ref.slot (Option.some.inj hh)
          simp at this
        · rintro ⟨_, _, hd⟩
          cases hd
      · constructor
        · intro hh
          have hh' := Option.some.inj hh
          have h1 : ring.getD ((i + ring.length - 1) % ring.length) 0 = ring.getD k 0 :=
            congrArg t_buffer_ref.region hh'
          have h2 : s' = s := congrArg t_buffer_ref.species hh'
          have := ring_getD_inj hw' (hmod _) hk h1
          refine ⟨?_, h2, rfl⟩
          rw [← this, pred_succ_mod hi]
        · rintro ⟨rfl, rfl, _⟩
          rw [succ_pred_mod hk]
  · intro i hi
    obtain ⟨r, hr, _, hnx, hpv⟩ := hw'.2 i hi
    obtain ⟨r', hr', hns, _⟩ := hu' _ (hmem i hi)
    rw [hr] at hr'
    cases hr'
    refine ⟨(List.range r.n_species).map
        (fun m => (⟨ring.getD ((i + 1) % ring.length) 0, m, 0⟩ : t_buffer_ref))
      ++ (List.range r.n_species).map
        (fun m => (⟨ring.getD ((i + ring.length - 1) % ring.length) 0, m, 1⟩ : t_buffer_ref)),
      by simp only [spec_advance_out, hr, hnx, hpv], ?_⟩
    intro ref
    have hlk := fun (s : Nat) (hs : s < n) =>
      outgoing_ref_linked hw' hi (hl _ (ho2 _ (hmem i hi))) hs
    rw [List.mem_append, List.mem_map, List.mem_map, hns]
    constructor
    · rintro (⟨s, hs, rfl⟩ | ⟨s, hs, rfl⟩)
      · exact ⟨s, List.mem_range.mp hs, .to_next, (hlk s (List.mem_range.mp hs)).1⟩
      · exact ⟨s, List.mem_range.mp hs, .to_prev, (hlk s (List.mem_range.mp hs)).2⟩
    · rintro ⟨s, hs, d, hd⟩
      cases d with
      | to_next =>
        rw [(hlk s hs).1] at hd
        exact Or.inl ⟨s, List.mem_range.mpr hs, Option.some.inj hd⟩
      | to_prev =>
        rw [(hlk s hs).2] at hd
        exact Or.inr ⟨s, List.mem_range.mpr hs, Option.some.inj hd⟩

end

/-! ## Theorems: loops over the cells of a band -/

theorem mem_intRange {lo hi x : Int} : x ∈ intRange lo hi ↔ lo ≤ x ∧ x < hi := by
  unfold intRange
  simp only [List.mem_map, List.mem_range]
  constructor
  · rintro ⟨k, hk, rfl⟩
    omega
  · intro h
    exact ⟨(x - lo).toNat, by omega, by omega⟩

theorem nodup_intRange (lo hi : Int) : (intRange lo hi).Nodup := by
  unfold intRange
  apply List.Nodup.map _ (List.nodup_range _)
  intro a b h
  simp only at h
  omega

theorem forLoop_nested {σ : Type} (olo ohi ilo ihi : Int) (body : Int → Int → σ → σ) (s : σ) :
    forLoop olo ohi (fun o c => forLoop ilo ihi (fun i c => body o i c) c) s =
      (List.product (intRange olo ohi) (intRange ilo ihi)).foldl
        (fun c k => body k.1 k.2 c) s := by
  unfold forLoop List.product
  generalize intRange olo ohi = os
  induction os generalizing s with
  | nil => rfl
  | cons o os ih =>
    rw [List.foldl_cons, ih, List.flatMap_cons, List.foldl_append, List.foldl_map]

theorem mem_band {olo ohi ilo ihi : Int} {k : Int × Int} :
    k ∈ List.product (intRange olo ohi) (intRange ilo ihi) ↔
      (olo ≤ k.1 ∧ k.1 < ohi) ∧ (ilo ≤ k.2 ∧ k.2 < ihi) := by
  obtain ⟨a, b⟩ := k
  rw [List.pair_mem_product, mem_intRange, mem_intRange]

/-- A cell offset `u + j * nrow` with `0 ≤ u < nrow` determines the column `u` and the row `j`. -/
theorem row_col_unique (nrow u u' j j' : Int) (hu : 0 ≤ u) (hu1 : u < nrow) (hu' : 0 ≤ u')
    (hu1' : u' < nrow) (e : u + j * nrow = u' + j' * nrow) : u = u' ∧ j = j' := by
  have h1 : (u + j * nrow) % nrow = u := by
    rw [Int.add_mul_emod_self]; exact Int.emod_eq_of_lt hu hu1
  have h2 : (u' + j' * nrow) % nrow = u' := by
    rw [Int.add_mul_emod_self]; exact Int.emod_eq_of_lt hu' hu1'
  have huu : u = u' := by rw [← h1, ← h2, e]
  refine ⟨huu, ?_⟩
  subst huu
  have : j * nrow = j' * nrow := by omega
  exact Int.eq_of_mul_eq_mul_right (by omega) this

/-! ## Theorems: the row reduction `current_reduction_y_openacc` -/

section
variable {F : Type}

theorem set_cell_same {V : Type} (A : Int → V) (p : Int) (v : V) : set_cell A p v p = v := by
  simp [set_cell]

theorem set_cell_other {V : Type} (A : Int → V) {p q : Int} (v : V) (h : q ≠ p) :
    set_cell A p v q = A q := by
  simp [set_cell, h]

theorem reduction_y_cell_J [Add F] (nrow gc10 j i : Int) (c : t_current F) (p : Int) :
    (reduction_y_cell nrow gc10 j i c).J p =
      if p = i + j * nrow then
        ⟨(c.J p).x + (c.J_upper (p + gc10 * nrow)).x, (c.J p).y + (c.J_upper (p + gc10 * nrow)).y,
          (c.J p).z + (c.J_upper (p + gc10 * nrow)).z⟩
      else c.J p := by
  have e : i + (j + gc10) * nrow = i + j * nrow + gc10 * nrow := by ring
  by_cases h : p = i + j * nrow
  · subst h
    simp [reduction_y_cell, set_cell, e]
  · simp [reduction_y_cell, set_cell, h]

theorem reduction_y_cell_J_upper [Add F] (nrow gc10 j i : Int) (c : t_current F) (p : Int) :
    (reduction_y_cell nrow gc10 j i c).J_upper (p + gc10 * nrow) =
      if p = i + j * nrow then
        ⟨(c.J p).x + (c.J_upper (p + gc10 * nrow)).x, (c.J p).y + (c.J_upper (p + gc10 * nrow)).y,
          (c.J p).z + (c.J_upper (p + gc10 * nrow)).z⟩
      else c.J_upper (p + gc10 * nrow) := by
  have e : i + (j + gc10) * nrow = i + j * nrow + gc10 * nrow := by ring
  by_cases h : p = i + j * nrow
  · subst h
    simp [reduction_y_cell, set_cell, e]
  · have h' : p + gc10 * nrow ≠ i + j * nrow + gc10 * nrow := fun hh => h (by omega)
    simp [reduction_y_cell, set_cell, h, e, h']

theorem fold_reduction_y [Add F] (nrow gc10 : Int) :
    ∀ (ks : List (Int × Int)) (c : t_current F),
      (ks.map (fun k => k.2 + k.1 * nrow)).Nodup → ∀ p : Int,
      (ks.foldl (fun c k => reduction_y_cell nrow gc10 k.1 k.2 c) c).J p =
        (if p ∈ ks.map (fun k => k.2 + k.1 * nrow) then
          ⟨(c.J p).x + (c.J_upper (p + gc10 * nrow)).x,
            (c.J p).y + (c.J_upper (p + gc10 * nrow)).y,
            (c.J p).z + (c.J_upper (p + gc10 * nrow)).z⟩
        else c.J p) ∧
      (ks.foldl (fun c k => reduction_y_cell nrow gc10 k.1 k.2 c) c).J_upper (p + gc10 * nrow) =
        (if p ∈ ks.map (fun k => k.2 + k.1 * nrow) then
          ⟨(c.J p).x + (c.J_upper (p + gc10 * nrow)).x,
            (c.J p).y + (c.J_upper (p + gc10 * nrow)).y,
            (c.J p).z + (c.J_upper (p + gc10 * nrow)).z⟩
        else c.J_upper (p + gc10 * nrow)) := by
  intro ks
  induction ks with
  | nil => intro c _ p; simp
  | cons k ks ih =>
    intro c hnd p
    rw [List.map_cons, List.nodup_cons] at hnd
    rw [List.foldl_cons]
    obtain ⟨h1, h2⟩ := ih (reduction_y_cell nrow gc10 k.1 k.2 c) hnd.2 p
    rw [h1, h2, reduction_y_cell_J, reduction_y_cell_J_upper]
    by_cases hp : p = k.2 + k.1 * nrow
    · subst hp
      simp only [if_neg hnd.1, if_true, List.map_cons, List.mem_cons, true_or, and_self]
    · simp only [hp, if_false, List.map_cons, List.mem_cons, false_or, and_self]

theorem fold_reduction_y_fields [Add F] (nrow gc10 : Int) :
    ∀ (ks : List (Int × Int)) (c : t_current F),
      (ks.foldl (fun c k => reduction_y_cell nrow gc10 k.1 k.2 c) c).nx = c.nx ∧
      (ks.foldl (fun c k => reduction_y_cell nrow gc10 k.1 k.2 c) c).nrow = c.nrow ∧
      (ks.foldl (fun c k => reduction_y_cell nrow gc10 k.1 k.2 c) c).gc = c.gc ∧
      (ks.foldl (fun c k => reduction_y_cell nrow gc10 k.1 k.2 c) c).iter = c.iter := by
  intro ks
  induction ks with
  | nil => intro c; exact ⟨rfl, rfl, rfl, rfl⟩
  | cons k ks ih => intro c; rw [List.foldl_cons]; exact ih _

/-- The offsets `i + j * nrow` of the cells of a band are pairwise distinct when a row of the
band (if it has a cell at all) is not longer than `nrow`. -/
theorem band_offsets_nodup (nrow jlo jhi ilo ihi : Int) (hrow : ilo < ihi → ihi - ilo ≤ nrow) :
    ((List.product (intRange jlo jhi) (intRange ilo ihi)).map
      (fun k => k.2 + k.1 * nrow)).Nodup := by
  apply List.Nodup.map_on _ (List.Nodup.product (nodup_intRange _ _) (nodup_intRange _ _))
  intro k hk k' hk' e
  have hk := mem_band.mp hk
  have hk' := mem_band.mp hk'
  obtain ⟨j, i⟩ := k
  obtain ⟨j', i'⟩ := k'
  simp only at hk hk' e
  have hrow := hrow (by omega)
  have := row_col_unique nrow (i - ilo) (i' - ilo) j j'
    (by omega) (by omega) (by omega) (by omega) (by omega)
  rw [Prod.mk.injEq]
  omega

theorem mem_band_offsets {nrow jlo jhi ilo ihi p : Int} :
    p ∈ (List.product (intRange jlo jhi) (intRange ilo ihi)).map (fun k => k.2 + k.1 * nrow) ↔
      ∃ i j, (ilo ≤ i ∧ i < ihi) ∧ (jlo ≤ j ∧ j < jhi) ∧ p = i + j * nrow := by
  rw [List.mem_map]
  constructor
  · rintro ⟨⟨j, i⟩, hk, rfl⟩
    rw [mem_band] at hk
    exact ⟨i, j, hk.2, hk.1, rfl⟩
  · rintro ⟨i, j, hi, hj, rfl⟩
    exact ⟨(j, i), mem_band.mpr ⟨hj, hi⟩, rfl⟩

/-- C3.  With `J` and `J_upper` separate arrays and `nrow ≥ gc[0][0] + nx[0] + gc[0][1]`, after
`current_reduction_y_openacc` every cell `(i, j)` of the band (`-gc[0][0] ≤ i < nx[0] + gc[0][1]`,
`-gc[1][0] ≤ j < gc[1][1]`) holds in `J[i + j*nrow]` the component-wise sum of the former
`J[i + j*nrow]` and `J_upper[i + (j + gc[1][0])*nrow]`, and `J_upper[i + (j + gc[1][0])*nrow]`
holds the same value; all other cells of `J` and of `J_upper` are unchanged. -/
theorem current_reduction_y_sums_band [Add F] (current : t_current F)
    (hrow : current.gc.1.1 + current.nx.1 + current.gc.1.2 ≤ current.nrow) :
    (∀ i j : Int, -current.gc.1.1 ≤ i → i < current.nx.1 + current.gc.1.2 →
        -current.gc.2.1 ≤ j → j < current.gc.2.2 →
        (current_reduction_y_openacc current).J (i + j * current.nrow) =
          ⟨(current.J (i + j * current.nrow)).x
              + (current.J_upper (i + (j + current.gc.2.1) * current.nrow)).x,
           (current.J (i + j * current.nrow)).y
              + (current.J_upper (i + (j + current.gc.2.1) * current.nrow)).y,
           (current.J (i + j * current.nrow)).z
              + (current.J_upper (i + (j + current.gc.2.1) * current.nrow)).z⟩ ∧
        (current_reduction_y_openacc current).J_upper
            (i + (j + current.gc.2.1) * current.nrow) =
          (current_reduction_y_openacc current).J (i + j * current.nrow)) ∧
    (∀ p : Int, (¬ ∃ i j : Int, (-current.gc.1.1 ≤ i ∧ i < current.nx.1 + current.gc.1.2) ∧
        (-current.gc.2.1 ≤ j ∧ j < current.gc.2.2) ∧ p = i + j * current.nrow) →
        (current_reduction_y_openacc current).J p = current.J p) ∧
    (∀ q : Int, (¬ ∃ i j : Int, (-current.gc.1.1 ≤ i ∧ i < current.nx.1 + current.gc.1.2) ∧
        (-current.gc.2.1 ≤ j ∧ j < current.gc.2.2) ∧
        q = i + (j + current.gc.2.1) * current.nrow) →
        (current_reduction_y_openacc current).J_upper q = current.J_upper q) := by
  have hnd := band_offsets_nodup current.nrow (-current.gc.2.1) current.gc.2.2
    (-current.gc.1.1) (current.nx.1 + current.gc.1.2) (fun _ => by omega)
  have key := fun p => fold_reduction_y current.nrow current.gc.2.1
    (List.product (intRange (-current.gc.2.1) current.gc.2.2)
      (intRange (-current.gc.1.1) (current.nx.1 + current.gc.1.2))) current hnd p
  have hdef : current_reduction_y_openacc current =
      (List.product (intRange (-current.gc.2.1) current.gc.2.2)
        (intRange (-current.gc.1.1) (current.nx.1 + current.gc.1.2))).foldl
        (fun c k => reduction_y_cell current.nrow current.gc.2.1 k.1 k.2 c) current := by
    unfold current_reduction_y_openacc
    exact forLoop_nested _ _ _ _ _ _
  rw [hdef]
  refine ⟨?_, ?_, ?_⟩
  · intro i j hi1 hi2 hj1 hj2
    have hm : i + j * current.nrow ∈
        (List.product (intRange (-current.gc.2.1) current.gc.2.2)
          (intRange (-current.gc.1.1) (current.nx.1 + current.gc.1.2))).map
          (fun k => k.2 + k.1 * current.nrow) :=
      mem_band_offsets.mpr ⟨i, j, ⟨hi1, hi2⟩, ⟨hj1, hj2⟩, rfl⟩
    have e : i + (j + current.gc.2.1) * current.nrow =
        i + j * current.nrow + current.gc.2.1 * current.nrow := by ring
    obtain ⟨h1, h2⟩ := key (i + j * current.nrow)
    rw [if_pos hm] at h1 h2
    rw [e, h1, h2]
    exact ⟨rfl, rfl⟩
  · intro p hp
    have hm : p ∉ (List.product (intRange (-current.gc.2.1) current.gc.2.2)
          (intRange (-current.gc.1.1) (current.nx.1 + current.gc.1.2))).map
          (fun k => k.2 + k.1 * current.nrow) := fun h => hp (mem_band_offsets.mp h)
    have h1 := (key p).1
    rw [if_neg hm] at h1
    exact h1
  · intro q hq
    have hm : q - current.gc.2.1 * current.nrow ∉
        (List.product (intRange (-current.gc.2.1) current.gc.2.2)
          (intRange (-current.gc.1.1) (current.nx.1 + current.gc.1.2))).map
          (fun k => k.2 + k.1 * current.nrow) := by
      intro h
      obtain ⟨i, j, hi, hj, e⟩ := mem_band_offsets.mp h
      exact hq ⟨i, j, hi, hj, by rw [add_mul, ← add_assoc, ← e]; ring⟩
    have h2 := (key (q - current.gc.2.1 * current.nrow)).2
    rw [if_neg hm, sub_add_cancel] at h2
    exact h2

end

/-! ## Theorems: the guard-cell update `current_gc_update_y_openacc` -/

section
variable {F : Type}

theorem gc_update_y_cell_J (nrow gc10 i j : Int) (c : t_current F) (p : Int) :
    (gc_update_y_cell nrow gc10 i j c).J p =
      if p = i + j * nrow ∧ j < 0 then c.J_upper (p + gc10 * nrow) else c.J p := by
  have e : i + (j + gc10) * nrow = i + j * nrow + gc10 * nrow := by ring
  unfold gc_update_y_cell
  by_cases hj : j < 0
  · by_cases h : p = i + j * nrow
    · subst h
      simp [hj, set_cell, e]
    · simp [hj, set_cell, h]
  · simp [hj]

theorem gc_update_y_cell_J_upper (nrow gc10 i j : Int) (c : t_current F) (p : Int) :
    (gc_update_y_cell nrow gc10 i j c).J_upper (p + gc10 * nrow) =
      if p = i + j * nrow ∧ ¬ j < 0 then c.J p else c.J_upper (p + gc10 * nrow) := by
  have e : i + (j + gc10) * nrow = i + j * nrow + gc10 * nrow := by ring
  unfold gc_update_y_cell
  by_cases hj : j < 0
  · simp [hj]
  · by_cases h : p = i + j * nrow
    · subst h
      simp [hj, set_cell, e]
    · have h' : p + gc10 * nrow ≠ i + j * nrow + gc10 * nrow := fun hh => h (by omega)
      simp [hj, set_cell, h, e, h']

theorem fold_gc_update_y (nrow gc10 : Int) :
    ∀ (ks : List (Int × Int)) (c : t_current F),
      (ks.map (fun k => k.1 + k.2 * nrow)).Nodup → ∀ p : Int,
      (p ∉ ks.map (fun k => k.1 + k.2 * nrow) →
        (ks.foldl (fun c k => gc_update_y_cell nrow gc10 k.1 k.2 c) c).J p = c.J p ∧
        (ks.foldl (fun c k => gc_update_y_cell nrow gc10 k.1 k.2 c) c).J_upper (p + gc10 * nrow)
          = c.J_upper (p + gc10 * nrow)) ∧
      (∀ k, k ∈ ks → p = k.1 + k.2 * nrow →
        (ks.foldl (fun c k => gc_update_y_cell nrow gc10 k.1 k.2 c) c).J p =
          (if k.2 < 0 then c.J_upper (p + gc10 * nrow) else c.J p) ∧
        (ks.foldl (fun c k => gc_update_y_cell nrow gc10 k.1 k.2 c) c).J_upper (p + gc10 * nrow)
          = (if k.2 < 0 then c.J_upper (p + gc10 * nrow) else c.J p)) := by
  intro ks
  induction ks with
  | nil => intro c _ p; simp
  | cons k ks ih =>
    intro c hnd p
    rw [List.map_cons, List.nodup_cons] at hnd
    rw [List.foldl_cons]
    obtain ⟨h1, h2⟩ := ih (gc_update_y_cell nrow gc10 k.1 k.2 c) hnd.2 p
    constructor
    · intro hp
      rw [List.map_cons, List.mem_cons, not_or] at hp
      obtain ⟨e1, e2⟩ := h1 hp.2
      rw [e1, e2, gc_update_y_cell_J, gc_update_y_cell_J_upper]
      simp only [hp.1, false_and, if_false, and_self]
    · intro k' hk' hpk
      rcases List.mem_cons.mp hk' with rfl | hmem
      · have hp : p ∉ ks.map (fun k => k.1 + k.2 * nrow) := by rw [hpk]; exact hnd.1
        obtain ⟨e1, e2⟩ := h1 hp
        rw [e1, e2, gc_update_y_cell_J, gc_update_y_cell_J_upper]
        by_cases hj : k'.2 < 0
        · simp only [hpk, hj, and_self, if_true, not_true_eq_false, and_false, if_false]
        · simp only [hpk, hj, and_self, if_true, not_false_eq_true, and_false, if_false]
      · have hne : p ≠ k.1 + k.2 * nrow := by
          intro h
          apply hnd.1
          rw [← h, hpk]
          exact List.mem_map.mpr ⟨k', hmem, rfl⟩
        obtain ⟨e1, e2⟩ := h2 k' hmem hpk
        rw [e1, e2, gc_update_y_cell_J, gc_update_y_cell_J_upper]
        simp only [hne, false_and, if_false, and_self]

/-- The offsets `i + j * nrow` of the cells of a band, listed column by column, are pairwise
distinct when a row of the band is not longer than `nrow`. -/
theorem band_offsets_nodup_cols (nrow jlo jhi ilo ihi : Int)
    (hrow : ilo < ihi → ihi - ilo ≤ nrow) :
    ((List.product (intRange ilo ihi) (intRange jlo jhi)).map
      (fun k => k.1 + k.2 * nrow)).Nodup := by
  apply List.Nodup.map_on _ (List.Nodup.product (nodup_intRange _ _) (nodup_intRange _ _))
  intro k hk k' hk' e
  have hk := mem_band.mp hk
  have hk' := mem_band.mp hk'
  obtain ⟨i, j⟩ := k
  obtain ⟨i', j'⟩ := k'
  simp only at hk hk' e
  have hrow := hrow (by omega)
  have := row_col_unique nrow (i - ilo) (i' - ilo) j j'
    (by omega) (by omega) (by omega) (by omega) (by omega)
  rw [Prod.mk.injEq]
  omega

theorem mem_band_offsets_cols {nrow jlo jhi ilo ihi p : Int} :
    p ∈ (List.product (intRange ilo ihi) (intRange jlo jhi)).map (fun k => k.1 + k.2 * nrow) ↔
      ∃ i j, (ilo ≤ i ∧ i < ihi) ∧ (jlo ≤ j ∧ j < jhi) ∧ p = i + j * nrow := by
  rw [List.mem_map]
  constructor
  · rintro ⟨⟨i, j⟩, hk, rfl⟩
    have hk := mem_band.mp hk
    exact ⟨i, j, hk.1, hk.2, rfl⟩
  · rintro ⟨i, j, hi, hj, rfl⟩
    exact ⟨(i, j), mem_band.mpr ⟨hi, hj⟩, rfl⟩

/-- C8.  With `J` and `J_upper` separate arrays and `nrow ≥ gc[0][0] + nx[0] + gc[0][1]`,
`current_gc_update_y_openacc` only copies: for every column `i` of the band
(`-gc[0][0] ≤ i < nx[0] + gc[0][1]`), a row `j` of the band (`-gc[1][0] ≤ j < gc[1][1]`) with
`j < 0` gets `J[i + j*nrow]` = the former `J_upper[i + (j + gc[1][0])*nrow]`, which stays as it
was, and a row `j` of the band with `0 ≤ j` gets `J_upper[i + (j + gc[1][0])*nrow]` = the former
`J[i + j*nrow]`, which stays as it was; so afterwards `J` and `J_upper` agree on the whole band;
all cells outside the band are unchanged.  (The guard-cell counts `gc` being non-negative, the
rows of the band below 0 are the rows `-gc[1][0] ≤ j < 0` and those from 0 on are
`0 ≤ j < gc[1][1]`.) -/
theorem current_gc_update_y_copies_band (current : t_current F)
    (hrow : current.gc.1.1 + current.nx.1 + current.gc.1.2 ≤ current.nrow) :
    (∀ i j : Int, -current.gc.1.1 ≤ i → i < current.nx.1 + current.gc.1.2 →
        -current.gc.2.1 ≤ j → j < current.gc.2.2 → j < 0 →
        (current_gc_update_y_openacc current).J (i + j * current.nrow) =
          current.J_upper (i + (j + current.gc.2.1) * current.nrow) ∧
        (current_gc_update_y_openacc current).J_upper (i + (j + current.gc.2.1) * current.nrow) =
          current.J_upper (i + (j + current.gc.2.1) * current.nrow)) ∧
    (∀ i j : Int, -current.gc.1.1 ≤ i → i < current.nx.1 + current.gc.1.2 →
        -current.gc.2.1 ≤ j → j < current.gc.2.2 → 0 ≤ j →
        (current_gc_update_y_openacc current).J_upper (i + (j + current.gc.2.1) * current.nrow) =
          current.J (i + j * current.nrow) ∧
        (current_gc_update_y_openacc current).J (i + j * current.nrow) =
          current.J (i + j * current.nrow)) ∧
    (∀ i j : Int, -current.gc.1.1 ≤ i → i < current.nx.1 + current.gc.1.2 →
        -current.gc.2.1 ≤ j → j < current.gc.2.2 →
        (current_gc_update_y_openacc current).J (i + j * current.nrow) =
          (current_gc_update_y_openacc current).J_upper
            (i + (j + current.gc.2.1) * current.nrow)) ∧
    (∀ p : Int, (¬ ∃ i j : Int, (-current.gc.1.1 ≤ i ∧ i < current.nx.1 + current.gc.1.2) ∧
        (-current.gc.2.1 ≤ j ∧ j < current.gc.2.2) ∧ p = i + j * current.nrow) →
        (current_gc_update_y_openacc current).J p = current.J p) ∧
    (∀ q : Int, (¬ ∃ i j : Int, (-current.gc.1.1 ≤ i ∧ i < current.nx.1 + current.gc.1.2) ∧
        (-current.gc.2.1 ≤ j ∧ j < current.gc.2.2) ∧
        q = i + (j + current.gc.2.1) * current.nrow) →
        (current_gc_update_y_openacc current).J_upper q = current.J_upper q) := by
  have hnd := band_offsets_nodup_cols current.nrow (-current.gc.2.1) current.gc.2.2
    (-current.gc.1.1) (current.nx.1 + current.gc.1.2) (fun _ => by omega)
  have key := fun p => fold_gc_update_y current.nrow current.gc.2.1
    (List.product (intRange (-current.gc.1.1) (current.nx.1 + current.gc.1.2))
      (intRange (-current.gc.2.1) current.gc.2.2)) current hnd p
  have hdef : current_gc_update_y_openacc current =
      (List.product (intRange (-current.gc.1.1) (current.nx.1 + current.gc.1.2))
        (intRange (-current.gc.2.1) current.gc.2.2)).foldl
        (fun c k => gc_update_y_cell current.nrow current.gc.2.1 k.1 k.2 c) current := by
    unfold current_gc_update_y_openacc
    exact forLoop_nested _ _ _ _ _ _
  rw [hdef]
  have e : ∀ i j : Int, i + (j + current.gc.2.1) * current.nrow =
      i + j * current.nrow + current.gc.2.1 * current.nrow := fun i j => by ring
  have band : ∀ i j : Int, -current.gc.1.1 ≤ i → i < current.nx.1 + current.gc.1.2 →
      -current.gc.2.1 ≤ j → j < current.gc.2.2 → _ := fun i j hi1 hi2 hj1 hj2 =>
    (key (i + j * current.nrow)).2 (i, j) (mem_band.mpr ⟨⟨hi1, hi2⟩, ⟨hj1, hj2⟩⟩) rfl
  refine ⟨?_, ?_, ?_, ?_, ?_⟩
  · intro i j hi1 hi2 hj1 hj2 hj3
    obtain ⟨h1, h2⟩ := band i j hi1 hi2 hj1 hj2
    simp only [if_pos hj3] at h1 h2
    rw [e, h1, h2]
    exact ⟨rfl, rfl⟩
  · intro i j hi1 hi2 hj1 hj2 hj3
    obtain ⟨h1, h2⟩ := band i j hi1 hi2 hj1 hj2
    simp only [if_neg (show ¬ j < 0 by omega)] at h1 h2
    rw [e, h1, h2]
    exact ⟨rfl, rfl⟩
  · intro i j hi1 hi2 hj1 hj2
    obtain ⟨h1, h2⟩ := band i j hi1 hi2 hj1 hj2
    rw [e, h1, h2]
  · intro p hp
    exact ((key p).1 (fun h => hp (mem_band_offsets_cols.mp h))).1
  · intro q hq
    have hm : q - current.gc.2.1 * current.nrow ∉
        (List.product (intRange (-current.gc.1.1) (current.nx.1 + current.gc.1.2))
          (intRange (-current.gc.2.1) current.gc.2.2)).map
          (fun k => k.1 + k.2 * current.nrow) := by
      intro h
      obtain ⟨i, j, hi, hj, e'⟩ := mem_band_offsets_cols.mp h
      exact hq ⟨i, j, hi, hj, by rw [e, ← e']; ring⟩
    have h2 := ((key (q - current.gc.2.1 * current.nrow)).1 hm).2
    rw [sub_add_cancel] at h2
    exact h2

end

/-! ## Theorems: the column reduction `current_reduction_x_openacc` -/

section
variable {F : Type}

theorem reduction_x_cell_J [Add F] (nrow nx0 j i : Int) (hnx : nx0 ≠ 0) (c : t_current F)
    (p : Int) :
    (reduction_x_cell nrow nx0 j i c).J p =
      if p = i + j * nrow ∨ p = nx0 + (i + j * nrow) then
        ⟨(c.J (i + j * nrow)).x + (c.J (nx0 + (i + j * nrow))).x,
          (c.J (i + j * nrow)).y + (c.J (nx0 + (i + j * nrow))).y,
          (c.J (i + j * nrow)).z + (c.J (nx0 + (i + j * nrow))).z⟩
      else c.J p := by
  have hab : nx0 + (i + j * nrow) ≠ i + j * nrow := by omega
  unfold reduction_x_cell
  by_cases h1 : p = i + j * nrow
  · subst h1
    simp [set_cell, hab, hab.symm]
  · by_cases h2 : p = nx0 + (i + j * nrow)
    · subst h2
      simp [set_cell, hab]
    · simp [set_cell, h1, h2]

theorem reduction_x_cell_iter [Add F] (nrow nx0 j i : Int) (c : t_current F) :
    (reduction_x_cell nrow nx0 j i c).iter = c.iter := rfl

theorem fold_reduction_x [Add F] (nrow nx0 : Int) :
    ∀ (ks : List (Int × Int)) (c : t_current F),
      (ks.map (fun k => k.2 + k.1 * nrow)).Nodup →
      (∀ k k', k ∈ ks → k' ∈ ks → k.2 + k.1 * nrow ≠ nx0 + (k'.2 + k'.1 * nrow)) →
      (∀ p : Int, (∀ k, k ∈ ks → p ≠ k.2 + k.1 * nrow ∧ p ≠ nx0 + (k.2 + k.1 * nrow)) →
        (ks.foldl (fun c k => reduction_x_cell nrow nx0 k.1 k.2 c) c).J p = c.J p) ∧
      (∀ k, k ∈ ks →
        (ks.foldl (fun c k => reduction_x_cell nrow nx0 k.1 k.2 c) c).J (k.2 + k.1 * nrow) =
          ⟨(c.J (k.2 + k.1 * nrow)).x + (c.J (nx0 + (k.2 + k.1 * nrow))).x,
            (c.J (k.2 + k.1 * nrow)).y + (c.J (nx0 + (k.2 + k.1 * nrow))).y,
            (c.J (k.2 + k.1 * nrow)).z + (c.J (nx0 + (k.2 + k.1 * nrow))).z⟩ ∧
        (ks.foldl (fun c k => reduction_x_cell nrow nx0 k.1 k.2 c) c).J
            (nx0 + (k.2 + k.1 * nrow)) =
          ⟨(c.J (k.2 + k.1 * nrow)).x + (c.J (nx0 + (k.2 + k.1 * nrow))).x,
            (c.J (k.2 + k.1 * nrow)).y + (c.J (nx0 + (k.2 + k.1 * nrow))).y,
            (c.J (k.2 + k.1 * nrow)).z + (c.J (nx0 + (k.2 + k.1 * nrow))).z⟩) ∧
      (ks.foldl (fun c k => reduction_x_cell nrow nx0 k.1 k.2 c) c).iter = c.iter := by
  intro ks
  induction ks with
  | nil =>
    intro c _ _
    exact ⟨fun p _ => rfl, fun k hk => absurd hk (List.not_mem_nil k), rfl⟩
  | cons k ks ih =>
    intro c hnd hdis
    rw [List.map_cons, List.nodup_cons] at hnd
    rw [List.foldl_cons]
    have hk0 : k ∈ k :: ks := List.mem_cons_self _ _
    have hnx : nx0 ≠ 0 := fun h0 => hdis k k hk0 hk0 (by rw [h0, zero_add])
    obtain ⟨hfr, hval, hit⟩ := ih (reduction_x_cell nrow nx0 k.1 k.2 c) hnd.2
      (fun a b ha hb => hdis a b (List.mem_cons_of_mem _ ha) (List.mem_cons_of_mem _ hb))
    have hpos : ∀ k', k' ∈ ks → k'.2 + k'.1 * nrow ≠ k.2 + k.1 * nrow := by
      intro k' hk' e
      apply hnd.1
      rw [← e]
      exact List.mem_map.mpr ⟨k', hk', rfl⟩
    refine ⟨?_, ?_, ?_⟩
    · intro p hp
      rw [hfr p (fun k' hk' => hp k' (List.mem_cons_of_mem _ hk')), reduction_x_cell_J _ _ _ _ hnx]
      have := hp k hk0
      rw [if_neg (by rintro (h | h); exact this.1 h; exact this.2 h)]
    · intro k' hk'
      rcases List.mem_cons.mp hk' with rfl | hmem
      · rw [hfr _ (fun a ha => ⟨(hpos a ha).symm,
            hdis k' a hk0 (List.mem_cons_of_mem _ ha)⟩),
          hfr _ (fun a ha => ⟨(hdis a k' (List.mem_cons_of_mem _ ha) hk0).symm, by
            have := hpos a ha; omega⟩),
          reduction_x_cell_J _ _ _ _ hnx, reduction_x_cell_J _ _ _ _ hnx]
        simp
      · obtain ⟨e1, e2⟩ := hval k' hmem
        have hmem' : k' ∈ k :: ks := List.mem_cons_of_mem _ hmem
        rw [e1, e2, reduction_x_cell_J _ _ _ _ hnx, reduction_x_cell_J _ _ _ _ hnx]
        have n1 : ¬ (k'.2 + k'.1 * nrow = k.2 + k.1 * nrow ∨
            k'.2 + k'.1 * nrow = nx0 + (k.2 + k.1 * nrow)) := by
          rintro (h | h)
          · exact hpos k' hmem h
          · exact hdis k' k hmem' hk0 h
        have n2 : ¬ (nx0 + (k'.2 + k'.1 * nrow) = k.2 + k.1 * nrow ∨
            nx0 + (k'.2 + k'.1 * nrow) = nx0 + (k.2 + k.1 * nrow)) := by
          rintro (h | h)
          · exact hdis k k' hk0 hmem' h.symm
          · exact hpos k' hmem (by omega)
        rw [if_neg n1, if_neg n2]
        exact ⟨rfl, rfl⟩
    · rw [hit]
      rfl

theorem fold_reduction_x_iter [Add F] (nrow nx0 : Int) :
    ∀ (ks : List (Int × Int)) (c : t_current F),
      (ks.foldl (fun c k => reduction_x_cell nrow nx0 k.1 k.2 c) c).iter = c.iter := by
  intro ks
  induction ks with
  | nil => intro c; rfl
  | cons k ks ih =>
    intro c
    rw [List.foldl_cons, ih]
    rfl

/-- The counter after `current_reduction_x_openacc` is the C `int` increment of the counter
before, for every current. -/
theorem reduction_x_iter [Add F] (current : t_current F) :
    (current_reduction_x_openacc current).iter = int_wrap (current.iter + 1) := by
  unfold current_reduction_x_openacc
  simp only [forLoop_nested]
  rw [fold_reduction_x_iter]

/-- C9 (amended).  With `nrow = gc[0][0] + nx[0] + gc[0][1]` and `nx[0] ≥ gc[0][0] + gc[0][1]`,
after `current_reduction_x_openacc` every row `j` in `[-gc[1][0], nx[1] + gc[1][1])` and column
`i` in `[-gc[0][0], gc[0][1])` has `J[i + j*nrow]` and `J[nx[0] + i + j*nrow]` both equal to the
component-wise sum of the former values of these two cells; every other cell of `J` is
unchanged; and `iter`, a C `int`, has grown by exactly 1 whenever it was below `INT_MAX`. -/
theorem current_reduction_x_sums_columns [Add F] (current : t_current F)
    (hrow : current.nrow = current.gc.1.1 + current.nx.1 + current.gc.1.2)
    (hnx : current.gc.1.1 + current.gc.1.2 ≤ current.nx.1) :
    (∀ i j : Int, -current.gc.2.1 ≤ j → j < current.nx.2 + current.gc.2.2 →
        -current.gc.1.1 ≤ i → i < current.gc.1.2 →
        (current_reduction_x_openacc current).J (i + j * current.nrow) =
          ⟨(current.J (i + j * current.nrow)).x
              + (current.J (current.nx.1 + i + j * current.nrow)).x,
           (current.J (i + j * current.nrow)).y
              + (current.J (current.nx.1 + i + j * current.nrow)).y,
           (current.J (i + j * current.nrow)).z
              + (current.J (current.nx.1 + i + j * current.nrow)).z⟩ ∧
        (current_reduction_x_openacc current).J (current.nx.1 + i + j * current.nrow) =
          (current_reduction_x_openacc current).J (i + j * current.nrow)) ∧
    (∀ p : Int, (¬ ∃ i j : Int, (-current.gc.1.1 ≤ i ∧ i < current.gc.1.2) ∧
        (-current.gc.2.1 ≤ j ∧ j < current.nx.2 + current.gc.2.2) ∧
        (p = i + j * current.nrow ∨ p = current.nx.1 + i + j * current.nrow)) →
        (current_reduction_x_openacc current).J p = current.J p) ∧
    (-2147483648 ≤ current.iter → current.iter < 2147483647 →
      (current_reduction_x_openacc current).iter = current.iter + 1) := by
  have hnd := band_offsets_nodup current.nrow (-current.gc.2.1)
    (current.nx.2 + current.gc.2.2) (-current.gc.1.1) current.gc.1.2 (fun _ => by omega)
  have hdis : ∀ k k' : Int × Int,
      k ∈ List.product (intRange (-current.gc.2.1) (current.nx.2 + current.gc.2.2))
        (intRange (-current.gc.1.1) current.gc.1.2) →
      k' ∈ List.product (intRange (-current.gc.2.1) (current.nx.2 + current.gc.2.2))
        (intRange (-current.gc.1.1) current.gc.1.2) →
      k.2 + k.1 * current.nrow ≠ current.nx.1 + (k'.2 + k'.1 * current.nrow) := by
    intro k k' hk hk' e
    have hk := mem_band.mp hk
    have hk' := mem_band.mp hk'
    have := row_col_unique current.nrow (k.2 + current.gc.1.1)
      (current.nx.1 + k'.2 + current.gc.1.1) k.1 k'.1
      (by omega) (by omega) (by omega) (by omega) (by omega)
    omega
  obtain ⟨hfr, hval, hit⟩ := fold_reduction_x current.nrow current.nx.1
    (List.product (intRange (-current.gc.2.1) (current.nx.2 + current.gc.2.2))
      (intRange (-current.gc.1.1) current.gc.1.2)) current hnd hdis
  have hdef : current_reduction_x_openacc current =
      { (List.product (intRange (-current.gc.2.1) (current.nx.2 + current.gc.2.2))
          (intRange (-current.gc.1.1) current.gc.1.2)).foldl
          (fun c k => reduction_x_cell current.nrow current.nx.1 k.1 k.2 c) current with
        iter := int_wrap (((List.product (intRange (-current.gc.2.1) (current.nx.2 + current.gc.2.2))
          (intRange (-current.gc.1.1) current.gc.1.2)).foldl
          (fun c k => reduction_x_cell current.nrow current.nx.1 k.1 k.2 c) current).iter
            + 1) } := by
    unfold current_reduction_x_openacc
    simp only [forLoop_nested]
  rw [hdef]
  refine ⟨?_, ?_, ?_⟩
  · intro i j hj1 hj2 hi1 hi2
    obtain ⟨e1, e2⟩ := hval (j, i) (mem_band.mpr ⟨⟨hj1, hj2⟩, ⟨hi1, hi2⟩⟩)
    have e : current.nx.1 + i + j * current.nrow = current.nx.1 + (i + j * current.nrow) := by
      ring
    simp only at e1 e2 ⊢
    rw [e, e1, e2]
    exact ⟨rfl, rfl⟩
  · intro p hp
    apply hfr p
    intro k hk
    have hk := mem_band.mp hk
    constructor
    · intro h
      exact hp ⟨k.2, k.1, hk.2, hk.1, Or.inl h⟩
    · intro h
      exact hp ⟨k.2, k.1, hk.2, hk.1, Or.inr (by rw [h]; ring)⟩
  · intro hlo hhi
    show int_wrap (_ + 1) = _
    rw [hit]
    unfold int_wrap
    omega

end

/-! ## Theorems: `region_new` and degenerate configurations -/

section
variable {F : Type}

theorem region_new_single (ext : Externals F) (n_regions : Int) (hn : n_regions ≤ 1)
    (nx : Int × Int) (n_spec : Nat) (spec : Nat → t_species) (box : ℚ × ℚ) (dt : ℚ)
    (h : Heap F) (a0 : Nat) (prev_region : Option Nat) (fuel : Nat) (hf : 2 ≤ fuel) :
    region_new ext n_regions nx n_spec spec box dt fuel h a0 0 prev_region =
      some (h.write a0
        (region_built ext n_regions nx n_spec spec box dt 0 (some a0) (some a0))) := by
  obtain ⟨f, rfl⟩ : ∃ f, fuel = f + 2 := ⟨fuel - 2, by omega⟩
  rw [region_new_last _ _ _ _ _ _ _ _ _ _ _ _ (by omega)]
  have hw : first_by_prev
      (h.write a0 (region_built ext n_regions nx n_spec spec box dt 0 prev_region none))
      (f + 1) a0 = some a0 := by
    simp [first_by_prev, region_built, region_init]
  simp only [close_ring, hw, Heap.write_cell, if_true]
  congr 1
  simp only [Heap.write, region_built, region_init]
  congr 1
  funext x
  split_ifs <;> rfl

theorem region_built_nx (ext : Externals F) (n_regions : Int) (nx : Int × Int)
    (n_spec : Nat) (spec : Nat → t_species) (box : ℚ × ℚ) (dt : ℚ) (id : Int)
    (p q : Option Nat) :
    (region_built ext n_regions nx n_spec spec box dt id p q).nx.2 =
      (region_built ext n_regions nx n_spec spec box dt id p q).limits_y.2 -
        (region_built ext n_regions nx n_spec spec box dt id p q).limits_y.1 := rfl

end

/-! ## Examples -/

theorem heap3_well_formed : well_formed_ring heap3 ring3 := by
  refine ⟨by decide, ?_⟩
  intro i hi
  have hi' : i < 3 := hi
  interval_cases i
  · exact ⟨_, rfl, rfl, rfl, rfl⟩
  · exact ⟨_, rfl, rfl, rfl, rfl⟩
  · exact ⟨_, rfl, rfl, rfl, rfl⟩

theorem heap3_uniform : uniform_species heap3 ring3 1 := by
  intro a ha
  have : a = 5 ∨ a = 2 ∨ a = 7 := by simpa [ring3] using ha
  rcases this with rfl | rfl | rfl
  · exact ⟨_, rfl, rfl, rfl⟩
  · exact ⟨_, rfl, rfl, rfl⟩
  · exact ⟨_, rfl, rfl, rfl⟩

/-- C1 (witness).  The partition of 9 rows into 3 regions built in `heap0`. -/
theorem region_new_partitions_rows_witness :
    (1 ≤ (3 : Nat)) ∧
    (0 < heap0.brk) ∧
    (2 * (3 : Nat) ≤ 6) ∧
    (∃ h', region_new ext0 (3 : Nat) (4, 9) 1 spec0 (1, 1) 1 6 heap0 0 0 none = some h' ∧
      (∀ i, i < (3 : Nat) → ∃ r, h'.cell (ring_addr 0 heap0.brk i) = some r ∧ r.id = (i : Int) ∧
        r.limits_y = (Int.floor (((i : Int) : ℚ) * (9 : ℚ) / ((3 : Nat) : ℚ)),
                      Int.floor ((((i : Int) + 1 : Int) : ℚ) * (9 : ℚ) / ((3 : Nat) : ℚ))) ∧
        r.limits_y = ((i : Int) * 9 / ((3 : Nat) : Int), ((i : Int) + 1) * 9 / ((3 : Nat) : Int)) ∧
        r.nx.2 = r.limits_y.2 - r.limits_y.1 ∧
        (i = 0 → r.limits_y.1 = 0) ∧
        (i = (3 : Nat) - 1 → r.limits_y.2 = 9) ∧
        (i + 1 < (3 : Nat) → ∃ r', h'.cell (ring_addr 0 heap0.brk (i + 1)) = some r' ∧
          r.limits_y.2 = r'.limits_y.1)) ∧
      (∀ y : Int, 0 ≤ y → y < 9 →
        ∃! i : Nat, i < (3 : Nat) ∧ ∃ r, h'.cell (ring_addr 0 heap0.brk i) = some r ∧
          r.limits_y.1 ≤ y ∧ y < r.limits_y.2)) :=
  ⟨by decide, by decide, by decide,
    region_new_partitions_rows ext0 (3 : Nat) 9 (by decide) 4 1 spec0 (1, 1) 1 heap0 0 (by decide) none 6 (by decide)⟩

/-- C2 (witness).  The ring of 3 regions built in `heap0`. -/
theorem region_new_closed_ring_witness :
    (1 ≤ (3 : Nat)) ∧
    (0 < heap0.brk) ∧
    (2 * (3 : Nat) ≤ 6) ∧
    (∃ h', region_new ext0 (3 : Nat) (4, 9) 1 spec0 (1, 1) 1 6 heap0 0 0 none = some h' ∧
      ∀ i, i < (3 : Nat) →
        (∃ r, h'.cell (ring_addr 0 heap0.brk i) = some r ∧ r.id = (i : Int) ∧
          r.next = some (ring_addr 0 heap0.brk ((i + 1) % (3 : Nat))) ∧
          r.prev = some (ring_addr 0 heap0.brk ((i + (3 : Nat) - 1) % (3 : Nat)))) ∧
        follow_next h' (3 : Nat) (ring_addr 0 heap0.brk i) = some (ring_addr 0 heap0.brk i) ∧
        (∀ k, 0 < k → k < (3 : Nat) →
          follow_next h' k (ring_addr 0 heap0.brk i) ≠ some (ring_addr 0 heap0.brk i)) ∧
        (next_of h' (ring_addr 0 heap0.brk i)).bind (prev_of h') = some (ring_addr 0 heap0.brk i) ∧
        (prev_of h' (ring_addr 0 heap0.brk i)).bind (next_of h') = some (ring_addr 0 heap0.brk i)) :=
  ⟨by decide, by decide, by decide,
    region_new_closed_ring ext0 (3 : Nat) (by decide) (4, 9) 1 spec0 (1, 1) 1 heap0 0 (by decide) none 6 (by decide)⟩

/-- C3 (witness).  The row reduction of the current `cur0`. -/
theorem current_reduction_y_sums_band_witness :
    (cur0.gc.1.1 + cur0.nx.1 + cur0.gc.1.2 ≤ cur0.nrow) ∧
    ((∀ i j : Int, -cur0.gc.1.1 ≤ i → i < cur0.nx.1 + cur0.gc.1.2 →
        -cur0.gc.2.1 ≤ j → j < cur0.gc.2.2 →
        (current_reduction_y_openacc cur0).J (i + j * cur0.nrow) =
          ⟨(cur0.J (i + j * cur0.nrow)).x
              + (cur0.J_upper (i + (j + cur0.gc.2.1) * cur0.nrow)).x,
           (cur0.J (i + j * cur0.nrow)).y
              + (cur0.J_upper (i + (j + cur0.gc.2.1) * cur0.nrow)).y,
           (cur0.J (i + j * cur0.nrow)).z
              + (cur0.J_upper (i + (j + cur0.gc.2.1) * cur0.nrow)).z⟩ ∧
        (current_reduction_y_openacc cur0).J_upper
            (i + (j + cur0.gc.2.1) * cur0.nrow) =
          (current_reduction_y_openacc cur0).J (i + j * cur0.nrow)) ∧
    (∀ p : Int, (¬ ∃ i j : Int, (-cur0.gc.1.1 ≤ i ∧ i < cur0.nx.1 + cur0.gc.1.2) ∧
        (-cur0.gc.2.1 ≤ j ∧ j < cur0.gc.2.2) ∧ p = i + j * cur0.nrow) →
        (current_reduction_y_openacc cur0).J p = cur0.J p) ∧
    (∀ q : Int, (¬ ∃ i j : Int, (-cur0.gc.1.1 ≤ i ∧ i < cur0.nx.1 + cur0.gc.1.2) ∧
        (-cur0.gc.2.1 ≤ j ∧ j < cur0.gc.2.2) ∧
        q = i + (j + cur0.gc.2.1) * cur0.nrow) →
        (current_reduction_y_openacc cur0).J_upper q = cur0.J_upper q)) :=
  ⟨by decide,
    current_reduction_y_sums_band cur0 (by decide)⟩

/-- C4 (witness).  A timestep on the ring `heap3`, started from the region with id 2. -/
theorem region_advance_stage_order_witness :
    (well_formed_ring heap3 ring3) ∧
    (7 ∈ ring3) ∧
    (ring3.length ≤ 3) ∧
    (∃ r0, heap3.cell (ring3.getD 0 0) = some r0 ∧
      region_advance heap3 3 7 = some (
        ring3.flatMap (fun a => [Op.current_zero a]
          ++ (List.range (n_species_of heap3 a)).map (Op.spec_advance a)
          ++ [Op.current_reduction_x a])
        ++ ring3.flatMap (fun a =>
            (List.range (n_species_of heap3 a)).map (Op.spec_update_main_vector a))
        ++ ring3.map Op.current_reduction_y
        ++ (if r0.local_current.smooth_xtype ≠ smooth_type.NONE
            then ring3.map Op.current_smooth_x ++ ring3.map Op.current_gc_update_y else [])
        ++ ring3.map Op.emf_advance
        ++ ring3.map Op.emf_update_gc_y)) :=
  ⟨heap3_well_formed, by decide, by decide,
    region_advance_stage_order heap3 ring3 (heap3_well_formed) 7 (by decide) 3 (by decide)⟩

/-- C5 (witness).  The stage functions on the ring `heap3` with fuel for three activations. -/
theorem stage_functions_visit_ring_once_witness :
    (well_formed_ring heap3 ring3) ∧
    (region_spec_advance heap3 3 (ring3.getD 0 0) =
      (if ring3.length ≤ 3 then
        some (ring3.flatMap (fun a => [Op.current_zero a]
          ++ (List.range (n_species_of heap3 a)).map (Op.spec_advance a)
          ++ [Op.current_reduction_x a]))
      else none) ∧
    region_spec_update heap3 3 (ring3.getD 0 0) =
      (if ring3.length ≤ 3 then
        some (ring3.flatMap (fun a =>
          (List.range (n_species_of heap3 a)).map (Op.spec_update_main_vector a)))
      else none) ∧
    region_current_reduction_y heap3 3 (ring3.getD 0 0) =
      (if ring3.length ≤ 3 then some (ring3.map Op.current_reduction_y) else none) ∧
    region_current_smooth heap3 .SMOOTH_X 3 (ring3.getD 0 0) =
      (if ring3.length ≤ 3 then some (ring3.map Op.current_smooth_x) else none) ∧
    region_current_smooth heap3 .CURRENT_UPDATE_GC 3 (ring3.getD 0 0) =
      (if ring3.length ≤ 3 then some (ring3.map Op.current_gc_update_y) else none) ∧
    region_current_smooth heap3 .OTHER 3 (ring3.getD 0 0) =
      (if ring3.length ≤ 3 then some [] else none) ∧
    region_emf_advance heap3 .EMF_ADVANCE 3 (ring3.getD 0 0) =
      (if ring3.length ≤ 3 then some (ring3.map Op.emf_advance) else none) ∧
    region_emf_advance heap3 .EMF_UPDATE_GC 3 (ring3.getD 0 0) =
      (if ring3.length ≤ 3 then some (ring3.map Op.emf_update_gc_y) else none) ∧
    region_emf_advance heap3 .OTHER 3 (ring3.getD 0 0) =
      (if ring3.length ≤ 3 then some [] else none)) :=
  ⟨heap3_well_formed,
    stage_functions_visit_ring_once heap3 ring3 (heap3_well_formed) 3⟩

/-- C8 (witness).  The guard-cell update of the current `cur0`. -/
theorem current_gc_update_y_copies_band_witness :
    (cur0.gc.1.1 + cur0.nx.1 + cur0.gc.1.2 ≤ cur0.nrow) ∧
    ((∀ i j : Int, -cur0.gc.1.1 ≤ i → i < cur0.nx.1 + cur0.gc.1.2 →
        -cur0.gc.2.1 ≤ j → j < cur0.gc.2.2 → j < 0 →
        (current_gc_update_y_openacc cur0).J (i + j * cur0.nrow) =
          cur0.J_upper (i + (j + cur0.gc.2.1) * cur0.nrow) ∧
        (current_gc_update_y_openacc cur0).J_upper (i + (j + cur0.gc.2.1) * cur0.nrow) =
          cur0.J_upper (i + (j + cur0.gc.2.1) * cur0.nrow)) ∧
    (∀ i j : Int, -cur0.gc.1.1 ≤ i → i < cur0.nx.1 + cur0.gc.1.2 →
        -cur0.gc.2.1 ≤ j → j < cur0.gc.2.2 → 0 ≤ j →
        (current_gc_update_y_openacc cur0).J_upper (i + (j + cur0.gc.2.1) * cur0.nrow) =
          cur0.J (i + j * cur0.nrow) ∧
        (current_gc_update_y_openacc cur0).J (i + j * cur0.nrow) =
          cur0.J (i + j * cur0.nrow)) ∧
    (∀ i j : Int, -cur0.gc.1.1 ≤ i → i < cur0.nx.1 + cur0.gc.1.2 →
        -cur0.gc.2.1 ≤ j → j < cur0.gc.2.2 →
        (current_gc_update_y_openacc cur0).J (i + j * cur0.nrow) =
          (current_gc_update_y_openacc cur0).J_upper
            (i + (j + cur0.gc.2.1) * cur0.nrow)) ∧
    (∀ p : Int, (¬ ∃ i j : Int, (-cur0.gc.1.1 ≤ i ∧ i < cur0.nx.1 + cur0.gc.1.2) ∧
        (-cur0.gc.2.1 ≤ j ∧ j < cur0.gc.2.2) ∧ p = i + j * cur0.nrow) →
        (current_gc_update_y_openacc cur0).J p = cur0.J p) ∧
    (∀ q : Int, (¬ ∃ i j : Int, (-cur0.gc.1.1 ≤ i ∧ i < cur0.nx.1 + cur0.gc.1.2) ∧
        (-cur0.gc.2.1 ≤ j ∧ j < cur0.gc.2.2) ∧
        q = i + (j + cur0.gc.2.1) * cur0.nrow) →
        (current_gc_update_y_openacc cur0).J_upper q = cur0.J_upper q)) :=
  ⟨by decide,
    current_gc_update_y_copies_band cur0 (by decide)⟩

/-- C9 (witness).  The column reduction of the current `cur0`. -/
theorem current_reduction_x_sums_columns_witness :
    (cur0.nrow = cur0.gc.1.1 + cur0.nx.1 + cur0.gc.1.2) ∧
    (cur0.gc.1.1 + cur0.gc.1.2 ≤ cur0.nx.1) ∧
    ((∀ i j : Int, -cur0.gc.2.1 ≤ j → j < cur0.nx.2 + cur0.gc.2.2 →
        -cur0.gc.1.1 ≤ i → i < cur0.gc.1.2 →
        (current_reduction_x_openacc cur0).J (i + j * cur0.nrow) =
          ⟨(cur0.J (i + j * cur0.nrow)).x
              + (cur0.J (cur0.nx.1 + i + j * cur0.nrow)).x,
           (cur0.J (i + j * cur0.nrow)).y
              + (cur0.J (cur0.nx.1 + i + j * cur0.nrow)).y,
           (cur0.J (i + j * cur0.nrow)).z
              + (cur0.J (cur0.nx.1 + i + j * cur0.nrow)).z⟩ ∧
        (current_reduction_x_openacc cur0).J (cur0.nx.1 + i + j * cur0.nrow) =
          (current_reduction_x_openacc cur0).J (i + j * cur0.nrow)) ∧
    (∀ p : Int, (¬ ∃ i j : Int, (-cur0.gc.1.1 ≤ i ∧ i < cur0.gc.1.2) ∧
        (-cur0.gc.2.1 ≤ j ∧ j < cur0.nx.2 + cur0.gc.2.2) ∧
        (p = i + j * cur0.nrow ∨ p = cur0.nx.1 + i + j * cur0.nrow)) →
        (current_reduction_x_openacc cur0).J p = cur0.J p) ∧
    (-2147483648 ≤ cur0.iter → cur0.iter < 2147483647 →
      (current_reduction_x_openacc cur0).iter = cur0.iter + 1)) :=
  ⟨by decide, by decide,
    current_reduction_x_sums_columns cur0 (by decide) (by decide)⟩

/-- C9 (counterexample).  The current `cur_max` satisfies both conditions on the sizes and has
`iter = INT_MAX`; after `current_reduction_x_openacc` its `iter` is `INT_MIN`, not
`iter + 1`. -/
theorem current_reduction_x_iter_wraps :
    (cur_max.nrow = cur_max.gc.1.1 + cur_max.nx.1 + cur_max.gc.1.2) ∧
    (cur_max.gc.1.1 + cur_max.gc.1.2 ≤ cur_max.nx.1) ∧
    cur_max.iter = 2147483647 ∧
    (current_reduction_x_openacc cur_max).iter = -2147483648 ∧
    (current_reduction_x_openacc cur_max).iter ≠ cur_max.iter + 1 := by
  refine ⟨by decide, by decide, rfl, ?_, ?_⟩
  · rw [reduction_x_iter]
    decide
  · rw [reduction_x_iter]
    decide

/-- C10 (witness).  The ring `heap3` linked in the order 7, 5, 2, 7. -/
theorem temp_buffer_has_one_sender_witness :
    (well_formed_ring heap3 ring3) ∧
    (uniform_species heap3 ring3 1) ∧
    (∀ a, a ∈ [7, 5, 2, 7] → a ∈ ring3) ∧
    (∀ a, a ∈ ring3 → a ∈ [7, 5, 2, 7]) ∧
    (∃ h', link_all heap3 [7, 5, 2, 7] = some h' ∧ well_formed_ring h' ring3 ∧
      (∀ i k, i < ring3.length → k < ring3.length → ∀ s' s, s' < 1 → s < 1 → ∀ d,
        (outgoing_ref h' (ring3.getD i 0) s' d = some ⟨ring3.getD k 0, s, 0⟩ ↔
          i = (k + ring3.length - 1) % ring3.length ∧ s' = s ∧ d = link_dir.to_next) ∧
        (outgoing_ref h' (ring3.getD i 0) s' d = some ⟨ring3.getD k 0, s, 1⟩ ↔
          i = (k + 1) % ring3.length ∧ s' = s ∧ d = link_dir.to_prev)) ∧
      (∀ i, i < ring3.length → ∃ outs, spec_advance_out h' (ring3.getD i 0) = some outs ∧
        ∀ ref, ref ∈ outs ↔ ∃ s, s < 1 ∧ ∃ d, outgoing_ref h' (ring3.getD i 0) s d = some ref)) :=
  ⟨heap3_well_formed, heap3_uniform, by decide, by decide,
    temp_buffer_has_one_sender heap3 ring3 1 (heap3_well_formed) (heap3_uniform) [7, 5, 2, 7] (by decide) (by decide)⟩

/-! ## Theorems: the heights of the regions -/

section
variable {F : Type}

/-- One step of the row limits: `⌊(i+1)·R/N⌋ - ⌊i·R/N⌋` lies between `⌊R/N⌋` and `⌊R/N⌋ + 1`,
and it is `⌊R/N⌋` when `N` divides `R`. -/
theorem limit_step (R : Int) (N : Nat) (hN : 1 ≤ N) (i : Int) :
    R / (N : Int) ≤ (i + 1) * R / (N : Int) - i * R / (N : Int) ∧
    (i + 1) * R / (N : Int) - i * R / (N : Int) ≤ R / (N : Int) + 1 ∧
    (R % (N : Int) = 0 → (i + 1) * R / (N : Int) - i * R / (N : Int) = R / (N : Int)) := by
  have hNpos : (0 : Int) < (N : Int) := by omega
  have hNne : (N : Int) ≠ 0 := by omega
  have hm0 : 0 ≤ R % (N : Int) := Int.emod_nonneg R hNne
  have hm1 : R % (N : Int) < (N : Int) := Int.emod_lt_of_pos R hNpos
  have hR : R = R / (N : Int) * (N : Int) + R % (N : Int) := by
    rw [Int.mul_comm]; exact (Int.ediv_add_emod R N).symm
  have key : ∀ k : Int, k * R / (N : Int) =
      k * (R / (N : Int)) + k * (R % (N : Int)) / (N : Int) := by
    intro k
    have : k * R = k * (R % (N : Int)) + k * (R / (N : Int)) * (N : Int) := by
      conv_lhs => rw [hR]
      ring
    rw [this, Int.add_mul_ediv_right _ _ hNne]
    ring
  rw [key (i + 1), key i]
  have hlo : i * (R % (N : Int)) / (N : Int) ≤ (i + 1) * (R % (N : Int)) / (N : Int) :=
    Int.ediv_le_ediv hNpos (by nlinarith)
  have hhi : (i + 1) * (R % (N : Int)) / (N : Int) ≤ i * (R % (N : Int)) / (N : Int) + 1 := by
    have : (i * (R % (N : Int)) + 1 * (N : Int)) / (N : Int) =
        i * (R % (N : Int)) / (N : Int) + 1 := Int.add_mul_ediv_right _ _ hNne
    rw [← this]
    exact Int.ediv_le_ediv hNpos (by nlinarith)
  refine ⟨by linarith, by linarith, ?_⟩
  intro h0
  rw [h0]
  simp
  ring

theorem floor_height (R : Int) (N : Nat) :
    Int.floor ((R : ℚ) / (N : ℚ)) = R / (N : Int) :=
  Rat.floor_intCast_div_natCast R N

theorem ceil_height (R : Int) (N : Nat) (hN : 1 ≤ N) :
    Int.ceil ((R : ℚ) / (N : ℚ)) =
      if R % (N : Int) = 0 then R / (N : Int) else R / (N : Int) + 1 := by
  have hNpos : (0 : Int) < (N : Int) := by omega
  have hNq : (0 : ℚ) < (N : ℚ) := by exact_mod_cast hNpos
  have hm0 : 0 ≤ R % (N : Int) := Int.emod_nonneg R (by omega)
  have hm1 : R % (N : Int) < (N : Int) := Int.emod_lt_of_pos R hNpos
  have hR : R = R / (N : Int) * (N : Int) + R % (N : Int) := by
    rw [Int.mul_comm]; exact (Int.ediv_add_emod R N).symm
  have hRq : (R : ℚ) = ((R / (N : Int) : Int) : ℚ) * (N : ℚ) + ((R % (N : Int) : Int) : ℚ) := by
    exact_mod_cast hR
  rw [Int.ceil_eq_iff]
  split_ifs with h0
  · rw [h0] at hRq
    constructor
    · rw [lt_div_iff₀ hNq]
      rw [hRq]
      push_cast
      nlinarith
    · rw [div_le_iff₀ hNq]
      rw [hRq]
      push_cast
      nlinarith
  · have hmpos : (0 : ℚ) < ((R % (N : Int) : Int) : ℚ) := by
      have : 0 < R % (N : Int) := by omega
      exact_mod_cast this
    have hmlt : ((R % (N : Int) : Int) : ℚ) < (N : ℚ) := by exact_mod_cast hm1
    constructor
    · rw [lt_div_iff₀ hNq]
      push_cast
      nlinarith
    · rw [div_le_iff₀ hNq]
      push_cast
      nlinarith

/-- C16.  For every `N ≥ 1` and grid height `R ≥ 0`, `region_new` returns a ring in which some
region has zero rows (`nx[1] = limits_y[1] - limits_y[0] = 0`) if and only if `R < N`; and when
`R ≥ N` every region owns at least one row. -/
theorem region_new_zero_rows_iff (ext : Externals F) (N : Nat) (hN : 1 ≤ N) (R : Int)
    (hR : 0 ≤ R) (nx0 : Int) (n_spec : Nat) (spec : Nat → t_species) (box : ℚ × ℚ) (dt : ℚ)
    (h : Heap F) (a0 : Nat) (ha : a0 < h.brk) (prev_region : Option Nat) (fuel : Nat)
    (hf : 2 * N ≤ fuel) :
    ∃ h', region_new ext N (nx0, R) n_spec spec box dt fuel h a0 0 prev_region = some h' ∧
      ((∃ i, i < N ∧ ∃ r, h'.cell (ring_addr a0 h.brk i) = some r ∧
          r.nx.2 = r.limits_y.2 - r.limits_y.1 ∧ r.nx.2 = 0) ↔ R < (N : Int)) ∧
      ((N : Int) ≤ R → ∀ i, i < N → ∃ r, h'.cell (ring_addr a0 h.brk i) = some r ∧
          r.nx.2 = r.limits_y.2 - r.limits_y.1 ∧ 1 ≤ r.nx.2) := by
  obtain ⟨h', e, _, hc, _⟩ :=
    region_new_built ext N hN (nx0, R) n_spec spec box dt h a0 ha prev_region fuel hf
  have hnx : ∀ i : Nat, ∀ p q : Option Nat,
      (region_built ext N (nx0, R) n_spec spec box dt (i : Int) p q).nx.2 =
        ((i : Int) + 1) * R / (N : Int) - (i : Int) * R / (N : Int) := by
    intro i p q
    rw [region_built_nx, region_built_limits]
  have hq0 : 0 ≤ R / (N : Int) := Int.ediv_nonneg hR (by omega)
  refine ⟨h', e, ⟨?_, ?_⟩, ?_⟩
  · rintro ⟨i, hi, r, hr, _, hz⟩
    rw [hc i hi] at hr
    cases hr
    rw [hnx] at hz
    have hs := (limit_step R N hN (i : Int)).1
    have hq : R / (N : Int) = 0 := by omega
    have hm1 : R % (N : Int) < (N : Int) := Int.emod_lt_of_pos R (by omega)
    have := Int.ediv_add_emod R N
    rw [hq] at this
    omega
  · intro hlt
    refine ⟨0, by omega, _, hc 0 (by omega), rfl, ?_⟩
    rw [hnx]
    simp [Int.ediv_eq_zero_of_lt hR hlt]
  · intro hge i hi
    refine ⟨_, hc i hi, rfl, ?_⟩
    rw [hnx]
    have hs := (limit_step R N hN (i : Int)).1
    have : 1 ≤ R / (N : Int) := by
      have h1 : (N : Int) / (N : Int) ≤ R / (N : Int) := Int.ediv_le_ediv (by omega) hge
      rwa [Int.ediv_self (by omega)] at h1
    omega

/-- C17.  For every `N ≥ 1` and grid height `R`, the number of rows `nx[1]` of every region
built by `region_new` is `⌊(i+1)·R/N⌋ - ⌊i·R/N⌋` and equals `⌊R/N⌋` or `⌈R/N⌉`; so the heights of
any two regions differ by at most 1. -/
theorem region_new_even_partition (ext : Externals F) (N : Nat) (hN : 1 ≤ N) (R : Int)
    (nx0 : Int) (n_spec : Nat) (spec : Nat → t_species) (box : ℚ × ℚ) (dt : ℚ)
    (h : Heap F) (a0 : Nat) (ha : a0 < h.brk) (prev_region : Option Nat) (fuel : Nat)
    (hf : 2 * N ≤ fuel) :
    ∃ h', region_new ext N (nx0, R) n_spec spec box dt fuel h a0 0 prev_region = some h' ∧
      (∀ i, i < N → ∃ r, h'.cell (ring_addr a0 h.brk i) = some r ∧
        r.nx.2 = Int.floor ((((i : Int) + 1 : Int) : ℚ) * (R : ℚ) / (N : ℚ))
          - Int.floor (((i : Int) : ℚ) * (R : ℚ) / (N : ℚ)) ∧
        (r.nx.2 = Int.floor ((R : ℚ) / (N : ℚ)) ∨ r.nx.2 = Int.ceil ((R : ℚ) / (N : ℚ)))) ∧
      (∀ i j, i < N → j < N → ∀ ri rj, h'.cell (ring_addr a0 h.brk i) = some ri →
        h'.cell (ring_addr a0 h.brk j) = some rj →
        ri.nx.2 - rj.nx.2 ≤ 1 ∧ rj.nx.2 - ri.nx.2 ≤ 1) := by
  obtain ⟨h', e, _, hc, _⟩ :=
    region_new_built ext N hN (nx0, R) n_spec spec box dt h a0 ha prev_region fuel hf
  have hnx : ∀ i : Nat, ∀ p q : Option Nat,
      (region_built ext N (nx0, R) n_spec spec box dt (i : Int) p q).nx.2 =
        ((i : Int) + 1) * R / (N : Int) - (i : Int) * R / (N : Int) := by
    intro i p q
    rw [region_built_nx, region_built_limits]
  refine ⟨h', e, ?_, ?_⟩
  · intro i hi
    refine ⟨_, hc i hi, ?_, ?_⟩
    · rw [hnx]
      have e1 := floor_limit ((i : Int) + 1) R N
      have e2 := floor_limit (i : Int) R N
      push_cast at e1 e2 ⊢
      rw [e1, e2]
    · rw [hnx, floor_height, ceil_height R N hN]
      obtain ⟨h1, h2, h3⟩ := limit_step R N hN (i : Int)
      split_ifs with h0
      · exact Or.inl (h3 h0)
      · omega
  · intro i j hi hj ri rj hri hrj
    rw [hc i hi] at hri
    rw [hc j hj] at hrj
    cases hri
    cases hrj
    rw [hnx, hnx]
    obtain ⟨a1, a2, _⟩ := limit_step R N hN (i : Int)
    obtain ⟨b1, b2, _⟩ := limit_step R N hN (j : Int)
    omega

end

/-! ## Theorems: `region_add_laser` -/

section
variable {F : Type}

/-- What a loop of `region_add_laser` returns on a well-formed ring, for every amount of fuel. -/
theorem walk_laser_pass {h : Heap F} {ring : List Nat} (hw : well_formed_ring h ring)
    (body : Nat → t_region F → List Op) (fuel : Nat) :
    laser_pass h body fuel (ring.getD 0 0) =
      if ring.length ≤ fuel then
        some (ring.flatMap (fun a =>
          match h.cell a with
          | none => []
          | some r => body a r))
      else none :=
  ring_walk_from_first hw _ (laser_pass h body) (fun _ => rfl)
    (fun f a r next rn hr hn hrn => by
      simp only [laser_pass, hr, hn, hrn]) fuel

theorem flatMap_eq_map_of_mem {α β : Type} (f : α → List β) (g : α → β) :
    ∀ l : List α, (∀ a, a ∈ l → f a = [g a]) → l.flatMap f = l.map g := by
  intro l
  induction l with
  | nil => intro _; rfl
  | cons a l ih =>
    intro hl
    rw [List.flatMap_cons, hl a (List.mem_cons_self _ _),
      ih (fun b hb => hl b (List.mem_cons_of_mem _ hb))]
    rfl

theorem ring_tail_mem {ring : List Nat} {a : Nat} (ha : a ∈ ring.tail) :
    ∃ i, 1 ≤ i ∧ i < ring.length ∧ ring.getD i 0 = a := by
  cases ring with
  | nil => simp at ha
  | cons a0 rest =>
    simp only [List.tail_cons] at ha
    obtain ⟨i, hi, e⟩ := List.getElem_of_mem ha
    refine ⟨i + 1, by omega, by simp; omega, ?_⟩
    rw [List.getD_eq_getElem _ _ (by simp; omega)]
    simpa using e

theorem ring_eq_head_tail {h : Heap F} {ring : List Nat} (hw : well_formed_ring h ring) :
    ring = ring.getD 0 0 :: ring.tail := by
  cases ring with
  | nil => exact absurd rfl hw.1
  | cons a0 rest => rfl

/-- The trace of `region_add_laser` on a well-formed ring. -/
theorem region_add_laser_trace {h : Heap F} {ring : List Nat} (hw : well_formed_ring h ring)
    {region : Nat} (hr : region ∈ ring) {fuel : Nat} (hf : ring.length ≤ fuel) :
    region_add_laser h fuel region = some (
      ring.map (fun a => Op.emf_add_laser a (limits_y0_of h a))
      ++ ring.tail.map Op.emf_update_gc_y
      ++ ring.map Op.div_corr_x
      ++ ring.flatMap (fun a => [Op.emf_update_gc_y a, Op.emf_update_gc_x a])) := by
  have hcell : ∀ a, a ∈ ring → ∃ r, h.cell a = some r := by
    intro a ha
    obtain ⟨i, hi, rfl⟩ := ring_mem_iff.mp ha
    obtain ⟨r, hr, _⟩ := hw.2 i hi
    exact ⟨r, hr⟩
  have e1 : ring.flatMap (fun a =>
      match h.cell a with
      | none => []
      | some r => [Op.emf_add_laser a r.limits_y.1]) =
      ring.map (fun a => Op.emf_add_laser a (limits_y0_of h a)) := by
    apply flatMap_eq_map_of_mem
    intro a ha
    obtain ⟨r, hr⟩ := hcell a ha
    simp only [hr, limits_y0_of]
  have e3 : ring.flatMap (fun a =>
      match h.cell a with
      | none => []
      | some _ => [Op.div_corr_x a]) = ring.map Op.div_corr_x := by
    apply flatMap_eq_map_of_mem
    intro a ha
    obtain ⟨r, hr⟩ := hcell a ha
    simp only [hr]
  have e4 : ring.flatMap (fun a =>
      match h.cell a with
      | none => []
      | some _ => [Op.emf_update_gc_y a, Op.emf_update_gc_x a]) =
      ring.flatMap (fun a => [Op.emf_update_gc_y a, Op.emf_update_gc_x a]) := by
    apply List.flatMap_congr
    intro a ha
    obtain ⟨r, hr⟩ := hcell a ha
    simp only [hr]
  have e2 : ring.flatMap (fun a =>
      match h.cell a with
      | none => []
      | some r => if r.id ≠ 0 then [Op.emf_update_gc_y a] else []) =
      ring.tail.map Op.emf_update_gc_y := by
    obtain ⟨r0, hr0, hid0, _⟩ := hw.2 0 (ring_length_pos hw)
    conv_lhs => rw [ring_eq_head_tail hw]
    rw [List.flatMap_cons]
    simp only [hr0, hid0, Nat.cast_zero, ne_eq, not_true_eq_false, if_false, List.nil_append]
    apply flatMap_eq_map_of_mem
    intro a ha
    obtain ⟨i, hi1, hi, rfl⟩ := ring_tail_mem ha
    obtain ⟨r, hr, hid, _⟩ := hw.2 i hi
    have : r.id ≠ 0 := by rw [hid]; omega
    simp only [hr, this, ne_eq, not_false_eq_true, if_true]
  unfold region_add_laser
  rw [first_by_next_of_mem hw hr hf]
  simp only [Option.bind_eq_bind, Option.some_bind, walk_laser_pass hw, if_pos hf, e1, e2, e3,
    e4, Option.pure_def]

/-- C11.  On a well-formed ring of `N ≥ 1` regions, `region_add_laser` called on any region of
the ring first calls `emf_add_laser` for the regions `0..N-1`, once each, with the region's own
`limits_y[0]` as row offset; then come the calls of the first row ghost-cell pass, then
`div_corr_x` for the regions `0..N-1`, then the final pass, in which each of the regions
`0..N-1` gets `emf_update_gc_y` followed by `emf_update_gc_x`.  The trace does not depend on the
region it is called on. -/
theorem region_add_laser_order (h : Heap F) (ring : List Nat) (hw : well_formed_ring h ring)
    (region : Nat) (hr : region ∈ ring) (fuel : Nat) (hf : ring.length ≤ fuel) :
    region_add_laser h fuel region = some (
      ring.map (fun a => Op.emf_add_laser a (limits_y0_of h a))
      ++ ring.tail.map Op.emf_update_gc_y
      ++ ring.map Op.div_corr_x
      ++ ring.flatMap (fun a => [Op.emf_update_gc_y a, Op.emf_update_gc_x a])) ∧
    (∀ i, i < ring.length → ∃ r, h.cell (ring.getD i 0) = some r ∧
      limits_y0_of h (ring.getD i 0) = r.limits_y.1) := by
  refine ⟨region_add_laser_trace hw hr hf, ?_⟩
  intro i hi
  obtain ⟨r, hr', _⟩ := hw.2 i hi
  exact ⟨r, hr', by simp only [limits_y0_of, hr']⟩

/-- C12 (amended).  On a well-formed ring of `N ≥ 1` regions the calls of `region_add_laser`
are those of `emf_add_laser` followed by three passes: the first pass calls `emf_update_gc_y`
for every region of the ring except region 0 (the regions `1..N-1`); the divergence-correction
pass calls `div_corr_x` for every region `0..N-1`; the final pass calls `emf_update_gc_y` and
`emf_update_gc_x` for every region `0..N-1`. -/
theorem region_add_laser_passes (h : Heap F) (ring : List Nat) (hw : well_formed_ring h ring)
    (region : Nat) (hr : region ∈ ring) (fuel : Nat) (hf : ring.length ≤ fuel) :
    ∃ t1 t2 t3 t4, region_add_laser h fuel region = some (t1 ++ t2 ++ t3 ++ t4) ∧
      t1 = ring.map (fun a => Op.emf_add_laser a (limits_y0_of h a)) ∧
      t2 = ring.tail.map Op.emf_update_gc_y ∧
      t3 = ring.map Op.div_corr_x ∧
      t4 = ring.flatMap (fun a => [Op.emf_update_gc_y a, Op.emf_update_gc_x a]) ∧
      Op.emf_update_gc_y (ring.getD 0 0) ∉ t2 ∧
      (∀ i, 1 ≤ i → i < ring.length → Op.emf_update_gc_y (ring.getD i 0) ∈ t2) ∧
      (∀ i, i < ring.length → Op.div_corr_x (ring.getD i 0) ∈ t3) ∧
      (∀ i, i < ring.length → Op.emf_update_gc_y (ring.getD i 0) ∈ t4 ∧
        Op.emf_update_gc_x (ring.getD i 0) ∈ t4) := by
  have hmem : ∀ i, i < ring.length → ring.getD i 0 ∈ ring := fun i hi =>
    ring_mem_iff.mpr ⟨i, hi, rfl⟩
  refine ⟨_, _, _, _, region_add_laser_trace hw hr hf, rfl, rfl, rfl, rfl, ?_, ?_, ?_, ?_⟩
  · intro hin
    obtain ⟨a, ha, e⟩ := List.mem_map.mp hin
    obtain ⟨i, hi1, hi, rfl⟩ := ring_tail_mem ha
    have e' : ring.getD i 0 = ring.getD 0 0 := by injection e
    have := ring_getD_inj hw hi (ring_length_pos hw) e'
    omega
  · intro i hi1 hi
    apply List.mem_map.mpr
    refine ⟨ring.getD i 0, ?_, rfl⟩
    have hh := ring_eq_head_tail hw
    have hm : ring.getD i 0 ∈ ring.getD 0 0 :: ring.tail := by
      rw [← hh]; exact hmem i hi
    rcases List.mem_cons.mp hm with e | hm
    · have := ring_getD_inj hw hi (ring_length_pos hw) e
      omega
    · exact hm
  · intro i hi
    exact List.mem_map.mpr ⟨_, hmem i hi, rfl⟩
  · intro i hi
    constructor
    · exact List.mem_flatMap.mpr ⟨_, hmem i hi, by simp⟩
    · exact List.mem_flatMap.mpr ⟨_, hmem i hi, by simp⟩

end

/-- C12 (counterexample).  On the ring `heap3` (region 0 at address 5) the calls made by
`region_add_laser` before the first `div_corr_x` do not include `emf_update_gc_y` for region 0,
which is called once only, in the final pass. -/
theorem region_add_laser_skips_region_0 :
    ∃ t, region_add_laser heap3 3 7 = some t ∧
      Op.emf_update_gc_y 5 ∉ t.takeWhile (fun o => decide (o ≠ Op.div_corr_x 5)) ∧
      Op.div_corr_x 5 ∈ t ∧
      t.count (Op.emf_update_gc_y 5) = 1 := by
  refine ⟨_, region_add_laser_trace heap3_well_formed (by decide) (by decide), ?_, ?_, ?_⟩
  · simp [ring3, List.takeWhile]
  · simp [ring3]
  · simp [ring3, List.count_cons]

/-! ## Theorems: linking twice -/

section
variable {F : Type}

theorem link_species_idem (next prev : Nat) (species : List t_species) (n : Nat) :
    link_species n next prev (link_species n next prev species) =
      link_species n next prev species := by
  apply List.ext_getElem?
  intro s
  rw [link_species_getElem?, link_species_getElem?]
  split_ifs with hs
  · cases species[s]? <;> rfl
  · rfl

theorem Heap.write_self (h : Heap F) (a : Nat) (r : t_region F) (hr : h.cell a = some r) :
    h.write a r = h := by
  cases h with
  | mk cell brk =>
    simp only [Heap.write, Heap.mk.injEq, and_true]
    funext x
    by_cases hx : x = a
    · subst hx; simpa using hr.symm
    · simp [hx]

/-- The region that `region_link_adj_regions` stores for `r` with the neighbours `prev`, `next`. -/
theorem region_link_eq (h : Heap F) (a : Nat) (r : t_region F) (prev next : Nat)
    (rp rn : t_region F) (hr : h.cell a = some r) (hp : r.prev = some prev)
    (hn : r.next = some next) (hrp : h.cell prev = some rp) (hrn : h.cell next = some rn) :
    region_link_adj_regions h a = some (h.write a
      { r with
        local_current := current_overlap_zone r.local_current prev
        local_emf := emf_overlap_zone r.local_emf prev
        species := link_species r.n_species next prev r.species }) := by
  simp only [region_link_adj_regions, hr, hp, hn, hrp, hrn]

theorem region_link_inv (h h1 : Heap F) (a : Nat) (e : region_link_adj_regions h a = some h1) :
    ∃ r prev next rp rn, h.cell a = some r ∧ r.prev = some prev ∧ r.next = some next ∧
      h.cell prev = some rp ∧ h.cell next = some rn ∧
      h1 = h.write a
        { r with
          local_current := current_overlap_zone r.local_current prev
          local_emf := emf_overlap_zone r.local_emf prev
          species := link_species r.n_species next prev r.species } := by
  cases hr : h.cell a with
  | none => simp [region_link_adj_regions, hr] at e
  | some r =>
    cases hp : r.prev with
    | none => simp [region_link_adj_regions, hr, hp] at e
    | some prev =>
      cases hn : r.next with
      | none => simp [region_link_adj_regions, hr, hp, hn] at e
      | some next =>
        cases hrp : h.cell prev with
        | none => simp [region_link_adj_regions, hr, hp, hn, hrp] at e
        | some rp =>
          cases hrn : h.cell next with
          | none => simp [region_link_adj_regions, hr, hp, hn, hrp, hrn] at e
          | some rn =>
            rw [region_link_eq h a r prev next rp rn hr hp hn hrp hrn] at e
            exact ⟨r, prev, next, rp, rn, rfl, hp, hn, hrp, hrn, (Option.some.inj e).symm⟩

theorem cell_after_link (h h1 : Heap F) (b : Nat)
    (e : region_link_adj_regions h b = some h1) (x : Nat) (rx : t_region F)
    (hx : h.cell x = some rx) : ∃ rx', h1.cell x = some rx' := by
  obtain ⟨r, prev, next, rp, rn, hr, hp, hn, hrp, hrn, rfl⟩ := region_link_inv h h1 b e
  rw [Heap.write_cell]
  split_ifs
  · exact ⟨_, rfl⟩
  · exact ⟨rx, hx⟩

/-- Linking a region a second time changes nothing. -/
theorem link_twice (h h1 : Heap F) (a : Nat) (e : region_link_adj_regions h a = some h1) :
    region_link_adj_regions h1 a = some h1 := by
  obtain ⟨r, prev, next, rp, rn, hr, hp, hn, hrp, hrn, e1⟩ := region_link_inv h h1 a e
  obtain ⟨rp', hrp'⟩ := cell_after_link h h1 a e prev rp hrp
  obtain ⟨rn', hrn'⟩ := cell_after_link h h1 a e next rn hrn
  have hc : h1.cell a = some
      { r with
        local_current := current_overlap_zone r.local_current prev
        local_emf := emf_overlap_zone r.local_emf prev
        species := link_species r.n_species next prev r.species } := by
    rw [e1, Heap.write_cell, if_pos rfl]
  rw [region_link_eq h1 a _ prev next rp' rn' hc hp hn hrp' hrn']
  congr 1
  apply Heap.write_self
  rw [hc]
  congr 1
  simp only [link_species_idem]
  rfl

/-- A region on which linking changes nothing stays so when another region is linked. -/
theorem link_fixed_preserved (h h1 : Heap F) (a b : Nat)
    (ha : region_link_adj_regions h a = some h) (e : region_link_adj_regions h b = some h1) :
    region_link_adj_regions h1 a = some h1 := by
  by_cases hab : b = a
  · subst hab
    rw [ha] at e
    cases e
    exact ha
  · obtain ⟨r, prev, next, rp, rn, hr, hp, hn, hrp, hrn, e1⟩ := region_link_inv h h a ha
    obtain ⟨rp', hrp'⟩ := cell_after_link h h1 b e prev rp hrp
    obtain ⟨rn', hrn'⟩ := cell_after_link h h1 b e next rn hrn
    have hfix : ({ r with
        local_current := current_overlap_zone r.local_current prev
        local_emf := emf_overlap_zone r.local_emf prev
        species := link_species r.n_species next prev r.species } : t_region F) = r := by
      have := congrArg (fun g : Heap F => g.cell a) e1
      simp only [Heap.write_cell, if_true, hr] at this
      exact (Option.some.inj this).symm
    have hc : h1.cell a = some r := by
      obtain ⟨rb, pb, nb, _, _, _, _, _, _, _, e2⟩ := region_link_inv h h1 b e
      rw [e2, Heap.write_cell, if_neg (Ne.symm hab), hr]
    rw [region_link_eq h1 a r prev next rp' rn' hc hp hn hrp' hrn', hfix]
    congr 1
    exact Heap.write_self h1 a r hc

theorem link_all_fixed :
    ∀ (order : List Nat) (h h' : Heap F), link_all h order = some h' →
      (∀ a, region_link_adj_regions h a = some h → region_link_adj_regions h' a = some h') ∧
      ∀ a, a ∈ order → region_link_adj_regions h' a = some h' := by
  intro order
  induction order with
  | nil =>
    intro h h' e
    simp only [link_all, Option.some.injEq] at e
    subst e
    exact ⟨fun _ ha => ha, fun a ha => absurd ha (List.not_mem_nil a)⟩
  | cons b rest ih =>
    intro h h' e
    cases e1 : region_link_adj_regions h b with
    | none => simp [link_all, e1] at e
    | some h1 =>
      simp only [link_all, e1] at e
      obtain ⟨k1, k2⟩ := ih h1 h' e
      refine ⟨fun a ha => k1 a (link_fixed_preserved h h1 a b ha e1), ?_⟩
      intro a ha
      rcases List.mem_cons.mp ha with rfl | ha'
      · exact k1 a (link_twice h h1 a e1)
      · exact k2 a ha'

theorem link_all_of_fixed :
    ∀ (order : List Nat) (h : Heap F),
      (∀ a, a ∈ order → region_link_adj_regions h a = some h) → link_all h order = some h := by
  intro order
  induction order with
  | nil => intro h _; rfl
  | cons b rest ih =>
    intro h hfix
    simp only [link_all, hfix b (List.mem_cons_self _ _)]
    exact ih h (fun a ha => hfix a (List.mem_cons_of_mem _ ha))

theorem link_step_well_formed {h : Heap F} {ring : List Nat} (hw : well_formed_ring h ring)
    {a : Nat} (ha : a ∈ ring) :
    ∃ h1, region_link_adj_regions h a = some h1 ∧ well_formed_ring h1 ring := by
  have hpos := ring_length_pos hw
  obtain ⟨i, hi, rfl⟩ := ring_mem_iff.mp ha
  obtain ⟨r, hr, hid, hnx, hpv⟩ := hw.2 i hi
  obtain ⟨rn, hrn, _⟩ := hw.2 ((i + 1) % ring.length) (Nat.mod_lt _ hpos)
  obtain ⟨rp, hrp, _⟩ := hw.2 ((i + ring.length - 1) % ring.length) (Nat.mod_lt _ hpos)
  generalize ring.getD ((i + 1) % ring.length) 0 = nx at hnx hrn
  generalize ring.getD ((i + ring.length - 1) % ring.length) 0 = pv at hpv hrp
  refine ⟨_, region_link_eq h _ r pv nx rp rn hr hpv hnx hrp hrn, hw.1, ?_⟩
  intro j hj
  obtain ⟨rj, hrj, hjid, hjn, hjp⟩ := hw.2 j hj
  by_cases hji : ring.getD j 0 = ring.getD i 0
  · have := ring_getD_inj hw hj hi hji
    subst this
    rw [hr] at hrj
    cases hrj
    exact ⟨{ r with
        local_current := current_overlap_zone r.local_current pv
        local_emf := emf_overlap_zone r.local_emf pv
        species := link_species r.n_species nx pv r.species },
      by rw [Heap.write_cell, if_pos rfl], hid, hjn, hjp⟩
  · exact ⟨rj, by rw [Heap.write_cell, if_neg hji, hrj], hjid, hjn, hjp⟩

theorem link_all_well_formed {ring : List Nat} :
    ∀ (order : List Nat) (h : Heap F), well_formed_ring h ring →
      (∀ a, a ∈ order → a ∈ ring) →
      ∃ h', link_all h order = some h' ∧ well_formed_ring h' ring := by
  intro order
  induction order with
  | nil => intro h hw _; exact ⟨h, rfl, hw⟩
  | cons a rest ih =>
    intro h hw ho
    obtain ⟨h1, e1, hw1⟩ := link_step_well_formed hw (ho a (List.mem_cons_self _ _))
    obtain ⟨h', e', hw'⟩ := ih h1 hw1 (fun b hb => ho b (List.mem_cons_of_mem _ hb))
    exact ⟨h', by simp only [link_all, e1, e'], hw'⟩

/-- C14.  On a well-formed ring whose regions all have `n` species, `region_link_adj_regions`
applied to a region succeeds, and applied a second time it returns the very same store.  The
linkage it leaves depends on the ring alone: the region keeps its `n` species, and for each
species `s < n` its two links are `temp_buffer[0]` of species `s` of `next` and `temp_buffer[1]`
of species `s` of `prev`; `next` and `prev` are regions of the ring, they are in the store and
have a species `s`, so no link dangles, and each species has one link in each direction, so none
is duplicated.  Linking a whole list of regions of the ring a second time returns the very same
store too, with every region of the list linked in this way. -/
theorem region_link_adj_regions_idempotent (h : Heap F) (ring : List Nat) (n : Nat)
    (hw : well_formed_ring h ring) (hu : uniform_species h ring n) (a : Nat) (ha : a ∈ ring)
    (order : List Nat) (ho : ∀ b, b ∈ order → b ∈ ring) :
    (∃ h1, region_link_adj_regions h a = some h1 ∧
      region_link_adj_regions h1 a = some h1 ∧
      ∃ r next prev, h1.cell a = some r ∧ r.next = some next ∧ r.prev = some prev ∧
        next ∈ ring ∧ prev ∈ ring ∧
        r.local_current.upper_of = some prev ∧ r.local_emf.upper_of = some prev ∧
        r.n_species = n ∧ r.species.length = n ∧
        ∀ s, s < n →
          outgoing_ref h1 a s link_dir.to_next = some ⟨next, s, 0⟩ ∧
          outgoing_ref h1 a s link_dir.to_prev = some ⟨prev, s, 1⟩ ∧
          (∃ rn sn, h1.cell next = some rn ∧ rn.species[s]? = some sn) ∧
          (∃ rp sp, h1.cell prev = some rp ∧ rp.species[s]? = some sp)) ∧
    (∃ h', link_all h order = some h' ∧ link_all h' order = some h' ∧
      ∀ b, b ∈ order → linked h' n b) := by
  constructor
  · obtain ⟨h1, e1, hw1, hu1, _, _⟩ := link_step hw hu ha
    refine ⟨h1, e1, link_twice h h1 a e1, ?_⟩
    obtain ⟨r, prev, next, rp, rn, hr, hp, hn, hrp, hrn, e2⟩ := region_link_inv h h1 a e1
    have hpos := ring_length_pos hw
    obtain ⟨i, hi, rfl⟩ := ring_mem_iff.mp ha
    obtain ⟨r', hr', _, hnx', hpv'⟩ := hw.2 i hi
    rw [hr] at hr'
    cases hr'
    obtain ⟨r'', hr'', hns, hlen⟩ := hu _ ha
    rw [hr] at hr''
    cases hr''
    have hc : h1.cell (ring.getD i 0) = some
        { r with
          local_current := current_overlap_zone r.local_current prev
          local_emf := emf_overlap_zone r.local_emf prev
          species := link_species r.n_species next prev r.species } := by
      rw [e2, Heap.write_cell, if_pos rfl]
    have hnext : next ∈ ring := by
      rw [hn] at hnx'
      rw [Option.some.inj hnx']
      exact ring_mem_iff.mpr ⟨_, Nat.mod_lt _ hpos, rfl⟩
    have hprev : prev ∈ ring := by
      rw [hp] at hpv'
      rw [Option.some.inj hpv']
      exact ring_mem_iff.mpr ⟨_, Nat.mod_lt _ hpos, rfl⟩
    refine ⟨_, next, prev, hc, hn, hp, hnext, hprev, rfl, rfl, hns, ?_, ?_⟩
    · show (link_species r.n_species next prev r.species).length = n
      rw [link_species_length, hlen]
    · intro s hs
      have hs2 : s < r.species.length := by omega
      have hg : (link_species r.n_species next prev r.species)[s]? =
          some (spec_adjacent_vectors (r.species.get ⟨s, hs2⟩) ⟨next, s, 0⟩ ⟨prev, s, 1⟩) := by
        rw [link_species_getElem?, if_pos (by omega), List.getElem?_eq_getElem hs2]
        rfl
      refine ⟨?_, ?_, ?_, ?_⟩
      · simp only [outgoing_ref, hc, hg, spec_adjacent_vectors]
      · simp only [outgoing_ref, hc, hg, spec_adjacent_vectors]
      · obtain ⟨x, hx, _, hxl⟩ := hu1 next hnext
        exact ⟨x, x.species.get ⟨s, by omega⟩, hx, List.getElem?_eq_getElem _⟩
      · obtain ⟨x, hx, _, hxl⟩ := hu1 prev hprev
        exact ⟨x, x.species.get ⟨s, by omega⟩, hx, List.getElem?_eq_getElem _⟩
  · obtain ⟨h', e, _, _, _, hl⟩ := link_all_spec order h hw hu ho
    exact ⟨h', e, link_all_of_fixed order h' (link_all_fixed order h h' e).2, hl⟩

end

/-! ## Theorems: the row kernels applied one after another -/

section
variable {F : Type}

theorem in_band_congr {c c' : t_current F} (h1 : c'.nx = c.nx) (h2 : c'.nrow = c.nrow)
    (h3 : c'.gc = c.gc) (p : Int) : in_band c' p ↔ in_band c p := by
  unfold in_band
  rw [h1, h2, h3]

theorem reduction_y_eq_fold [Add F] (c : t_current F) :
    current_reduction_y_openacc c =
      (List.product (intRange (-c.gc.2.1) c.gc.2.2)
        (intRange (-c.gc.1.1) (c.nx.1 + c.gc.1.2))).foldl
        (fun s k => reduction_y_cell c.nrow c.gc.2.1 k.1 k.2 s) c := by
  unfold current_reduction_y_openacc
  exact forLoop_nested _ _ _ _ _ _

theorem reduction_y_fields [Add F] (c : t_current F) :
    (current_reduction_y_openacc c).nx = c.nx ∧ (current_reduction_y_openacc c).nrow = c.nrow ∧
      (current_reduction_y_openacc c).gc = c.gc := by
  rw [reduction_y_eq_fold]
  obtain ⟨h1, h2, h3, _⟩ := fold_reduction_y_fields c.nrow c.gc.2.1
    (List.product (intRange (-c.gc.2.1) c.gc.2.2)
      (intRange (-c.gc.1.1) (c.nx.1 + c.gc.1.2))) c
  exact ⟨h1, h2, h3⟩

/-- The row reduction, cell by cell: a cell of the band gets the sum in `J` and in `J_upper`,
any other cell keeps its value. -/
theorem reduction_y_pointwise [Add F] (c : t_current F)
    (hrow : c.gc.1.1 + c.nx.1 + c.gc.1.2 ≤ c.nrow) (p : Int) :
    (in_band c p →
      (current_reduction_y_openacc c).J p =
        ⟨(c.J p).x + (c.J_upper (p + c.gc.2.1 * c.nrow)).x,
          (c.J p).y + (c.J_upper (p + c.gc.2.1 * c.nrow)).y,
          (c.J p).z + (c.J_upper (p + c.gc.2.1 * c.nrow)).z⟩ ∧
      (current_reduction_y_openacc c).J_upper (p + c.gc.2.1 * c.nrow) =
        ⟨(c.J p).x + (c.J_upper (p + c.gc.2.1 * c.nrow)).x,
          (c.J p).y + (c.J_upper (p + c.gc.2.1 * c.nrow)).y,
          (c.J p).z + (c.J_upper (p + c.gc.2.1 * c.nrow)).z⟩) ∧
    (¬ in_band c p →
      (current_reduction_y_openacc c).J p = c.J p ∧
      (current_reduction_y_openacc c).J_upper (p + c.gc.2.1 * c.nrow) =
        c.J_upper (p + c.gc.2.1 * c.nrow)) := by
  have hnd := band_offsets_nodup c.nrow (-c.gc.2.1) c.gc.2.2
    (-c.gc.1.1) (c.nx.1 + c.gc.1.2) (fun _ => by omega)
  obtain ⟨h1, h2⟩ := fold_reduction_y c.nrow c.gc.2.1 _ c hnd p
  rw [reduction_y_eq_fold]
  constructor
  · intro hb
    have hm := mem_band_offsets.mpr hb
    rw [if_pos hm] at h1 h2
    exact ⟨h1, h2⟩
  · intro hb
    have hm : p ∉ _ := fun hm => hb (mem_band_offsets.mp hm)
    rw [if_neg hm] at h1 h2
    exact ⟨h1, h2⟩

theorem gc_update_y_eq_fold (c : t_current F) :
    current_gc_update_y_openacc c =
      (List.product (intRange (-c.gc.1.1) (c.nx.1 + c.gc.1.2))
        (intRange (-c.gc.2.1) c.gc.2.2)).foldl
        (fun s k => gc_update_y_cell c.nrow c.gc.2.1 k.1 k.2 s) c := by
  unfold current_gc_update_y_openacc
  exact forLoop_nested _ _ _ _ _ _

theorem gc_update_y_cell_fields (nrow gc10 i j : Int) (c : t_current F) :
    (gc_update_y_cell nrow gc10 i j c).nx = c.nx ∧
      (gc_update_y_cell nrow gc10 i j c).nrow = c.nrow ∧
      (gc_update_y_cell nrow gc10 i j c).gc = c.gc := by
  unfold gc_update_y_cell
  split_ifs <;> exact ⟨rfl, rfl, rfl⟩

theorem fold_gc_update_y_fields (nrow gc10 : Int) :
    ∀ (ks : List (Int × Int)) (c : t_current F),
      (ks.foldl (fun s k => gc_update_y_cell nrow gc10 k.1 k.2 s) c).nx = c.nx ∧
      (ks.foldl (fun s k => gc_update_y_cell nrow gc10 k.1 k.2 s) c).nrow = c.nrow ∧
      (ks.foldl (fun s k => gc_update_y_cell nrow gc10 k.1 k.2 s) c).gc = c.gc := by
  intro ks
  induction ks with
  | nil => intro c; exact ⟨rfl, rfl, rfl⟩
  | cons k ks ih =>
    intro c
    rw [List.foldl_cons]
    obtain ⟨a1, a2, a3⟩ := ih (gc_update_y_cell nrow gc10 k.1 k.2 c)
    obtain ⟨b1, b2, b3⟩ := gc_update_y_cell_fields nrow gc10 k.1 k.2 c
    exact ⟨a1.trans b1, a2.trans b2, a3.trans b3⟩

theorem gc_update_y_fields (c : t_current F) :
    (current_gc_update_y_openacc c).nx = c.nx ∧ (current_gc_update_y_openacc c).nrow = c.nrow ∧
      (current_gc_update_y_openacc c).gc = c.gc := by
  rw [gc_update_y_eq_fold]
  exact fold_gc_update_y_fields c.nrow c.gc.2.1 _ c

/-- The guard-cell update, cell by cell: a cell `i + j*nrow` of the band gets in `J` and in
`J_upper` the former value of `J_upper` (row `j < 0`) or of `J` (row `j ≥ 0`), any other cell
keeps its value. -/
theorem gc_update_y_pointwise (c : t_current F)
    (hrow : c.gc.1.1 + c.nx.1 + c.gc.1.2 ≤ c.nrow) (p : Int) :
    (∀ i j : Int, -c.gc.1.1 ≤ i → i < c.nx.1 + c.gc.1.2 → -c.gc.2.1 ≤ j → j < c.gc.2.2 →
      p = i + j * c.nrow →
      (current_gc_update_y_openacc c).J p =
        (if j < 0 then c.J_upper (p + c.gc.2.1 * c.nrow) else c.J p) ∧
      (current_gc_update_y_openacc c).J_upper (p + c.gc.2.1 * c.nrow) =
        (if j < 0 then c.J_upper (p + c.gc.2.1 * c.nrow) else c.J p)) ∧
    (¬ in_band c p →
      (current_gc_update_y_openacc c).J p = c.J p ∧
      (current_gc_update_y_openacc c).J_upper (p + c.gc.2.1 * c.nrow) =
        c.J_upper (p + c.gc.2.1 * c.nrow)) := by
  have hnd := band_offsets_nodup_cols c.nrow (-c.gc.2.1) c.gc.2.2
    (-c.gc.1.1) (c.nx.1 + c.gc.1.2) (fun _ => by omega)
  obtain ⟨h1, h2⟩ := fold_gc_update_y c.nrow c.gc.2.1 _ c hnd p
  rw [gc_update_y_eq_fold]
  constructor
  · intro i j hi1 hi2 hj1 hj2 hp
    exact h2 (i, j) (mem_band.mpr ⟨⟨hi1, hi2⟩, ⟨hj1, hj2⟩⟩) hp
  · intro hb
    exact h1 (fun hm => hb (mem_band_offsets_cols.mp hm))

/-- Where `J` and `J_upper` already agree on the band, the guard-cell update changes nothing. -/
theorem gc_update_y_of_agree (c : t_current F)
    (hrow : c.gc.1.1 + c.nx.1 + c.gc.1.2 ≤ c.nrow)
    (hag : ∀ p, in_band c p → c.J p = c.J_upper (p + c.gc.2.1 * c.nrow)) :
    (current_gc_update_y_openacc c).J = c.J ∧
      (current_gc_update_y_openacc c).J_upper = c.J_upper := by
  have key : ∀ p, (current_gc_update_y_openacc c).J p = c.J p ∧
      (current_gc_update_y_openacc c).J_upper (p + c.gc.2.1 * c.nrow) =
        c.J_upper (p + c.gc.2.1 * c.nrow) := by
    intro p
    obtain ⟨h1, h2⟩ := gc_update_y_pointwise c hrow p
    by_cases hb : in_band c p
    · obtain ⟨i, j, hi, hj, hp⟩ := hb
      obtain ⟨e1, e2⟩ := h1 i j hi.1 hi.2 hj.1 hj.2 hp
      have hg := hag p ⟨i, j, hi, hj, hp⟩
      rw [e1, e2]
      split_ifs
      · exact ⟨hg.symm, rfl⟩
      · exact ⟨rfl, hg⟩
    · exact h2 hb
  constructor
  · funext p
    exact (key p).1
  · funext q
    have := (key (q - c.gc.2.1 * c.nrow)).2
    rwa [sub_add_cancel] at this

/-- C19.  With `J` and `J_upper` separate arrays and `nrow ≥ gc[0][0] + nx[0] + gc[0][1]`,
applying `current_gc_update_y_openacc` twice gives the same `J` and `J_upper` as applying it
once, and applying it to the result of `current_reduction_y_openacc` changes neither `J` nor
`J_upper`. -/
theorem current_gc_update_y_idempotent [Add F] (current : t_current F)
    (hrow : current.gc.1.1 + current.nx.1 + current.gc.1.2 ≤ current.nrow) :
    (current_gc_update_y_openacc (current_gc_update_y_openacc current)).J =
        (current_gc_update_y_openacc current).J ∧
    (current_gc_update_y_openacc (current_gc_update_y_openacc current)).J_upper =
        (current_gc_update_y_openacc current).J_upper ∧
    (current_gc_update_y_openacc (current_reduction_y_openacc current)).J =
        (current_reduction_y_openacc current).J ∧
    (current_gc_update_y_openacc (current_reduction_y_openacc current)).J_upper =
        (current_reduction_y_openacc current).J_upper := by
  obtain ⟨f1, f2, f3⟩ := gc_update_y_fields current
  obtain ⟨g1, g2, g3⟩ := reduction_y_fields current
  have a1 := gc_update_y_of_agree (current_gc_update_y_openacc current)
    (by rw [f1, f2, f3]; exact hrow)
    (by
      intro p hb
      rw [in_band_congr f1 f2 f3] at hb
      obtain ⟨i, j, hi, hj, hp⟩ := hb
      obtain ⟨e1, e2⟩ := (gc_update_y_pointwise current hrow p).1 i j hi.1 hi.2 hj.1 hj.2 hp
      rw [f2, f3, e1, e2])
  have a2 := gc_update_y_of_agree (current_reduction_y_openacc current)
    (by rw [g1, g2, g3]; exact hrow)
    (by
      intro p hb
      rw [in_band_congr g1 g2 g3] at hb
      obtain ⟨e1, e2⟩ := (reduction_y_pointwise current hrow p).1 hb
      rw [g2, g3, e1, e2])
  exact ⟨a1.1, a1.2, a2.1, a2.2⟩

/-- C18.  With `J` and `J_upper` separate arrays and `nrow ≥ gc[0][0] + nx[0] + gc[0][1]`,
after two applications of `current_reduction_y_openacc` every cell `(i, j)` of the band holds,
in `J[i + j*nrow]` and in `J_upper[i + (j + gc[1][0])*nrow]`, twice the component-wise sum of the
original `J[i + j*nrow]` and `J_upper[i + (j + gc[1][0])*nrow]` (in any arithmetic in which
`2 * a = a + a`); and there is a current (`cur0`) on which two applications give another `J`
than one application. -/
theorem current_reduction_y_twice_doubles [Add F] [Mul F] [OfNat F 2]
    (h2 : ∀ a : F, 2 * a = a + a) (current : t_current F)
    (hrow : current.gc.1.1 + current.nx.1 + current.gc.1.2 ≤ current.nrow) :
    (∀ i j : Int, -current.gc.1.1 ≤ i → i < current.nx.1 + current.gc.1.2 →
        -current.gc.2.1 ≤ j → j < current.gc.2.2 →
        (current_reduction_y_openacc (current_reduction_y_openacc current)).J
            (i + j * current.nrow) =
          ⟨2 * ((current.J (i + j * current.nrow)).x
              + (current.J_upper (i + (j + current.gc.2.1) * current.nrow)).x),
           2 * ((current.J (i + j * current.nrow)).y
              + (current.J_upper (i + (j + current.gc.2.1) * current.nrow)).y),
           2 * ((current.J (i + j * current.nrow)).z
              + (current.J_upper (i + (j + current.gc.2.1) * current.nrow)).z)⟩ ∧
        (current_reduction_y_openacc (current_reduction_y_openacc current)).J_upper
            (i + (j + current.gc.2.1) * current.nrow) =
          (current_reduction_y_openacc (current_reduction_y_openacc current)).J
            (i + j * current.nrow)) ∧
    (cur0.gc.1.1 + cur0.nx.1 + cur0.gc.1.2 ≤ cur0.nrow ∧
      (current_reduction_y_openacc (current_reduction_y_openacc cur0)).J ≠
        (current_reduction_y_openacc cur0).J) := by
  have twice : ∀ {G : Type} [Add G] (c : t_current G)
      (_ : c.gc.1.1 + c.nx.1 + c.gc.1.2 ≤ c.nrow) (p : Int), in_band c p →
      (current_reduction_y_openacc (current_reduction_y_openacc c)).J p =
        ⟨((c.J p).x + (c.J_upper (p + c.gc.2.1 * c.nrow)).x)
            + ((c.J p).x + (c.J_upper (p + c.gc.2.1 * c.nrow)).x),
          ((c.J p).y + (c.J_upper (p + c.gc.2.1 * c.nrow)).y)
            + ((c.J p).y + (c.J_upper (p + c.gc.2.1 * c.nrow)).y),
          ((c.J p).z + (c.J_upper (p + c.gc.2.1 * c.nrow)).z)
            + ((c.J p).z + (c.J_upper (p + c.gc.2.1 * c.nrow)).z)⟩ ∧
      (current_reduction_y_openacc (current_reduction_y_openacc c)).J_upper
          (p + c.gc.2.1 * c.nrow) =
        (current_reduction_y_openacc (current_reduction_y_openacc c)).J p := by
    intro G _ c hc p hb
    obtain ⟨g1, g2, g3⟩ := reduction_y_fields c
    obtain ⟨e1, e2⟩ := (reduction_y_pointwise c hc p).1 hb
    obtain ⟨d1, d2⟩ := (reduction_y_pointwise (current_reduction_y_openacc c)
      (by rw [g1, g2, g3]; exact hc) p).1 ((in_band_congr g1 g2 g3 p).mpr hb)
    rw [g2, g3] at d1 d2
    rw [d1, d2, e1, e2]
    exact ⟨rfl, rfl⟩
  constructor
  · intro i j hi1 hi2 hj1 hj2
    have e : i + (j + current.gc.2.1) * current.nrow =
        i + j * current.nrow + current.gc.2.1 * current.nrow := by ring
    obtain ⟨t1, t2⟩ := twice current hrow (i + j * current.nrow)
      ⟨i, j, ⟨hi1, hi2⟩, ⟨hj1, hj2⟩, rfl⟩
    rw [e, t2, t1]
    simp only [h2, and_self]
  · refine ⟨by decide, ?_⟩
    intro heq
    have hb : in_band cur0 0 := ⟨0, 0, by decide, by decide, by decide⟩
    obtain ⟨t1, _⟩ := twice cur0 (by decide) 0 hb
    obtain ⟨e1, _⟩ := (reduction_y_pointwise cur0 (by decide) 0).1 hb
    have := congrFun heq 0
    rw [t1, e1] at this
    have hx := congrArg t_vfld.x this
    revert hx
    decide

end

/-! ## Theorems: the footprint of the row kernels -/

section
variable {F : Type}

/-- The offsets `u + v * nrow` with `0 ≤ u < nrow` and `0 ≤ v < rows` are exactly the
offsets from 0 up to `nrow * rows`. -/
theorem grid_offsets (nrow rows : Int) (hn : 0 ≤ nrow) (o : Int) :
    (∃ u v : Int, (0 ≤ u ∧ u < nrow) ∧ (0 ≤ v ∧ v < rows) ∧ o = u + v * nrow) ↔
      0 ≤ o ∧ o < nrow * rows := by
  constructor
  · rintro ⟨u, v, ⟨hu0, hu1⟩, ⟨hv0, hv1⟩, rfl⟩
    constructor
    · nlinarith
    · nlinarith
  · rintro ⟨h0, h1⟩
    have hpos : 0 < nrow := by
      rcases lt_or_ge 0 nrow with h | h
      · exact h
      · have : nrow = 0 := by omega
        rw [this, Int.zero_mul] at h1
        omega
    refine ⟨o % nrow, o / nrow, ⟨Int.emod_nonneg o (by omega), Int.emod_lt_of_pos o hpos⟩,
      ⟨Int.ediv_nonneg h0 hn, ?_⟩, ?_⟩
    · exact Int.ediv_lt_of_lt_mul hpos (by rw [Int.mul_comm]; exact h1)
    · have := Int.emod_add_ediv o nrow
      rw [Int.mul_comm] at this
      omega

theorem reduction_y_cell_logged_current [Add F] (nrow gc10 j i : Int) (s : t_logged F) :
    (reduction_y_cell_logged nrow gc10 j i s).current =
      reduction_y_cell nrow gc10 j i s.current := rfl

theorem reduction_y_cell_logged_log [Add F] (nrow gc10 j i : Int) (s : t_logged F) :
    (reduction_y_cell_logged nrow gc10 j i s).log =
      s.log ++ [(t_array.J, i + j * nrow), (t_array.J_upper, i + (j + gc10) * nrow),
        (t_array.J, i + j * nrow),
        (t_array.J, i + j * nrow), (t_array.J_upper, i + (j + gc10) * nrow),
        (t_array.J, i + j * nrow),
        (t_array.J, i + j * nrow), (t_array.J_upper, i + (j + gc10) * nrow),
        (t_array.J, i + j * nrow),
        (t_array.J, i + j * nrow), (t_array.J_upper, i + (j + gc10) * nrow)] := by
  simp [reduction_y_cell_logged, load, store]

theorem gc_update_y_cell_logged_current (nrow gc10 i j : Int) (s : t_logged F) :
    (gc_update_y_cell_logged nrow gc10 i j s).current =
      gc_update_y_cell nrow gc10 i j s.current := by
  unfold gc_update_y_cell_logged gc_update_y_cell
  split_ifs <;> rfl

theorem gc_update_y_cell_logged_log (nrow gc10 i j : Int) (s : t_logged F) :
    (gc_update_y_cell_logged nrow gc10 i j s).log =
      s.log ++ (if j < 0 then
        [(t_array.J_upper, i + (j + gc10) * nrow), (t_array.J, i + j * nrow)]
      else [(t_array.J, i + j * nrow), (t_array.J_upper, i + (j + gc10) * nrow)]) := by
  unfold gc_update_y_cell_logged
  split_ifs <;> simp [load, store]

/-- A loop over logged steps: the current is that of the plain steps, the log is the
concatenation of the logs of the steps. -/
theorem fold_logged {κ : Type} (step : κ → t_logged F → t_logged F)
    (plain : κ → t_current F → t_current F) (cells : κ → List (t_array × Int))
    (h1 : ∀ k s, (step k s).current = plain k s.current)
    (h2 : ∀ k s, (step k s).log = s.log ++ cells k) :
    ∀ (ks : List κ) (s : t_logged F),
      (ks.foldl (fun s k => step k s) s).current = ks.foldl (fun c k => plain k c) s.current ∧
      (ks.foldl (fun s k => step k s) s).log = s.log ++ ks.flatMap cells := by
  intro ks
  induction ks with
  | nil => intro s; simp
  | cons k ks ih =>
    intro s
    rw [List.foldl_cons, List.foldl_cons, List.flatMap_cons]
    obtain ⟨e1, e2⟩ := ih (step k s)
    rw [e1, e2, h1, h2, List.append_assoc]
    exact ⟨rfl, rfl⟩

/-- The log entries of the body of the row reduction at row `k.1`, column `k.2`. -/
theorem fold_reduction_y_logged [Add F] (nrow gc10 : Int) (ks : List (Int × Int))
    (s : t_logged F) :
    (ks.foldl (fun s k => reduction_y_cell_logged nrow gc10 k.1 k.2 s) s).current =
        ks.foldl (fun c k => reduction_y_cell nrow gc10 k.1 k.2 c) s.current ∧
      (ks.foldl (fun s k => reduction_y_cell_logged nrow gc10 k.1 k.2 s) s).log =
        s.log ++ ks.flatMap (fun k =>
          [(t_array.J, k.2 + k.1 * nrow), (t_array.J_upper, k.2 + (k.1 + gc10) * nrow),
            (t_array.J, k.2 + k.1 * nrow),
            (t_array.J, k.2 + k.1 * nrow), (t_array.J_upper, k.2 + (k.1 + gc10) * nrow),
            (t_array.J, k.2 + k.1 * nrow),
            (t_array.J, k.2 + k.1 * nrow), (t_array.J_upper, k.2 + (k.1 + gc10) * nrow),
            (t_array.J, k.2 + k.1 * nrow),
            (t_array.J, k.2 + k.1 * nrow), (t_array.J_upper, k.2 + (k.1 + gc10) * nrow)]) :=
  @fold_logged F (Int × Int) (fun k s => reduction_y_cell_logged nrow gc10 k.1 k.2 s)
    (fun k c => reduction_y_cell nrow gc10 k.1 k.2 c) _
    (fun k s => reduction_y_cell_logged_current nrow gc10 k.1 k.2 s)
    (fun k s => reduction_y_cell_logged_log nrow gc10 k.1 k.2 s) ks s

theorem fold_gc_update_y_logged (nrow gc10 : Int) (ks : List (Int × Int)) (s : t_logged F) :
    (ks.foldl (fun s k => gc_update_y_cell_logged nrow gc10 k.1 k.2 s) s).current =
        ks.foldl (fun c k => gc_update_y_cell nrow gc10 k.1 k.2 c) s.current ∧
      (ks.foldl (fun s k => gc_update_y_cell_logged nrow gc10 k.1 k.2 s) s).log =
        s.log ++ ks.flatMap (fun k =>
          if k.2 < 0 then
            [(t_array.J_upper, k.1 + (k.2 + gc10) * nrow), (t_array.J, k.1 + k.2 * nrow)]
          else [(t_array.J, k.1 + k.2 * nrow), (t_array.J_upper, k.1 + (k.2 + gc10) * nrow)]) :=
  @fold_logged F (Int × Int) (fun k s => gc_update_y_cell_logged nrow gc10 k.1 k.2 s)
    (fun k c => gc_update_y_cell nrow gc10 k.1 k.2 c) _
    (fun k s => gc_update_y_cell_logged_current nrow gc10 k.1 k.2 s)
    (fun k s => gc_update_y_cell_logged_log nrow gc10 k.1 k.2 s) ks s

theorem reduction_y_logged_current [Add F] (c : t_current F) :
    (current_reduction_y_logged c).current = current_reduction_y_openacc c := by
  unfold current_reduction_y_logged
  rw [reduction_y_eq_fold, forLoop_nested]
  exact (fold_reduction_y_logged c.nrow c.gc.2.1 _ _).1

theorem gc_update_y_logged_current (c : t_current F) :
    (current_gc_update_y_logged c).current = current_gc_update_y_openacc c := by
  unfold current_gc_update_y_logged
  rw [gc_update_y_eq_fold, forLoop_nested]
  exact (fold_gc_update_y_logged c.nrow c.gc.2.1 _ _).1

/-- The cells in the log of the row reduction: the cell of `J` and the cell of `J_upper` of
each column `i` and row `j` of the band. -/
theorem mem_reduction_y_log [Add F] (c : t_current F) (x : t_array × Int) :
    x ∈ (current_reduction_y_logged c).log ↔
      ∃ i j : Int, (-c.gc.1.1 ≤ i ∧ i < c.nx.1 + c.gc.1.2) ∧ (-c.gc.2.1 ≤ j ∧ j < c.gc.2.2) ∧
        (x = (t_array.J, i + j * c.nrow) ∨
          x = (t_array.J_upper, i + (j + c.gc.2.1) * c.nrow)) := by
  unfold current_reduction_y_logged
  simp only [forLoop_nested]
  rw [(fold_reduction_y_logged c.nrow c.gc.2.1 _ _).2, List.nil_append, List.mem_flatMap]
  constructor
  · rintro ⟨⟨j, i⟩, hk, hx⟩
    have hk := mem_band.mp hk
    refine ⟨i, j, hk.2, hk.1, ?_⟩
    simp only [List.mem_cons, List.mem_singleton, List.not_mem_nil, or_false] at hx
    tauto
  · rintro ⟨i, j, hi, hj, hx⟩
    refine ⟨(j, i), mem_band.mpr ⟨hj, hi⟩, ?_⟩
    simp only [List.mem_cons, List.mem_singleton]
    tauto

/-- The cells in the log of the guard-cell update: the same as for the row reduction. -/
theorem mem_gc_update_y_log (c : t_current F) (x : t_array × Int) :
    x ∈ (current_gc_update_y_logged c).log ↔
      ∃ i j : Int, (-c.gc.1.1 ≤ i ∧ i < c.nx.1 + c.gc.1.2) ∧ (-c.gc.2.1 ≤ j ∧ j < c.gc.2.2) ∧
        (x = (t_array.J, i + j * c.nrow) ∨
          x = (t_array.J_upper, i + (j + c.gc.2.1) * c.nrow)) := by
  unfold current_gc_update_y_logged
  simp only [forLoop_nested]
  rw [(fold_gc_update_y_logged c.nrow c.gc.2.1 _ _).2, List.nil_append, List.mem_flatMap]
  constructor
  · rintro ⟨⟨i, j⟩, hk, hx⟩
    have hk := mem_band.mp hk
    refine ⟨i, j, hk.1, hk.2, ?_⟩
    simp only at hx
    split_ifs at hx <;>
      simp only [List.mem_cons, List.mem_singleton, List.not_mem_nil, or_false] at hx <;> tauto
  · rintro ⟨i, j, hi, hj, hx⟩
    refine ⟨(i, j), mem_band.mpr ⟨hi, hj⟩, ?_⟩
    simp only
    split_ifs <;> simp only [List.mem_cons, List.mem_singleton] <;> tauto

theorem logged_J_upper [Add F] (c : t_current F)
    (hrow : c.nrow = c.gc.1.1 + c.nx.1 + c.gc.1.2) (hn : 0 ≤ c.nrow) (q : Int) :
    (t_array.J_upper, q) ∈ (current_reduction_y_logged c).log ↔
      -c.gc.1.1 ≤ q ∧ q < -c.gc.1.1 + c.nrow * (c.gc.2.1 + c.gc.2.2) := by
  have := grid_offsets c.nrow (c.gc.2.1 + c.gc.2.2) hn (q + c.gc.1.1)
  rw [mem_reduction_y_log]
  constructor
  · rintro ⟨i, j, hi, hj, hx | hx⟩
    · cases hx
    · have e : q = i + (j + c.gc.2.1) * c.nrow := congrArg Prod.snd hx
      have h1 := this.mp ⟨i + c.gc.1.1, j + c.gc.2.1, by omega, by omega, by rw [e]; ring⟩
      omega
  · intro hq
    obtain ⟨u, v, hu, hv, e⟩ := this.mpr (by omega)
    refine ⟨u - c.gc.1.1, v - c.gc.2.1, by omega, by omega, Or.inr ?_⟩
    rw [Prod.mk.injEq]
    refine ⟨rfl, ?_⟩
    have : q = u - c.gc.1.1 + v * c.nrow := by omega
    rw [this]
    ring

theorem logged_J_buf [Add F] (c : t_current F)
    (hrow : c.nrow = c.gc.1.1 + c.nx.1 + c.gc.1.2) (hn : 0 ≤ c.nrow) (o : Int) :
    (∃ a, (t_array.J, a) ∈ (current_reduction_y_logged c).log ∧ J_buf_offset c a = o) ↔
      0 ≤ o ∧ o < c.nrow * (c.gc.2.1 + c.gc.2.2) := by
  have := grid_offsets c.nrow (c.gc.2.1 + c.gc.2.2) hn o
  constructor
  · rintro ⟨a, ha, rfl⟩
    obtain ⟨i, j, hi, hj, hx | hx⟩ := (mem_reduction_y_log c _).mp ha
    · have e : a = i + j * c.nrow := congrArg Prod.snd hx
      exact (grid_offsets c.nrow (c.gc.2.1 + c.gc.2.2) hn _).mp
        ⟨i + c.gc.1.1, j + c.gc.2.1, by omega, by omega, by
          simp only [J_buf_offset]; rw [e]; ring⟩
    · cases hx
  · intro ho
    obtain ⟨u, v, hu, hv, e⟩ := this.mpr ho
    refine ⟨u - c.gc.1.1 + (v - c.gc.2.1) * c.nrow,
      (mem_reduction_y_log c _).mpr
        ⟨u - c.gc.1.1, v - c.gc.2.1, by omega, by omega, Or.inl rfl⟩, ?_⟩
    simp only [J_buf_offset]
    rw [e]
    ring

/-- A cell of `J` is in the log of the row reduction exactly when it is a cell of the band. -/
theorem logged_J_iff_in_band [Add F] (c : t_current F) (p : Int) :
    (t_array.J, p) ∈ (current_reduction_y_logged c).log ↔ in_band c p := by
  rw [mem_reduction_y_log]
  unfold in_band
  constructor
  · rintro ⟨i, j, hi, hj, hx | hx⟩
    · exact ⟨i, j, hi, hj, congrArg Prod.snd hx⟩
    · cases hx
  · rintro ⟨i, j, hi, hj, rfl⟩
    exact ⟨i, j, hi, hj, Or.inl rfl⟩

/-- A cell of `J_upper` is in the log of the row reduction exactly when it lies `gc[1][0]` rows
above a cell of the band. -/
theorem logged_J_upper_iff_in_band [Add F] (c : t_current F) (q : Int) :
    (t_array.J_upper, q) ∈ (current_reduction_y_logged c).log ↔
      in_band c (q - c.gc.2.1 * c.nrow) := by
  rw [mem_reduction_y_log]
  unfold in_band
  constructor
  · rintro ⟨i, j, hi, hj, hx | hx⟩
    · cases hx
    · have e : q = i + (j + c.gc.2.1) * c.nrow := congrArg Prod.snd hx
      exact ⟨i, j, hi, hj, by rw [e]; ring⟩
  · rintro ⟨i, j, hi, hj, e⟩
    refine ⟨i, j, hi, hj, Or.inr ?_⟩
    rw [Prod.mk.injEq]
    refine ⟨rfl, ?_⟩
    have : q = i + j * c.nrow + c.gc.2.1 * c.nrow := by omega
    rw [this]
    ring

/-- C13.  The kernels `current_reduction_y_openacc` and `current_gc_update_y_openacc`, run with
every read and write of a cell logged, compute what the kernels compute, and a cell that is not
in the log is left as it was.  For a current with `nrow = gc[0][0] + nx[0] + gc[0][1]` (and
sizes that are not negative), `J = J_buf + gc[0][0] + gc[1][0]*nrow` and
`L = nrow*(gc[1][0] + gc[1][1])`: the two kernels access the same cells; the offsets of
`J_upper` they access are exactly those of `[-gc[0][0], -gc[0][0] + L)` and the offsets of
`J_buf` exactly those of `[0, L)`; the sections `J_buf[0; overlap_zone]` and
`J_upper[-gc[0][0]; overlap_zone]` declared for the tasks cover every access if and only if
`overlap_zone ≥ L`, and are exactly the cells accessed when `overlap_zone = L`. -/
theorem row_kernels_footprint [Add F] (current : t_current F)
    (hrow : current.nrow = current.gc.1.1 + current.nx.1 + current.gc.1.2)
    (hn : 0 ≤ current.nrow) (hoz : 0 ≤ current.overlap_zone) :
    ((current_reduction_y_logged current).current = current_reduction_y_openacc current ∧
      (current_gc_update_y_logged current).current = current_gc_update_y_openacc current) ∧
    ((∀ p, (t_array.J, p) ∉ (current_reduction_y_logged current).log →
        (current_reduction_y_openacc current).J p = current.J p) ∧
      (∀ q, (t_array.J_upper, q) ∉ (current_reduction_y_logged current).log →
        (current_reduction_y_openacc current).J_upper q = current.J_upper q) ∧
      (∀ p, (t_array.J, p) ∉ (current_gc_update_y_logged current).log →
        (current_gc_update_y_openacc current).J p = current.J p) ∧
      (∀ q, (t_array.J_upper, q) ∉ (current_gc_update_y_logged current).log →
        (current_gc_update_y_openacc current).J_upper q = current.J_upper q)) ∧
    (∀ x, x ∈ (current_gc_update_y_logged current).log ↔
      x ∈ (current_reduction_y_logged current).log) ∧
    (∀ q, (t_array.J_upper, q) ∈ (current_reduction_y_logged current).log ↔
      -current.gc.1.1 ≤ q ∧
        q < -current.gc.1.1 + current.nrow * (current.gc.2.1 + current.gc.2.2)) ∧
    (∀ o, (∃ a, (t_array.J, a) ∈ (current_reduction_y_logged current).log ∧
        J_buf_offset current a = o) ↔
      0 ≤ o ∧ o < current.nrow * (current.gc.2.1 + current.gc.2.2)) ∧
    ((∀ x, x ∈ (current_reduction_y_logged current).log → declared current x) ↔
      current.nrow * (current.gc.2.1 + current.gc.2.2) ≤ current.overlap_zone) ∧
    (current.overlap_zone = current.nrow * (current.gc.2.1 + current.gc.2.2) →
      (∀ o, in_section (declared_J_buf current) o ↔
        ∃ a, (t_array.J, a) ∈ (current_reduction_y_logged current).log ∧
          J_buf_offset current a = o) ∧
      (∀ q, in_section (declared_J_upper current) q ↔
        (t_array.J_upper, q) ∈ (current_reduction_y_logged current).log)) := by
  have hU := logged_J_upper current hrow hn
  have hB := logged_J_buf current hrow hn
  have hsame : ∀ x, x ∈ (current_gc_update_y_logged current).log ↔
      x ∈ (current_reduction_y_logged current).log := by
    intro x
    rw [mem_gc_update_y_log, mem_reduction_y_log]
  have hle : current.gc.1.1 + current.nx.1 + current.gc.1.2 ≤ current.nrow := by omega
  refine ⟨⟨reduction_y_logged_current current, gc_update_y_logged_current current⟩,
    ⟨?_, ?_, ?_, ?_⟩, hsame, hU, hB, ⟨?_, ?_⟩, ?_⟩
  · intro p hp
    exact ((reduction_y_pointwise current hle p).2
      (fun hb => hp ((logged_J_iff_in_band current p).mpr hb))).1
  · intro q hq
    have := ((reduction_y_pointwise current hle (q - current.gc.2.1 * current.nrow)).2
      (fun hb => hq ((logged_J_upper_iff_in_band current q).mpr hb))).2
    rwa [Int.sub_add_cancel] at this
  · intro p hp
    exact ((gc_update_y_pointwise current hle p).2
      (fun hb => hp ((hsame _).mpr ((logged_J_iff_in_band current p).mpr hb)))).1
  · intro q hq
    have := ((gc_update_y_pointwise current hle (q - current.gc.2.1 * current.nrow)).2
      (fun hb => hq ((hsame _).mpr ((logged_J_upper_iff_in_band current q).mpr hb)))).2
    rwa [Int.sub_add_cancel] at this
  · intro hcov
    by_contra hlt
    have hL : 0 < current.nrow * (current.gc.2.1 + current.gc.2.2) := by omega
    obtain ⟨a, ha, e⟩ := (hB (current.nrow * (current.gc.2.1 + current.gc.2.2) - 1)).mpr
      (by omega)
    have := hcov _ ha
    simp only [declared, in_section, declared_J_buf] at this
    rw [e] at this
    omega
  · intro hle2 x hx
    obtain ⟨arr, p⟩ := x
    cases arr with
    | J =>
      have h1 := (hB _).mp ⟨p, hx, rfl⟩
      simp only [declared, in_section, declared_J_buf]
      omega
    | J_upper =>
      have h2 := (hU _).mp hx
      simp only [declared, in_section, declared_J_upper]
      omega
  · intro heq
    constructor
    · intro o
      rw [hB o]
      simp only [in_section, declared_J_buf, heq]
      omega
    · intro q
      rw [hU q]
      simp only [in_section, declared_J_upper, heq]

end

/-! ## Examples for the later theorems -/

/-- C11 (witness).  A laser added on the ring `heap3`, started from the region with id 2. -/
theorem region_add_laser_order_witness :
    (well_formed_ring heap3 ring3) ∧
    (7 ∈ ring3) ∧
    (ring3.length ≤ 3) ∧
    (region_add_laser heap3 3 7 = some (
      ring3.map (fun a => Op.emf_add_laser a (limits_y0_of heap3 a))
      ++ ring3.tail.map Op.emf_update_gc_y
      ++ ring3.map Op.div_corr_x
      ++ ring3.flatMap (fun a => [Op.emf_update_gc_y a, Op.emf_update_gc_x a])) ∧
    (∀ i, i < ring3.length → ∃ r, heap3.cell (ring3.getD i 0) = some r ∧
      limits_y0_of heap3 (ring3.getD i 0) = r.limits_y.1)) :=
  ⟨heap3_well_formed, by decide, by decide,
    region_add_laser_order heap3 ring3 (heap3_well_formed) 7 (by decide) 3 (by decide)⟩

/-- C12 (witness).  The passes of `region_add_laser` on the ring `heap3`. -/
theorem region_add_laser_passes_witness :
    (well_formed_ring heap3 ring3) ∧
    (7 ∈ ring3) ∧
    (ring3.length ≤ 3) ∧
    (∃ t1 t2 t3 t4, region_add_laser heap3 3 7 = some (t1 ++ t2 ++ t3 ++ t4) ∧
      t1 = ring3.map (fun a => Op.emf_add_laser a (limits_y0_of heap3 a)) ∧
      t2 = ring3.tail.map Op.emf_update_gc_y ∧
      t3 = ring3.map Op.div_corr_x ∧
      t4 = ring3.flatMap (fun a => [Op.emf_update_gc_y a, Op.emf_update_gc_x a]) ∧
      Op.emf_update_gc_y (ring3.getD 0 0) ∉ t2 ∧
      (∀ i, 1 ≤ i → i < ring3.length → Op.emf_update_gc_y (ring3.getD i 0) ∈ t2) ∧
      (∀ i, i < ring3.length → Op.div_corr_x (ring3.getD i 0) ∈ t3) ∧
      (∀ i, i < ring3.length → Op.emf_update_gc_y (ring3.getD i 0) ∈ t4 ∧
        Op.emf_update_gc_x (ring3.getD i 0) ∈ t4)) :=
  ⟨heap3_well_formed, by decide, by decide,
    region_add_laser_passes heap3 ring3 (heap3_well_formed) 7 (by decide) 3 (by decide)⟩

/-- C13 (witness).  The footprint of the row kernels on the current `cur0`, where
`overlap_zone = 8 = L`. -/
theorem row_kernels_footprint_witness :
    (cur0.nrow = cur0.gc.1.1 + cur0.nx.1 + cur0.gc.1.2) ∧
    (0 ≤ cur0.nrow) ∧
    (0 ≤ cur0.overlap_zone) ∧
    (((current_reduction_y_logged cur0).current = current_reduction_y_openacc cur0 ∧
      (current_gc_update_y_logged cur0).current = current_gc_update_y_openacc cur0) ∧
    ((∀ p, (t_array.J, p) ∉ (current_reduction_y_logged cur0).log →
        (current_reduction_y_openacc cur0).J p = cur0.J p) ∧
      (∀ q, (t_array.J_upper, q) ∉ (current_reduction_y_logged cur0).log →
        (current_reduction_y_openacc cur0).J_upper q = cur0.J_upper q) ∧
      (∀ p, (t_array.J, p) ∉ (current_gc_update_y_logged cur0).log →
        (current_gc_update_y_openacc cur0).J p = cur0.J p) ∧
      (∀ q, (t_array.J_upper, q) ∉ (current_gc_update_y_logged cur0).log →
        (current_gc_update_y_openacc cur0).J_upper q = cur0.J_upper q)) ∧
    (∀ x, x ∈ (current_gc_update_y_logged cur0).log ↔
      x ∈ (current_reduction_y_logged cur0).log) ∧
    (∀ q, (t_array.J_upper, q) ∈ (current_reduction_y_logged cur0).log ↔
      -cur0.gc.1.1 ≤ q ∧
        q < -cur0.gc.1.1 + cur0.nrow * (cur0.gc.2.1 + cur0.gc.2.2)) ∧
    (∀ o, (∃ a, (t_array.J, a) ∈ (current_reduction_y_logged cur0).log ∧
        J_buf_offset cur0 a = o) ↔
      0 ≤ o ∧ o < cur0.nrow * (cur0.gc.2.1 + cur0.gc.2.2)) ∧
    ((∀ x, x ∈ (current_reduction_y_logged cur0).log → declared cur0 x) ↔
      cur0.nrow * (cur0.gc.2.1 + cur0.gc.2.2) ≤ cur0.overlap_zone) ∧
    (cur0.overlap_zone = cur0.nrow * (cur0.gc.2.1 + cur0.gc.2.2) →
      (∀ o, in_section (declared_J_buf cur0) o ↔
        ∃ a, (t_array.J, a) ∈ (current_reduction_y_logged cur0).log ∧
          J_buf_offset cur0 a = o) ∧
      (∀ q, in_section (declared_J_upper cur0) q ↔
        (t_array.J_upper, q) ∈ (current_reduction_y_logged cur0).log))) :=
  ⟨by decide, by decide, by decide,
    row_kernels_footprint cur0 (by decide) (by decide) (by decide)⟩

/-- C14 (witness).  The region with id 0 of the ring `heap3` linked twice, and the ring linked
in the order 7, 5, 2, 7 twice. -/
theorem region_link_adj_regions_idempotent_witness :
    (well_formed_ring heap3 ring3) ∧
    (uniform_species heap3 ring3 1) ∧
    (5 ∈ ring3) ∧
    (∀ b, b ∈ [7, 5, 2, 7] → b ∈ ring3) ∧
    ((∃ h1, region_link_adj_regions heap3 5 = some h1 ∧
      region_link_adj_regions h1 5 = some h1 ∧
      ∃ r next prev, h1.cell 5 = some r ∧ r.next = some next ∧ r.prev = some prev ∧
        next ∈ ring3 ∧ prev ∈ ring3 ∧
        r.local_current.upper_of = some prev ∧ r.local_emf.upper_of = some prev ∧
        r.n_species = 1 ∧ r.species.length = 1 ∧
        ∀ s, s < 1 →
          outgoing_ref h1 5 s link_dir.to_next = some ⟨next, s, 0⟩ ∧
          outgoing_ref h1 5 s link_dir.to_prev = some ⟨prev, s, 1⟩ ∧
          (∃ rn sn, h1.cell next = some rn ∧ rn.species[s]? = some sn) ∧
          (∃ rp sp, h1.cell prev = some rp ∧ rp.species[s]? = some sp)) ∧
    (∃ h', link_all heap3 [7, 5, 2, 7] = some h' ∧ link_all h' [7, 5, 2, 7] = some h' ∧
      ∀ b, b ∈ [7, 5, 2, 7] → linked h' 1 b)) :=
  ⟨heap3_well_formed, heap3_uniform, by decide, by decide,
    region_link_adj_regions_idempotent heap3 ring3 1 heap3_well_formed heap3_uniform 5
      (by decide) [7, 5, 2, 7] (by decide)⟩

/-- C16 (witness).  Three regions on a grid of height 9: no region is empty. -/
theorem region_new_zero_rows_iff_witness :
    (1 ≤ (3 : Nat)) ∧
    (0 ≤ 9) ∧
    (0 < heap0.brk) ∧
    (2 * (3 : Nat) ≤ 6) ∧
    (∃ h', region_new ext0 (3 : Nat) (4, 9) 1 spec0 (1, 1) 1 6 heap0 0 0 none = some h' ∧
      ((∃ i, i < (3 : Nat) ∧ ∃ r, h'.cell (ring_addr 0 heap0.brk i) = some r ∧
          r.nx.2 = r.limits_y.2 - r.limits_y.1 ∧ r.nx.2 = 0) ↔ 9 < ((3 : Nat) : Int)) ∧
      (((3 : Nat) : Int) ≤ 9 → ∀ i, i < (3 : Nat) → ∃ r, h'.cell (ring_addr 0 heap0.brk i) = some r ∧
          r.nx.2 = r.limits_y.2 - r.limits_y.1 ∧ 1 ≤ r.nx.2)) :=
  ⟨by decide, by decide, by decide, by decide,
    region_new_zero_rows_iff ext0 (3 : Nat) (by decide) 9 (by decide) 4 1 spec0 (1, 1) 1 heap0 0 (by decide) none 6 (by decide)⟩

/-- C17 (witness).  Three regions on a grid of height 9. -/
theorem region_new_even_partition_witness :
    (1 ≤ (3 : Nat)) ∧
    (0 < heap0.brk) ∧
    (2 * (3 : Nat) ≤ 6) ∧
    (∃ h', region_new ext0 (3 : Nat) (4, 9) 1 spec0 (1, 1) 1 6 heap0 0 0 none = some h' ∧
      (∀ i, i < (3 : Nat) → ∃ r, h'.cell (ring_addr 0 heap0.brk i) = some r ∧
        r.nx.2 = Int.floor ((((i : Int) + 1 : Int) : ℚ) * (9 : ℚ) / ((3 : Nat) : ℚ))
          - Int.floor (((i : Int) : ℚ) * (9 : ℚ) / ((3 : Nat) : ℚ)) ∧
        (r.nx.2 = Int.floor ((9 : ℚ) / ((3 : Nat) : ℚ)) ∨ r.nx.2 = Int.ceil ((9 : ℚ) / ((3 : Nat) : ℚ)))) ∧
      (∀ i j, i < (3 : Nat) → j < (3 : Nat) → ∀ ri rj, h'.cell (ring_addr 0 heap0.brk i) = some ri →
        h'.cell (ring_addr 0 heap0.brk j) = some rj →
        ri.nx.2 - rj.nx.2 ≤ 1 ∧ rj.nx.2 - ri.nx.2 ≤ 1)) :=
  ⟨by decide, by decide, by decide,
    region_new_even_partition ext0 (3 : Nat) (by decide) 9 4 1 spec0 (1, 1) 1 heap0 0 (by decide) none 6 (by decide)⟩

/-- C18 (witness).  The row reduction applied twice to the current `cur0`, in integer arithmetic. -/
theorem current_reduction_y_twice_doubles_witness :
    (∀ a : Int, 2 * a = a + a) ∧
    (cur0.gc.1.1 + cur0.nx.1 + cur0.gc.1.2 ≤ cur0.nrow) ∧
    ((∀ i j : Int, -cur0.gc.1.1 ≤ i → i < cur0.nx.1 + cur0.gc.1.2 →
        -cur0.gc.2.1 ≤ j → j < cur0.gc.2.2 →
        (current_reduction_y_openacc (current_reduction_y_openacc cur0)).J
            (i + j * cur0.nrow) =
          ⟨2 * ((cur0.J (i + j * cur0.nrow)).x
              + (cur0.J_upper (i + (j + cur0.gc.2.1) * cur0.nrow)).x),
           2 * ((cur0.J (i + j * cur0.nrow)).y
              + (cur0.J_upper (i + (j + cur0.gc.2.1) * cur0.nrow)).y),
           2 * ((cur0.J (i + j * cur0.nrow)).z
              + (cur0.J_upper (i + (j + cur0.gc.2.1) * cur0.nrow)).z)⟩ ∧
        (current_reduction_y_openacc (current_reduction_y_openacc cur0)).J_upper
            (i + (j + cur0.gc.2.1) * cur0.nrow) =
          (current_reduction_y_openacc (current_reduction_y_openacc cur0)).J
            (i + j * cur0.nrow)) ∧
    (cur0.gc.1.1 + cur0.nx.1 + cur0.gc.1.2 ≤ cur0.nrow ∧
      (current_reduction_y_openacc (current_reduction_y_openacc cur0)).J ≠
        (current_reduction_y_openacc cur0).J)) :=
  ⟨fun a => by omega, by decide,
    current_reduction_y_twice_doubles (fun a => by omega) cur0 (by decide)⟩

/-- C19 (witness).  The guard-cell update applied to the current `cur0`. -/
theorem current_gc_update_y_idempotent_witness :
    (cur0.gc.1.1 + cur0.nx.1 + cur0.gc.1.2 ≤ cur0.nrow) ∧
    ((current_gc_update_y_openacc (current_gc_update_y_openacc cur0)).J =
        (current_gc_update_y_openacc cur0).J ∧
    (current_gc_update_y_openacc (current_gc_update_y_openacc cur0)).J_upper =
        (current_gc_update_y_openacc cur0).J_upper ∧
    (current_gc_update_y_openacc (current_reduction_y_openacc cur0)).J =
        (current_reduction_y_openacc cur0).J ∧
    (current_gc_update_y_openacc (current_reduction_y_openacc cur0)).J_upper =
        (current_reduction_y_openacc cur0).J_upper) :=
  ⟨by decide,
    current_gc_update_y_idempotent cur0 (by decide)⟩

/-! ## Theorems: `region_new` in binary32 -/

theorem round_half_even_cases (num den : Nat) :
    (round_half_even num den = num / den ∧ 2 * (num % den) ≤ den) ∨
    (round_half_even num den = num / den + 1 ∧ den ≤ 2 * (num % den)) := by
  unfold round_half_even
  simp only
  split_ifs <;> omega

theorem div_eq_of_bounds {m n k : Nat} (lo : k * n ≤ m) (hi : m < (k + 1) * n) : m / n = k :=
  Nat.div_eq_of_lt_le lo hi

theorem ceil_div_cases (n d : Nat) (hd : 0 < d) :
    (n + d - 1) / d = if n % d = 0 then n / d else n / d + 1 := by
  have hn := Nat.div_add_mod n d
  have hr := Nat.mod_lt n hd
  split_ifs with h0
  · apply div_eq_of_bounds
    · rw [Nat.mul_comm]; omega
    · rw [Nat.add_mul, Nat.mul_comm]; omega
  · apply div_eq_of_bounds
    · rw [Nat.add_mul, Nat.mul_comm]; omega
    · rw [Nat.add_mul, Nat.add_mul, Nat.mul_comm]; omega

/-- The quotient of `n * P` by `d` against the quotient `q` and the remainder `r` of `n` by `d`,
and where `m` can lie when it is that quotient rounded, for a divisor below `2 * P`. -/
theorem rounded_quotient_bounds (d P q r Q u m : Nat) (hP : d < 2 * P) (hr : r < d)
    (hu : u < d) (key : (d * q + r) * P = d * Q + u)
    (hcases : (m = Q ∧ 2 * u ≤ d) ∨ (m = Q + 1 ∧ d ≤ 2 * u)) :
    q * P ≤ m ∧ m < q * P + P ∧ (r = 0 → m = q * P) ∧ (r ≠ 0 → q * P + 1 ≤ m) := by
  have hd : 0 < d := by omega
  have e0 : (d * q + r) * P = d * (q * P) + r * P := by ring
  rw [e0] at key
  have hrP : r * P + P ≤ d * P := by
    have := Nat.mul_le_mul_right P (show r + 1 ≤ d by omega)
    rw [Nat.add_mul, Nat.one_mul] at this
    exact this
  have h1 : q * P ≤ Q := by
    by_contra hlt
    have := Nat.mul_le_mul_left d (show Q + 1 ≤ q * P by omega)
    rw [Nat.mul_add, Nat.mul_one] at this
    omega
  have h2 : Q < q * P + P := by
    by_contra hge
    have := Nat.mul_le_mul_left d (show q * P + P ≤ Q by omega)
    rw [Nat.mul_add] at this
    omega
  have h3 : m < q * P + P := by
    rcases hcases with ⟨rfl, _⟩ | ⟨rfl, hdu⟩
    · exact h2
    · by_contra hge
      have hQe : Q + 1 = q * P + P := by omega
      have e1 : d * (Q + 1) = d * (q * P) + d * P := by rw [hQe, Nat.mul_add]
      rw [Nat.mul_add, Nat.mul_one] at e1
      omega
  have h4 : q * P ≤ m := by
    rcases hcases with ⟨rfl, _⟩ | ⟨rfl, _⟩ <;> omega
  refine ⟨h4, h3, ?_, ?_⟩
  · intro h0
    subst h0
    rw [Nat.zero_mul, Nat.add_zero] at key
    have hQq : Q = q * P := by
      have : d * Q ≤ d * (q * P) := by omega
      have := Nat.le_of_mul_le_mul_left this hd
      omega
    rw [hQq] at key
    rcases hcases with ⟨rfl, _⟩ | ⟨rfl, hdu⟩ <;> omega
  · intro h0
    by_contra hlt
    have hm : m = q * P := by omega
    have hQq : Q = q * P := by
      rcases hcases with ⟨rfl, _⟩ | ⟨rfl, _⟩ <;> omega
    rw [hQq] at key
    have : P ≤ r * P := Nat.le_mul_of_pos_left P (by omega)
    rcases hcases with ⟨rfl, hle⟩ | ⟨rfl, _⟩ <;> omega

/-- Rounding a quotient to a multiple of `1 / P` does not move it across an integer when the
divisor is below `2 * P`. -/
theorem round_half_even_floor_ceil (n d P : Nat) (hd : 0 < d) (hP : d < 2 * P) :
    round_half_even (n * P) d / P = n / d ∧
      (round_half_even (n * P) d + P - 1) / P = (n + d - 1) / d := by
  have hP0 : 0 < P := by omega
  have hn := Nat.div_add_mod n d
  have hr := Nat.mod_lt n hd
  have hQ := Nat.div_add_mod (n * P) d
  have hu := Nat.mod_lt (n * P) hd
  have hcases := round_half_even_cases (n * P) d
  rw [ceil_div_cases n d hd]
  have key : (d * (n / d) + n % d) * P = d * (n * P / d) + n * P % d := by rw [hn, hQ]
  obtain ⟨h1, h2, h3, h4⟩ := rounded_quotient_bounds d P (n / d) (n % d) (n * P / d)
    (n * P % d) (round_half_even (n * P) d) hP hr hu key hcases
  generalize round_half_even (n * P) d = m at *
  generalize n / d = q at *
  generalize n % d = r at *
  have hq1 : (q + 1) * P = q * P + P := by ring
  refine ⟨div_eq_of_bounds h1 (by omega), ?_⟩
  split_ifs with h0
  · have := h3 h0
    apply div_eq_of_bounds <;> omega
  · have := h4 h0
    apply div_eq_of_bounds
    · omega
    · have : (q + 1 + 1) * P = q * P + P + P := by ring
      omega


theorem floor_log2_aux_le : ∀ (fuel x : Nat), 1 ≤ x → 2 ^ floor_log2_aux fuel x ≤ x := by
  intro fuel
  induction fuel with
  | zero => intro x hx; simpa [floor_log2_aux] using hx
  | succ f ih =>
    intro x hx
    unfold floor_log2_aux
    split_ifs with h2
    · simpa using hx
    · have := ih (x / 2) (by omega)
      rw [Nat.pow_succ]
      omega

theorem floor_log2_le (x : Nat) (hx : 1 ≤ x) : 2 ^ floor_log2 x ≤ x :=
  floor_log2_aux_le x x hx

theorem binary32_of_int_small (z : Int) (hz : z.natAbs < 16777216) : binary32_of_int z = z := by
  unfold binary32_of_int binary32_of_nat
  rw [if_pos hz]
  split_ifs <;> omega

theorem round_half_even_one (n : Nat) : round_half_even n 1 = n := by
  unfold round_half_even
  simp [Nat.mod_one]

/-- The floor of a negative quotient is minus the ceiling of the quotient of the magnitudes. -/
theorem neg_ediv_eq_neg_ceil (n d : Nat) (hd : 0 < d) :
    (-(n : Int)) / (d : Int) = -(((n + d - 1) / d : Nat) : Int) := by
  have h1 := Nat.div_add_mod (n + d - 1) d
  have h2 := Nat.mod_lt (n + d - 1) hd
  generalize (n + d - 1) / d = c at *
  generalize (n + d - 1) % d = rem at *
  have hdc : ((d * c : Nat) : Int) = (d : Int) * (c : Int) := by push_cast; rfl
  have := (Int.ediv_emod_unique (show (0 : Int) < (d : Int) by omega)).mpr
    (show ((d : Int) * (c : Int) - (n : Int)) + (d : Int) * (-(c : Int)) = -(n : Int) ∧
        0 ≤ (d : Int) * (c : Int) - (n : Int) ∧ (d : Int) * (c : Int) - (n : Int) < (d : Int) from
      ⟨by ring, by omega, by omega⟩)
  exact this.1

/-- In binary32 the floor of the quotient of two integers below `2^24` is the floor of their
exact quotient. -/
theorem binary32_div_floor_exact (a b : Int) (ha : a.natAbs < 16777216) (hb0 : 0 < b)
    (hb : b < 16777216) : binary32_div_floor a b = a / b := by
  obtain ⟨d, rfl⟩ : ∃ d : Nat, b = (d : Int) := ⟨b.toNat, by omega⟩
  have hd : 0 < d := by omega
  have hd24 : d < 16777216 := by omega
  unfold binary32_div_floor
  simp only [Int.natAbs_ofNat]
  have hbneg : ¬ ((d : Int) < 0) := by omega
  by_cases hn0 : a.natAbs = 0
  · have : a = 0 := by omega
    subst this
    simp
  rw [if_neg (by omega)]
  -- the sign of the result and the two quotients of the magnitudes
  have hsign : ∀ x y : Nat, x = a.natAbs / d → y = (a.natAbs + d - 1) / d →
      (if (a < 0 ↔ (d : Int) < 0) then (x : Int) else -(y : Int)) = a / (d : Int) := by
    intro x y hx hy
    by_cases hneg : a < 0
    · rw [if_neg (by simp [hneg, hbneg])]
      have : a = -(a.natAbs : Int) := by omega
      rw [hy]
      conv_rhs => rw [this]
      exact (neg_ediv_eq_neg_ceil a.natAbs d hd).symm
    · rw [if_pos (by simp [hneg, hbneg])]
      have : a = (a.natAbs : Int) := by omega
      rw [hx]
      conv_rhs => rw [this]
      exact Int.ofNat_ediv _ _
  generalize a.natAbs = n at *
  by_cases hdn : d ≤ n
  · rw [if_pos hdn]
    have hq : 1 ≤ n / d := (Nat.one_le_div_iff hd).mpr hdn
    have hpow := floor_log2_le (n / d) hq
    have hmul : d * 2 ^ floor_log2 (n / d) ≤ n :=
      le_trans (Nat.mul_le_mul_left d hpow) (Nat.mul_div_le n d)
    generalize floor_log2 (n / d) = e at *
    have he : e < 24 := by
      by_contra hge
      have : 2 ^ 24 ≤ 2 ^ e := Nat.pow_le_pow_right (by decide) (by omega)
      have : 2 ^ e ≤ d * 2 ^ e := Nat.le_mul_of_pos_left _ hd
      omega
    by_cases h23 : (23 : Int) ≤ (e : Int)
    · rw [if_pos h23]
      have hu : ((e : Int) - 23).toNat = 0 := by omega
      have e23 : e = 23 := by omega
      subst e23
      have hd1 : d = 1 := by omega
      subst hd1
      rw [hu, Nat.pow_zero, Nat.mul_one, Nat.mul_one, round_half_even_one]
      exact hsign n n (by simp) (by simp)
    · rw [if_neg h23]
      have hk : ((23 : Int) - (e : Int)).toNat = 23 - e := by omega
      rw [hk]
      have hP : d < 2 * 2 ^ (23 - e) := by
        by_contra hge
        have h1 : 2 * 2 ^ (23 - e) * 2 ^ e ≤ d * 2 ^ e := Nat.mul_le_mul_right _ (by omega)
        have h2 : 2 * 2 ^ (23 - e) * 2 ^ e = 2 ^ 24 := by
          rw [Nat.mul_assoc, ← Nat.pow_add, ← Nat.pow_succ']
          congr 1
          omega
        omega
      obtain ⟨f1, f2⟩ := round_half_even_floor_ceil n d (2 ^ (23 - e)) hd hP
      exact hsign _ _ f1 f2
  · rw [if_neg hdn]
    generalize floor_log2 ((d - 1) / n) = l
    have h23 : ¬ ((23 : Int) ≤ -((l : Int) + 1)) := by omega
    rw [if_neg h23]
    have hk : ((23 : Int) - -((l : Int) + 1)).toNat = 24 + l := by omega
    rw [hk]
    have hP : d < 2 * 2 ^ (24 + l) := by
      have : 2 ^ 24 ≤ 2 ^ (24 + l) := Nat.pow_le_pow_right (by decide) (by omega)
      omega
    obtain ⟨f1, f2⟩ := round_half_even_floor_ceil n d (2 ^ (24 + l)) hd hP
    exact hsign _ _ f1 f2

/-- While `n_regions * |nx[1]|` is below `2^24` the binary32 arithmetic of lines 18-19 of
`region_new` is exact. -/
theorem limit_binary32_exact (id R N : Int) (hid : 0 ≤ id) (hidN : id ≤ N) (hN : 1 ≤ N)
    (hex : N * |R| < 16777216) : limit_binary32 id R N = id * R / N := by
  unfold limit_binary32
  by_cases hR : R = 0
  · subst hR
    have h0 : binary32_of_int 0 = 0 := by decide
    rw [h0, Int.mul_zero, h0, Int.mul_zero]
    have : binary32_div_floor 0 (binary32_of_int N) = 0 := by
      unfold binary32_div_floor
      simp
    rw [this, Int.zero_ediv]
  · have hR1 : 1 ≤ |R| := Int.one_le_abs hR
    have hN24 : N < 16777216 := by nlinarith
    have hR24 : |R| < 16777216 := by nlinarith
    have hidR : id * |R| < 16777216 := by nlinarith
    have habs : |id * R| = id * |R| := by rw [abs_mul, abs_of_nonneg hid]
    have c1 : (R.natAbs : Int) = |R| := Int.natCast_natAbs R
    have c2 : ((id * R).natAbs : Int) = |id * R| := Int.natCast_natAbs (id * R)
    rw [binary32_of_int_small id (by omega), binary32_of_int_small R (by omega),
      binary32_of_int_small N (by omega),
      binary32_of_int_small (id * R) (by omega)]
    exact binary32_div_floor_exact (id * R) N (by omega) (by omega) hN24


section
variable {F : Type}

theorem region_init_binary32_eq (ext : Externals F) (N : Nat) (nx : Int × Int) (id : Int)
    (n_spec : Nat) (spec : Nat → t_species) (box : ℚ × ℚ) (dt : ℚ) (prev_region : Option Nat)
    (hid : 0 ≤ id) (hidN : id + 1 ≤ (N : Int)) (hex : N * nx.2.natAbs < 16777216) :
    region_init_binary32 ext N nx id n_spec spec box dt prev_region =
      region_init ext N nx id n_spec spec box dt prev_region := by
  have hex' : (N : Int) * |nx.2| < 16777216 := by
    rw [← Int.natCast_natAbs nx.2]
    exact_mod_cast hex
  unfold region_init_binary32 region_init
  rw [limit_binary32_exact id nx.2 N hid (by omega) (by omega) hex',
    limit_binary32_exact (id + 1) nx.2 N (by omega) hidN (by omega) hex',
    floor_limit, floor_limit]

/-- While `n_regions * |nx[1]|` is below `2^24`, `region_new` in binary32 returns what
`region_new` in exact arithmetic returns. -/
theorem region_new_binary32_eq (ext : Externals F) (N : Nat) (nx : Int × Int) (n_spec : Nat)
    (spec : Nat → t_species) (box : ℚ × ℚ) (dt : ℚ) (hex : N * nx.2.natAbs < 16777216) :
    ∀ (fuel : Nat) (h : Heap F) (region : Nat) (id : Int) (prev_region : Option Nat),
      0 ≤ id → id < (N : Int) →
      region_new_binary32 ext N nx n_spec spec box dt fuel h region id prev_region =
        region_new ext N nx n_spec spec box dt fuel h region id prev_region := by
  intro fuel
  induction fuel with
  | zero => intro h region id prev_region _ _; rfl
  | succ f ih =>
    intro h region id prev_region hid hidN
    unfold region_new_binary32 region_new
    rw [region_init_binary32_eq ext N nx id n_spec spec box dt prev_region hid (by omega) hex]
    by_cases hlt : id + 1 < (N : Int)
    · simp only [hlt, if_true]
      exact ih _ _ _ _ (by omega) hlt
    · simp only [hlt, if_false]

theorem region_new_binary32_step (ext : Externals F) (n_regions : Int) (nx : Int × Int) (n_spec : Nat)
    (spec : Nat → t_species) (box : ℚ × ℚ) (dt : ℚ) (fuel : Nat) (h : Heap F) (region : Nat)
    (id : Int) (prev_region : Option Nat) (hlt : id + 1 < n_regions) :
    region_new_binary32 ext n_regions nx n_spec spec box dt (fuel + 1) h region id prev_region =
      region_new_binary32 ext n_regions nx n_spec spec box dt fuel
        ⟨fun x => if x = region then
            some (region_built_binary32 ext n_regions nx n_spec spec box dt id prev_region (some h.brk))
          else h.cell x, h.brk + 1⟩
        h.brk (id + 1) (some region) := by
  simp only [region_new_binary32, hlt, if_true, Heap.malloc, Heap.write, region_built_binary32]
  congr 1
  congr 1
  funext x
  split_ifs <;> rfl

theorem region_new_binary32_last (ext : Externals F) (n_regions : Int) (nx : Int × Int) (n_spec : Nat)
    (spec : Nat → t_species) (box : ℚ × ℚ) (dt : ℚ) (fuel : Nat) (h : Heap F) (region : Nat)
    (id : Int) (prev_region : Option Nat) (hlt : ¬ id + 1 < n_regions) :
    region_new_binary32 ext n_regions nx n_spec spec box dt (fuel + 1) h region id prev_region =
      close_ring fuel
        (h.write region (region_built_binary32 ext n_regions nx n_spec spec box dt id prev_region none))
        region := by
  simp only [region_new_binary32, hlt, if_false, region_built_binary32]
  rfl

theorem region_new_binary32_gen (ext : Externals F) (N : Nat) (nx : Int × Int) (n_spec : Nat)
    (spec : Nat → t_species) (box : ℚ × ℚ) (dt : ℚ) (a0 b : Nat) (hab : a0 < b)
    (prev0 : Option Nat) :
    ∀ d k (h : Heap F) fuel, k + d + 1 = N → d + 1 + N ≤ fuel →
      h.brk = b + k →
      (∀ i, i < k → h.cell (ring_addr a0 b i) =
        some (region_built_binary32 ext N nx n_spec spec box dt i
          (if i = 0 then prev0 else some (ring_addr a0 b (i - 1)))
          (some (ring_addr a0 b (i + 1))))) →
      ∃ h', region_new_binary32 ext N nx n_spec spec box dt fuel h (ring_addr a0 b k) (k : Int)
            (if k = 0 then prev0 else some (ring_addr a0 b (k - 1))) = some h' ∧
        h'.brk = b + (N - 1) ∧
        (∀ i, i < N → h'.cell (ring_addr a0 b i) =
          some (region_built_binary32 ext N nx n_spec spec box dt i
            (some (ring_addr a0 b ((i + N - 1) % N)))
            (some (ring_addr a0 b ((i + 1) % N))))) ∧
        (∀ a, (∀ i, i < N → a ≠ ring_addr a0 b i) → h'.cell a = h.cell a) := by
  intro d
  induction d with
  | zero =>
    intro k h fuel hk hfuel hbrk hinv
    obtain ⟨f, rfl⟩ : ∃ f, fuel = f + 1 := ⟨fuel - 1, by omega⟩
    have hlast : ¬ ((k : Int) + 1 < (N : Int)) := by omega
    rw [region_new_binary32_last _ _ _ _ _ _ _ _ _ _ _ _ hlast]
    have hkN : k = N - 1 := by omega
    have hne : ∀ i, i < k → ring_addr a0 b i ≠ ring_addr a0 b k := fun i hi e => by
      have := ring_addr_inj hab e; omega
    have hwalk := first_by_prev_chain
      (h.write (ring_addr a0 b k) (region_built_binary32 ext N nx n_spec spec box dt k
        (if k = 0 then prev0 else some (ring_addr a0 b (k - 1))) none))
      (ring_addr a0 b) k
      (by
        intro i hi
        rcases Nat.lt_or_eq_of_le hi with hi' | rfl
        · refine ⟨region_built_binary32 ext N nx n_spec spec box dt i
              (if i = 0 then prev0 else some (ring_addr a0 b (i - 1)))
              (some (ring_addr a0 b (i + 1))), ?_, rfl, ?_⟩
          · simp only [Heap.write_cell, hne i hi', if_false, hinv i hi']
          · intro h0; simp only [region_built_binary32, region_init_binary32, h0, if_false]
        · refine ⟨region_built_binary32 ext N nx n_spec spec box dt i
              (if i = 0 then prev0 else some (ring_addr a0 b (i - 1))) none, ?_, rfl, ?_⟩
          · simp only [Heap.write_cell, if_true]
          · intro h0; simp only [region_built_binary32, region_init_binary32, h0, if_false])
      k le_rfl f (by omega)
    simp only [close_ring, hwalk]
    rcases Nat.eq_zero_or_pos k with hk0 | hkpos
    · subst hk0
      have hN1 : N = 1 := by omega
      subst hN1
      simp only [Heap.write_cell, if_true]
      refine ⟨_, rfl, by simp [hbrk], ?_, ?_⟩
      · intro i hi
        have : i = 0 := by omega
        subst this
        simp [region_built_binary32, region_init_binary32]
      · intro a ha
        have := ha 0 (by omega)
        simp [this]
    · have h0k : ring_addr a0 b 0 ≠ ring_addr a0 b k := hne 0 hkpos
      simp only [Heap.write_cell, h0k, if_false, hinv 0 hkpos, if_true, Ne.symm h0k]
      refine ⟨_, rfl, by simp [hbrk, hkN], ?_, ?_⟩
      · intro i hi
        simp only [Heap.write_cell]
        by_cases hik : i = k
        · subst hik
          have e1 : (i + N - 1) % N = i - 1 := by
            rw [show i + N - 1 = (i - 1) + N by omega, Nat.add_mod_right]
            exact Nat.mod_eq_of_lt (by omega)
          have e2 : (i + 1) % N = 0 := by
            rw [show i + 1 = N by omega, Nat.mod_self]
          simp [region_built_binary32, region_init_binary32, e1, e2, Nat.pos_iff_ne_zero.mp hkpos]
        · have hi' : i < k := by omega
          simp only [hne i hi', if_false]
          by_cases hi0 : i = 0
          · subst hi0
            have e1 : (0 + N - 1) % N = k := by
              rw [show 0 + N - 1 = k by omega]; exact Nat.mod_eq_of_lt (by omega)
            have e2 : (0 + 1) % N = 0 + 1 := Nat.mod_eq_of_lt (by omega)
            have e3 : k % N = k := Nat.mod_eq_of_lt (by omega)
            simp [region_built_binary32, region_init_binary32, e2, ← hkN, e3]
          · have e1 : (i + N - 1) % N = i - 1 := by
              rw [show i + N - 1 = (i - 1) + N by omega, Nat.add_mod_right]
              exact Nat.mod_eq_of_lt (by omega)
            have e2 : (i + 1) % N = i + 1 := Nat.mod_eq_of_lt (by omega)
            have hne0 : ring_addr a0 b i ≠ ring_addr a0 b 0 := fun e => by
              have := ring_addr_inj hab e; omega
            simp only [hne0, if_false, hinv i hi', hi0, e1, e2]
      · intro a ha
        have h1 := ha 0 (by omega)
        have h2 := ha k (by omega)
        simp [h1, h2]
  | succ d ih =>
    intro k h fuel hk hfuel hbrk hinv
    obtain ⟨f, rfl⟩ : ∃ f, fuel = f + 1 := ⟨fuel - 1, by omega⟩
    have hlt : ((k : Int) + 1 < (N : Int)) := by omega
    rw [region_new_binary32_step _ _ _ _ _ _ _ _ _ _ _ _ hlt]
    have key := ih (k + 1)
      ⟨fun x => if x = ring_addr a0 b k then
            some (region_built_binary32 ext N nx n_spec spec box dt k
              (if k = 0 then prev0 else some (ring_addr a0 b (k - 1))) (some h.brk))
          else h.cell x, h.brk + 1⟩
      f (by omega) (by omega) (by simp only [hbrk]; omega)
      (by
        intro i hi
        rcases Nat.lt_succ_iff_lt_or_eq.mp hi with hi' | rfl
        · have hne : ring_addr a0 b i ≠ ring_addr a0 b k := fun e => by
            have := ring_addr_inj hab e; omega
          simp only [hne, if_false, hinv i hi']
        · simp only [if_true, hbrk, ring_addr_succ])
    simp only [Nat.add_sub_cancel, Nat.succ_ne_zero, if_false, ring_addr_succ, Nat.cast_add,
      Nat.cast_one, ← hbrk] at key
    obtain ⟨h', e, hb, hc, hfr⟩ := key
    refine ⟨h', e, hb, hc, ?_⟩
    intro a ha
    rw [hfr a ha]
    have := ha k (by omega)
    simp only [this, if_false]

theorem region_new_binary32_built (ext : Externals F) (N : Nat) (hN : 1 ≤ N) (nx : Int × Int)
    (n_spec : Nat) (spec : Nat → t_species) (box : ℚ × ℚ) (dt : ℚ) (h : Heap F) (a0 : Nat)
    (ha : a0 < h.brk) (prev0 : Option Nat) (fuel : Nat) (hf : 2 * N ≤ fuel) :
    ∃ h', region_new_binary32 ext N nx n_spec spec box dt fuel h a0 0 prev0 = some h' ∧
      h'.brk = h.brk + (N - 1) ∧
      (∀ i, i < N → h'.cell (ring_addr a0 h.brk i) =
        some (region_built_binary32 ext N nx n_spec spec box dt i
          (some (ring_addr a0 h.brk ((i + N - 1) % N)))
          (some (ring_addr a0 h.brk ((i + 1) % N))))) ∧
      (∀ a, (∀ i, i < N → a ≠ ring_addr a0 h.brk i) → h'.cell a = h.cell a) := by
  have key := region_new_binary32_gen ext N nx n_spec spec box dt a0 h.brk ha prev0 (N - 1) 0 h fuel
    (by omega) (by omega) (by omega) (fun i hi => absurd hi (Nat.not_lt_zero i))
  simpa [ring_addr] using key

theorem main_vector_of_built_binary32 (ext : Externals F)
    (hspec : ∀ s, (ext.spec_new s).main_vector.data = []) (n_regions : Int) (nx : Int × Int)
    (n_spec : Nat) (spec : Nat → t_species) (box : ℚ × ℚ) (dt : ℚ) (id : Int)
    (p q : Option Nat) (h : Heap F) (a : Nat)
    (hc : h.cell a = some (region_built_binary32 ext n_regions nx n_spec spec box dt id p q))
    (n : Nat) (hn : n < n_spec) :
    main_vector_of h a n = (spec n).main_vector.data.filter (fun part =>
      decide ((region_built_binary32 ext n_regions nx n_spec spec box dt id p q).limits_y.1 ≤ part.iy ∧
        part.iy < (region_built_binary32 ext n_regions nx n_spec spec box dt id p q).limits_y.2)) := by
  unfold main_vector_of
  rw [hc]
  simp only [region_built_binary32, region_init_binary32]
  rw [List.getElem?_map, List.getElem?_range hn]
  simp only [Option.map_some', new_species, copy_particles_data, hspec, List.nil_append]

theorem region_built_binary32_limits (ext : Externals F) (n_regions : Int) (nx : Int × Int)
    (n_spec : Nat) (spec : Nat → t_species) (box : ℚ × ℚ) (dt : ℚ) (id : Int)
    (p q : Option Nat) :
    (region_built_binary32 ext n_regions nx n_spec spec box dt id p q).limits_y =
      (limit_binary32 id nx.2 n_regions, limit_binary32 (id + 1) nx.2 n_regions) := rfl

theorem region_built_binary32_nx (ext : Externals F) (n_regions : Int) (nx : Int × Int)
    (n_spec : Nat) (spec : Nat → t_species) (box : ℚ × ℚ) (dt : ℚ) (id : Int)
    (p q : Option Nat) :
    (region_built_binary32 ext n_regions nx n_spec spec box dt id p q).nx.2 =
      limit_binary32 (id + 1) nx.2 n_regions - limit_binary32 id nx.2 n_regions := rfl

/-- The binary32 arithmetic of lines 18-19 of `region_new` is exact when the two factors, their
product and the divisor are all below `2^24`. -/
theorem limit_binary32_exact_of_small (id R N : Int) (hid : id.natAbs < 16777216)
    (hR : R.natAbs < 16777216) (hprod : (id * R).natAbs < 16777216) (hN0 : 0 < N)
    (hN : N < 16777216) : limit_binary32 id R N = id * R / N := by
  unfold limit_binary32
  rw [binary32_of_int_small id hid, binary32_of_int_small R hR,
    binary32_of_int_small N (by omega), binary32_of_int_small (id * R) hprod]
  exact binary32_div_floor_exact (id * R) N hprod hN0 hN

/-- Exactness of the limits for the regions of a ring of `N` regions on a grid of height `R`
with `N * |R| < 2^24`. -/
theorem limit_binary32_exact_nat (N : Nat) (R : Int) (hex : N * R.natAbs < 16777216) (i : Nat)
    (hi : i ≤ N) (hN : 1 ≤ N) :
    limit_binary32 (i : Int) R (N : Int) = (i : Int) * R / (N : Int) := by
  have hex' : (N : Int) * |R| < 16777216 := by
    rw [← Int.natCast_natAbs R]
    exact_mod_cast hex
  exact limit_binary32_exact i R N (by omega) (by omega) (by omega) hex'

/-- C6 (amended).  Assume `spec_new` yields a species whose main vector is empty.  For every
`N ≥ 1`, grid height `R` and species `n`: after `region_new`, its limits computed in binary32
as the compiled code does, the main vector of species `n` of the region with id `i` holds
exactly the particles of the template with `limits_y[0] ≤ iy < limits_y[1]`, in the order of
the template.  When `N * |R| < 2^24`, the sizes for which the binary32 arithmetic of lines 18-19
is exact, the limits are `⌊i*R/N⌋` and `⌊(i+1)*R/N⌋`, each particle of the template with
`0 ≤ iy < R` is in the main vector of exactly one region, and when all particles of the template
have `0 ≤ iy < R` the sizes of the main vectors of the `N` regions add up to the size of the
template. -/
theorem region_new_binary32_buckets_particles (ext : Externals F)
    (hspec : ∀ s, (ext.spec_new s).main_vector.data = []) (N : Nat) (hN : 1 ≤ N) (R : Int)
    (nx0 : Int) (n_spec : Nat) (spec : Nat → t_species) (box : ℚ × ℚ) (dt : ℚ)
    (h : Heap F) (a0 : Nat) (ha : a0 < h.brk) (prev_region : Option Nat) (fuel : Nat)
    (hf : 2 * N ≤ fuel) :
    ∃ h', region_new_binary32 ext N (nx0, R) n_spec spec box dt fuel h a0 0 prev_region =
        some h' ∧
      (∀ i, i < N → ∀ n, n < n_spec →
        ∃ r, h'.cell (ring_addr a0 h.brk i) = some r ∧ r.id = (i : Int) ∧
          r.limits_y = (limit_binary32 (i : Int) R (N : Int),
            limit_binary32 ((i : Int) + 1) R (N : Int)) ∧
          main_vector_of h' (ring_addr a0 h.brk i) n =
            (spec n).main_vector.data.filter
              (fun p => decide (r.limits_y.1 ≤ p.iy ∧ p.iy < r.limits_y.2))) ∧
      (N * R.natAbs < 16777216 →
        (∀ i, i ≤ N → limit_binary32 (i : Int) R (N : Int) = (i : Int) * R / (N : Int)) ∧
        (∀ n, n < n_spec → ∀ p, p ∈ (spec n).main_vector.data → 0 ≤ p.iy → p.iy < R →
          ∃! i : Nat, i < N ∧ p ∈ main_vector_of h' (ring_addr a0 h.brk i) n) ∧
        (∀ n, n < n_spec → (∀ p, p ∈ (spec n).main_vector.data → 0 ≤ p.iy ∧ p.iy < R) →
          Finset.sum (Finset.range N)
              (fun i => (main_vector_of h' (ring_addr a0 h.brk i) n).length) =
            (spec n).main_vector.data.length)) := by
  obtain ⟨h', e, _, hc, _⟩ :=
    region_new_binary32_built ext N hN (nx0, R) n_spec spec box dt h a0 ha prev_region fuel hf
  have hmv0 : ∀ i, i < N → ∀ n, n < n_spec →
      main_vector_of h' (ring_addr a0 h.brk i) n = (spec n).main_vector.data.filter (fun p =>
        decide (limit_binary32 (i : Int) R (N : Int) ≤ p.iy ∧
          p.iy < limit_binary32 ((i : Int) + 1) R (N : Int))) := by
    intro i hi n hn
    rw [main_vector_of_built_binary32 ext hspec _ _ _ _ _ _ _ _ _ h' _ (hc i hi) n hn]
    simp only [region_built_binary32_limits]
  refine ⟨h', e, ?_, ?_⟩
  · intro i hi n hn
    refine ⟨_, hc i hi, rfl, region_built_binary32_limits _ _ _ _ _ _ _ _ _ _, ?_⟩
    rw [hmv0 i hi n hn]
    simp only [region_built_binary32_limits]
  intro hex
  have hlim : ∀ i, i ≤ N → limit_binary32 (i : Int) R (N : Int) = (i : Int) * R / (N : Int) :=
    fun i hi => limit_binary32_exact_nat N R hex i hi hN
  have hmv : ∀ i, i < N → ∀ n, n < n_spec →
      main_vector_of h' (ring_addr a0 h.brk i) n = (spec n).main_vector.data.filter (fun p =>
        decide ((i : Int) * R / (N : Int) ≤ p.iy ∧ p.iy < ((i : Int) + 1) * R / (N : Int))) := by
    intro i hi n hn
    have h1 := hlim i (by omega)
    have h2 := hlim (i + 1) (by omega)
    simp only [Nat.cast_add, Nat.cast_one] at h2
    rw [hmv0 i hi n hn, h1, h2]
  refine ⟨hlim, ?_, ?_⟩
  · intro n hn p hp h0 h1
    obtain ⟨i, ⟨hi, hia, hib⟩, huniq⟩ := row_in_one_band R N hN p.iy h0 h1
    refine ⟨i, ⟨hi, ?_⟩, ?_⟩
    · rw [hmv i hi n hn, List.mem_filter]
      exact ⟨hp, by simpa using ⟨hia, hib⟩⟩
    · rintro j ⟨hj, hmem⟩
      rw [hmv j hj n hn, List.mem_filter] at hmem
      have := hmem.2
      simp only [decide_eq_true_eq] at this
      exact huniq j ⟨hj, this.1, this.2⟩
  · intro n hn hall
    rw [← sum_filter_bands R N hN _ hall]
    apply Finset.sum_congr rfl
    intro i hi
    rw [hmv i (Finset.mem_range.mp hi) n hn]

/-- C7 (amended).  `region_new` does not check the grid height against the number of regions.
For every `n_regions` with `1 ≤ n_regions < 2^24` and every grid height with
`0 ≤ nx[1] < n_regions`, in a run whose allocations succeed, as those of the store of this model
always do, `region_new` (its limits computed in binary32 as the compiled code does) started at
id 0 reports nothing and returns the ring of `n_regions` regions it has built, the region with
id `i` at the `i`-th address; region 0 of that ring owns no row (`limits_y = [0, 0)`,
`nx[1] = 0`). -/
theorem region_new_accepts_degenerate (ext : Externals F) (N : Nat) (hN : 1 ≤ N)
    (hN24 : N < 16777216) (R : Int) (hR : 0 ≤ R) (hlt : R < (N : Int)) (nx0 : Int)
    (n_spec : Nat) (spec : Nat → t_species) (box : ℚ × ℚ) (dt : ℚ) (h : Heap F) (a0 : Nat)
    (ha : a0 < h.brk) (prev_region : Option Nat) (fuel : Nat) (hf : 2 * N ≤ fuel) :
    ∃ h', region_new_binary32 ext N (nx0, R) n_spec spec box dt fuel h a0 0 prev_region =
        some h' ∧
      (∀ i, i < N → ∃ r, h'.cell (ring_addr a0 h.brk i) = some r ∧ r.id = (i : Int) ∧
        r.next = some (ring_addr a0 h.brk ((i + 1) % N)) ∧
        r.prev = some (ring_addr a0 h.brk ((i + N - 1) % N))) ∧
      (∃ r, h'.cell a0 = some r ∧ r.id = 0 ∧ r.limits_y = (0, 0) ∧ r.nx.2 = 0) := by
  obtain ⟨h', e, _, hc, _⟩ := region_new_binary32_built ext N hN (nx0, R) n_spec spec box dt
    h a0 ha prev_region fuel hf
  have hc0 := hc 0 (by omega)
  have ha0 : ring_addr a0 h.brk 0 = a0 := by simp [ring_addr]
  rw [ha0] at hc0
  have l0 : limit_binary32 0 R (N : Int) = 0 := by
    rw [limit_binary32_exact_of_small 0 R N (by decide) (by omega) (by simp) (by omega)
      (by omega)]
    simp
  have l1 : limit_binary32 (0 + 1) R (N : Int) = 0 := by
    rw [limit_binary32_exact_of_small (0 + 1) R N (by decide) (by omega) (by omega) (by omega)
      (by omega)]
    simp [Int.ediv_eq_zero_of_lt hR hlt]
  refine ⟨h', e, fun i hi => ⟨_, hc i hi, rfl, rfl, rfl⟩, _, hc0, rfl, ?_, ?_⟩
  · rw [region_built_binary32_limits]
    simp only [Nat.cast_zero, l0, l1]
  · rw [region_built_binary32_nx]
    simp only [Nat.cast_zero, l0, l1]
    rfl

end

/-- C6 (witness).  With 4 regions and a grid of height 100 the regions own the rows `[0,25)`,
`[25,50)`, `[50,75)` and `[75,100)`; of the particles of `spec0` the one in row 24 lands in
region 0, the one in row 25 in region 1 and the one in row 80 in region 3, and the sizes of the
four main vectors add up to 3. -/
theorem region_new_binary32_buckets_particles_witness :
    (∀ s, (ext0.spec_new s).main_vector.data = []) ∧
    (1 ≤ (4 : Nat)) ∧
    (0 < heap0.brk) ∧
    (2 * (4 : Nat) ≤ 8) ∧
    ((4 : Nat) * (100 : Int).natAbs < 16777216) ∧
    (∃ h', region_new_binary32 ext0 (4 : Nat) (10, 100) 1 spec0 (1, 1) 1 8 heap0 0 0 none
        = some h' ∧
      (∃ r0 r1 r2 r3, h'.cell 0 = some r0 ∧ h'.cell 1 = some r1 ∧ h'.cell 2 = some r2 ∧
        h'.cell 3 = some r3 ∧ r0.limits_y = (0, 25) ∧ r1.limits_y = (25, 50) ∧
        r2.limits_y = (50, 75) ∧ r3.limits_y = (75, 100)) ∧
      main_vector_of h' 0 0 = [⟨3, 24, 0⟩] ∧
      main_vector_of h' 1 0 = [⟨3, 25, 1⟩] ∧
      main_vector_of h' 2 0 = [] ∧
      main_vector_of h' 3 0 = [⟨7, 80, 2⟩] ∧
      Finset.sum (Finset.range 4) (fun i => (main_vector_of h' (ring_addr 0 heap0.brk i) 0).length)
        = 3) := by
  refine ⟨fun _ => rfl, by decide, by decide, by decide, by decide, ?_⟩
  obtain ⟨h', e, hA, hB⟩ := region_new_binary32_buckets_particles ext0 (fun _ => rfl)
    (4 : Nat) (by decide) 100 10 1 spec0 (1, 1) 1 heap0 0 (by decide) none 8 (by decide)
  obtain ⟨_, _, hC⟩ := hB (by decide)
  obtain ⟨r0, c0, _, l0, m0⟩ := hA 0 (by decide) 0 (by decide)
  obtain ⟨r1, c1, _, l1, m1⟩ := hA 1 (by decide) 0 (by decide)
  obtain ⟨r2, c2, _, l2, m2⟩ := hA 2 (by decide) 0 (by decide)
  obtain ⟨r3, c3, _, l3, m3⟩ := hA 3 (by decide) 0 (by decide)
  have l0' : r0.limits_y = (0, 25) := by rw [l0]; decide
  have l1' : r1.limits_y = (25, 50) := by rw [l1]; decide
  have l2' : r2.limits_y = (50, 75) := by rw [l2]; decide
  have l3' : r3.limits_y = (75, 100) := by rw [l3]; decide
  rw [l0'] at m0
  rw [l1'] at m1
  rw [l2'] at m2
  rw [l3'] at m3
  refine ⟨h', e, ⟨r0, r1, r2, r3, c0, c1, c2, c3, l0', l1', l2', l3'⟩, ?_, ?_, ?_, ?_, ?_⟩
  · exact (show main_vector_of h' 0 0 = _ from m0).trans (by decide)
  · exact (show main_vector_of h' 1 0 = _ from m1).trans (by decide)
  · exact (show main_vector_of h' 2 0 = _ from m2).trans (by decide)
  · exact (show main_vector_of h' 3 0 = _ from m3).trans (by decide)
  · exact hC 0 (by decide) (by decide)

/-- C7 (witness).  Three regions on a grid of height 2. -/
theorem region_new_accepts_degenerate_witness :
    (1 ≤ 3) ∧ (3 < 16777216) ∧ ((0 : Int) ≤ 2) ∧ ((2 : Int) < ((3 : Nat) : Int)) ∧
    (0 < heap0.brk) ∧ (2 * 3 ≤ 6) ∧
    (∃ h', region_new_binary32 ext0 ((3 : Nat) : Int) (4, 2) 1 spec0 (1, 1) 1 6 heap0 0 0 none
        = some h' ∧
      (∀ i, i < 3 → ∃ r, h'.cell (ring_addr 0 heap0.brk i) = some r ∧ r.id = (i : Int) ∧
        r.next = some (ring_addr 0 heap0.brk ((i + 1) % 3)) ∧
        r.prev = some (ring_addr 0 heap0.brk ((i + 3 - 1) % 3))) ∧
      (∃ r, h'.cell 0 = some r ∧ r.id = 0 ∧ r.limits_y = (0, 0) ∧ r.nx.2 = 0)) :=
  ⟨by decide, by decide, by decide, by decide, by decide, by decide,
    region_new_accepts_degenerate ext0 3 (by decide) (by decide) 2 (by decide) (by decide) 4 1
      spec0 (1, 1) 1 heap0 0 (by decide) none 6 (by decide)⟩

/-- C7 (counterexample).  With 2 regions and a grid of height 1 `region_new` does not fail: it
returns a ring, in which region 0 has no row. -/
theorem region_new_two_regions_one_row :
    ((2 : Int) ≤ 0 ∨ (1 : Int) < 2) ∧
    region_new_binary32 ext0 2 (4, 1) 1 spec0 (1, 1) 1 6 heap0 0 0 none ≠ none ∧
    ∃ h', region_new_binary32 ext0 2 (4, 1) 1 spec0 (1, 1) 1 6 heap0 0 0 none = some h' ∧
      well_formed_ring h' [0, 1] ∧
      ∃ r, h'.cell 0 = some r ∧ r.limits_y = (0, 0) ∧ r.nx.2 = 0 := by
  refine ⟨by decide, ?_, _, rfl, ?_, _, rfl, rfl, rfl⟩
  · intro e
    cases e
  · refine ⟨by decide, ?_⟩
    intro i hi
    have hi' : i < 2 := hi
    interval_cases i
    · exact ⟨_, rfl, rfl, rfl, rfl⟩
    · exact ⟨_, rfl, rfl, rfl, rfl⟩

/-- C6 (counterexample).  With 3 regions, a grid of height 5592407 and a template that holds a
particle in row 0 and a particle in row 5592406, `region_new`, its limits computed in binary32
as the compiled code does, builds the ring of the regions 0, 1 and 2 with the rows
`[0, 1864135)`, `[1864135, 3728271)` and `[3728271, 5592406)`: row 5592406 of the grid is in no
region, the particle in it is in no main vector, and the sizes of the three main vectors add up
to 1, not to the 2 particles of the template. -/
theorem region_new_binary32_drops_particle :
    (∀ s, (ext0.spec_new s).main_vector.data = []) ∧
    (spec_top 0).main_vector.data = [⟨1, 0, 0⟩, ⟨2, 5592406, 1⟩] ∧
    (∀ p, p ∈ (spec_top 0).main_vector.data → 0 ≤ p.iy ∧ p.iy < 5592407) ∧
    ∃ h', region_new_binary32 ext0 3 (4, 5592407) 1 spec_top (1, 1) 1 6 heap0 0 0 none = some h' ∧
      well_formed_ring h' [0, 1, 2] ∧
      limits_y_of h' 0 = some (0, 1864135) ∧
      limits_y_of h' 1 = some (1864135, 3728271) ∧
      limits_y_of h' 2 = some (3728271, 5592406) ∧
      main_vector_of h' 0 0 = [⟨1, 0, 0⟩] ∧
      main_vector_of h' 1 0 = [] ∧
      main_vector_of h' 2 0 = [] ∧
      (main_vector_of h' 0 0).length + (main_vector_of h' 1 0).length
        + (main_vector_of h' 2 0).length ≠ (spec_top 0).main_vector.data.length := by
  refine ⟨fun _ => rfl, rfl, by decide, _, rfl, ?_, rfl, rfl, rfl, rfl, rfl, rfl, by decide⟩
  refine ⟨by decide, ?_⟩
  intro i hi
  have hi' : i < 3 := hi
  interval_cases i
  · exact ⟨_, rfl, rfl, rfl, rfl⟩
  · exact ⟨_, rfl, rfl, rfl, rfl⟩
  · exact ⟨_, rfl, rfl, rfl, rfl⟩

/-- With 4095 regions and a grid of height 4099 the last region gets the rows `[4097, 4098)` in
binary32: row 4098 of the grid is missing there too. -/
theorem limit_binary32_4095_regions :
    limit_binary32 4094 4099 4095 = 4097 ∧ limit_binary32 4095 4099 4095 = 4098 := by
  decide

end Zpic
